import Mathlib

/-!
# Verification of the Contour Chaining & Toolpath Synthesis Engine

Shallow embedding of the toolpath engine of this repository
(`src/unnamed/part_000`, `src/unnamed/part_001`, `src/app.js`) and proofs
about it.  JavaScript numbers are idealized as exact rationals (`ℚ`)
wherever the code only adds, multiplies, divides, rounds and compares, and
as real numbers (`ℝ`) where the code calls `Math.sqrt` / trigonometry.
A Euclidean-distance comparison `Math.hypot(dx,dy) <= tol` is modelled by
the exactly equivalent squared comparison `dx^2 + dy^2 <= tol^2` on `ℚ`
(for `0 <= tol`).  Namespaces: `P0` embeds `src/unnamed/part_000`,
`NC` embeds the NorrisCAM variant (first document of `src/unnamed/part_001`,
whose move planner / emitter are line-for-line identical to `buildMoves` /
`buildNCWithMap` of `src/app.js`), `App` embeds the tracing-mode chainer of
`src/app.js`, `E1` / `E0` embed the two DXF segment extractors, and `R`
embeds the real-valued bulge geometry.
-/

/-- Planar point with exact rational coordinates (models a JS `{x, y}`
object whose fields hold finite doubles). -/
structure Pt where
  x : ℚ
  y : ℚ
deriving DecidableEq, Repr

/-- Squared Euclidean distance.  The source computes
`Math.hypot(a.x-b.x, a.y-b.y)`; every use in the chaining code is a
comparison against a nonnegative tolerance, which we state squared. -/
def dist2 (a b : Pt) : ℚ := (a.x - b.x) ^ 2 + (a.y - b.y) ^ 2

/-- `samePt` of `part_001` / `app.js`: Chebyshev coincidence test
`Math.abs(a.x-b.x)<=tol && Math.abs(a.y-b.y)<=tol`. -/
def samePt (a b : Pt) (tol : ℚ) : Prop := |a.x - b.x| ≤ tol ∧ |a.y - b.y| ≤ tol

instance (a b : Pt) (tol : ℚ) : Decidable (samePt a b tol) := by
  unfold samePt; infer_instance

/-- `collinear` of `part_001` / `app.js`: cross-product magnitude test
`Math.abs((b.x-a.x)*(c.y-a.y)-(b.y-a.y)*(c.x-a.x)) <= eps`. -/
def collinearE (a b c : Pt) (eps : ℚ) : Prop :=
  |(b.x - a.x) * (c.y - a.y) - (b.y - a.y) * (c.x - a.x)| ≤ eps

instance (a b c : Pt) (eps : ℚ) : Decidable (collinearE a b c eps) := by
  unfold collinearE; infer_instance

/-- `snapPoint` of `part_001` / `app.js`:
`{x: Math.round(p.x/grid)*grid, y: Math.round(p.y/grid)*grid}`.
`Math.round` rounds half toward `+∞`, exactly Mathlib's `round`. -/
def snapPoint (p : Pt) (grid : ℚ) : Pt :=
  ⟨(round (p.x / grid) : ℤ) * grid, (round (p.y / grid) : ℤ) * grid⟩

/-- `keyPt` of `part_000` (and the `k`/`key` closures of the tracing
chainers): quantized grid cell of a point, the key of the spatial hash.
The JS code builds the string `"qx,qy"`; we keep the integer pair, which
the string determines and is determined by. -/
def keyPt (p : Pt) (tol : ℚ) : ℤ × ℤ := (round (p.x / tol), round (p.y / tol))

/-- A line segment `{a, b}` (JS objects with `kind:"line"`); the tracing
pipelines of `part_001` / `app.js` work exclusively with these. -/
structure LSeg where
  a : Pt
  b : Pt
deriving DecidableEq, Repr

instance : Inhabited LSeg := ⟨⟨⟨0, 0⟩, ⟨0, 0⟩⟩⟩

/-- A path: wrapper around an ordered segment list (JS `{segments:[...]}`;
`app.js` names the field `segs`). -/
structure LPath where
  segments : List LSeg
deriving DecidableEq, Repr

instance : Inhabited LPath := ⟨⟨[]⟩⟩

/-- First point of a path: `p.segments[0].a` (the JS code indexes without
an emptiness guard; paths in the pipeline are nonempty, and theorems that
need this carry nonemptiness hypotheses). -/
def firstPt (p : LPath) : Pt := (p.segments.headD default).a

/-- Last point of a path: `p.segments[p.segments.length-1].b`. -/
def lastPt (p : LPath) : Pt := (p.segments.getLastD default).b

/-- One output line of the command emitters.  The JS emitters push strings
built with a fixed format per push site; we keep one constructor per
distinct line shape, carrying the numeric payload exactly.  The emitted
text is the newline-join of the rendered lines, so properties of the text
are properties of this list. -/
inductive NCLine where
  | text (s : String)
  | rapidZ (z : ℚ)
  | rapidXY (x y : ℚ)
  | plungeF (z f : ℚ)
  | plunge (z : ℚ)
  | feed (f : ℚ)
  | cutLine (x y : ℚ)
  | cutArc (ccw : Bool) (x y i j : ℚ)
deriving DecidableEq, Repr

/-- The option record consumed by the engine (`readOpts` of `part_001` /
`app.js`); all numeric fields are caller-validated per the spec. -/
structure Opts where
  safeZ : ℚ
  totalDepth : ℚ
  stepDown : ℚ
  feedXY : ℚ
  feedZ : ℚ
  outPrec : ℚ
  snapGrid : ℚ
  angleTolDeg : ℚ
  chainTol : ℚ
  toolComment : String
deriving DecidableEq

namespace NC

/-- Move records of the NorrisCAM planner (`part_001` lines 340-358 /
`app.js` lines 1489-1498): tagged objects with absolute targets. -/
inductive Move where
  | retract (z : ℚ)
  | rapidXY (x y : ℚ)
  | plunge (z f : ℚ)
  | feedXY (f : ℚ)
  | cutLine (x y : ℚ)
deriving DecidableEq, Repr

/-- The per-pass target depth list of `buildMoves` (`part_001` lines
329-333 / `app.js` lines 1480-1484):
`passCount = max(1, ceil(depth/step))`, entry `i` (1-based) is
`-min(depth, i*step)` with `depth = |totalDepth|`. -/
def passDepths (totalDepth stepDown : ℚ) : List ℚ :=
  let depth := |totalDepth|
  let passCount := max 1 ⌈depth / stepDown⌉
  (List.range passCount.toNat).map fun (k : ℕ) => -(min depth (((k : ℚ) + 1) * stepDown))

/-- The planner's threaded cursor state `{curXY, curZ}`. -/
structure MState where
  xy : Pt
  z : ℚ
deriving DecidableEq, Repr

/-- The `retract()` helper of `buildMoves`: push a retract move only when
not already at safe Z. -/
def retractM (safeZ : ℚ) (st : MState) : MState × List Move :=
  if st.z = safeZ then (st, []) else (⟨st.xy, safeZ⟩, [Move.retract safeZ])

/-- The per-path body of `buildMoves` (`part_001` lines 366-395 /
`app.js` lines 1504-1524): reposition (retract, rapid, plunge, feed) when
the cursor is not at the path start at pass depth, else stay down; then
one cut per segment. -/
def pathMoves (opts : Opts) (passZ : ℚ) (st : MState) (p : LPath) : MState × List Move :=
  if p.segments = [] then (st, [])
  else
    let start := firstPt p
    let (st2, intro) :=
      if ¬ samePt st.xy start opts.chainTol ∨ st.z ≠ passZ then
        let (st1, r) := retractM opts.safeZ st
        let (stR, rp) :=
          if ¬ samePt st1.xy start opts.chainTol then
            ((⟨start, st1.z⟩ : MState), [Move.rapidXY start.x start.y])
          else (st1, [])
        ((⟨stR.xy, passZ⟩ : MState),
          r ++ rp ++ [Move.plunge passZ opts.feedZ, Move.feedXY opts.feedXY])
      else (st, [Move.feedXY opts.feedXY])
    let (st3, cuts) := p.segments.foldl
      (fun (acc : MState × List Move) s =>
        ((⟨s.b, acc.1.z⟩ : MState), acc.2 ++ [Move.cutLine s.b.x s.b.y]))
      (st2, [])
    (st3, intro ++ cuts)

/-- One depth pass of `buildMoves`: leading `retract()`, every path, then
the end-of-pass `retract()`. -/
def passMoves (opts : Opts) (paths : List LPath) (passZ : ℚ) (st : MState) :
    MState × List Move :=
  let (st1, r1) := retractM opts.safeZ st
  let (st2, body) := paths.foldl
    (fun (acc : MState × List Move) p =>
      ((pathMoves opts passZ acc.1 p).1, acc.2 ++ (pathMoves opts passZ acc.1 p).2))
    (st1, [])
  let (st3, r2) := retractM opts.safeZ st2
  (st3, r1 ++ body ++ r2)

/-- `buildMoves` of `part_001` lines 327-402 / `app.js` lines 1478-1529:
the cursor starts at `(0,0)` at safe Z, an initial (conditional) retract
is attempted, and every pass depth is executed in order. -/
def buildMoves (paths : List LPath) (opts : Opts) : List Move :=
  let st0 : MState := ⟨⟨0, 0⟩, opts.safeZ⟩
  let (st1, r0) := retractM opts.safeZ st0
  let (_, rest) := (passDepths opts.totalDepth opts.stepDown).foldl
    (fun (acc : MState × List Move) passZ =>
      ((passMoves opts paths passZ acc.1).1, acc.2 ++ (passMoves opts paths passZ acc.1).2))
    (st1, [])
  r0 ++ rest

/-- `mergeContinuousPaths` inner loop (`part_001` lines 309-322 /
`app.js` lines 1462-1474): fuse the running path with the next one when
its end coincides with the next start within `chainTol`, else flush. -/
def mergeLoop (chainTol : ℚ) (cur : LPath) : List LPath → List LPath
  | [] => [cur]
  | next :: rest =>
    if samePt (lastPt cur) (firstPt next) chainTol then
      mergeLoop chainTol ⟨cur.segments ++ next.segments⟩ rest
    else cur :: mergeLoop chainTol next rest

/-- `mergeContinuousPaths` of `part_001` lines 303-324 / `app.js`
lines 1457-1476 (there named `mergeContinuous`). -/
def mergeContinuousPaths (paths : List LPath) (chainTol : ℚ) : List LPath :=
  match paths with
  | [] => []
  | p :: rest => mergeLoop chainTol p rest

/-- Shadow state of the command emitters (`buildNC` of `part_001` lines
418-420 / `buildNCWithMap` of `app.js` lines 1553-1555): `lastF`, `atZ`
and `atXY` all start as JS `null`, modelled by `none`. -/
structure EmitState where
  lastF : Option ℚ
  atZ : Option ℚ
  atXY : Option Pt
deriving DecidableEq, Repr

/-- One iteration of the emitter loop over a move (`part_001` lines
425-449 / `app.js` lines 1560-1593): suppress a Z-rapid at the current Z,
an XY-rapid at the current XY and a feed line at the current feed; a
plunge always emits, carrying `F` only on feed change. -/
def emitStep (st : EmitState) (m : Move) : EmitState × List NCLine :=
  match m with
  | .retract z =>
    if st.atZ = some z then (st, [])
    else (⟨st.lastF, some z, st.atXY⟩, [NCLine.rapidZ z])
  | .rapidXY x y =>
    if st.atXY = some ⟨x, y⟩ then (st, [])
    else (⟨st.lastF, st.atZ, some ⟨x, y⟩⟩, [NCLine.rapidXY x y])
  | .plunge z f =>
    if st.lastF = some f then (⟨st.lastF, some z, st.atXY⟩, [NCLine.plunge z])
    else (⟨some f, some z, st.atXY⟩, [NCLine.plungeF z f])
  | .feedXY f =>
    if st.lastF = some f then (st, [])
    else (⟨some f, st.atZ, st.atXY⟩, [NCLine.feed f])
  | .cutLine x y => (⟨st.lastF, st.atZ, some ⟨x, y⟩⟩, [NCLine.cutLine x y])

/-- The emitter's move loop. -/
def emitLoop (st : EmitState) : List Move → List NCLine
  | [] => []
  | m :: ms =>
    let (st1, ls) := emitStep st m
    ls ++ emitLoop st1 ms

/-- The fixed preamble pushed by `buildNC` of `part_001` (lines 406-416). -/
def preNC (opts : Opts) : List NCLine :=
  [.text "%", .text "(NorrisCAM - USB G-code)", .text opts.toolComment,
   .text "G90 (absolute)", .text "G94 (feed/min)", .text "G17 (XY plane)",
   .text "G20 (inches)", .text "G40 (cancel cutter comp)",
   .text "G49 (cancel tool length offset)", .text "G54 (work offset)"]

/-- `buildNC` of `part_001` lines 404-454. -/
def buildNC (moves : List Move) (opts : Opts) : List NCLine :=
  preNC opts ++ emitLoop ⟨none, none, none⟩ moves ++ [.text "M30 (end)", .text "%"]

/-- The fixed preamble pushed by `buildNCWithMap` of `app.js`
(lines 1542-1551); only the identifying comment differs from `preNC`. -/
def preNCMap (opts : Opts) : List NCLine :=
  [.text "%", .text "(NorrisCAM - USB DAT G-code)", .text opts.toolComment,
   .text "G90 (absolute)", .text "G94 (feed/min)", .text "G17 (XY plane)",
   .text "G20 (inches)", .text "G40 (cancel cutter comp)",
   .text "G49 (cancel tool length offset)", .text "G54 (work offset)"]

/-- The emitter loop of `buildNCWithMap`, also recording the
move-index → line-index pairs entered into `moveToNcLine` (a pair is
recorded exactly when the move pushed a line). -/
def emitLoopMap (st : EmitState) (moveIdx lineIdx : Nat) :
    List Move → List NCLine × List (Nat × Nat)
  | [] => ([], [])
  | m :: ms =>
    let (st1, ls) := emitStep st m
    let (rest, restMap) := emitLoopMap st1 (moveIdx + 1) (lineIdx + ls.length) ms
    (ls ++ rest, ls.map (fun _ => (moveIdx, lineIdx)) ++ restMap)

/-- `buildNCWithMap` of `app.js` lines 1531-1599: preamble, deduplicated
body, postamble, plus the move→line back-reference map. -/
def buildNCWithMap (moves : List Move) (opts : Opts) :
    List NCLine × List (Nat × Nat) :=
  let pre := preNCMap opts
  let (body, mp) := emitLoopMap ⟨none, none, none⟩ 0 pre.length moves
  (pre ++ body ++ [.text "M30 (end)", .text "%"], mp)

end NC

/-- Lexicographic strict order on points, used only by the direction
normalizers `P0.canon` / `canonL` that state "equality ignoring
direction"; it is not part of the source. -/
def ptLt (p q : Pt) : Prop := p.x < q.x ∨ (p.x = q.x ∧ p.y < q.y)

instance (p q : Pt) : Decidable (ptLt p q) := by
  unfold ptLt; infer_instance

/-- Reversal of a line segment (`{a:s.b, b:s.a}` as in `orderNearest` /
`orderPathsNearest`). -/
def revL (s : LSeg) : LSeg := ⟨s.b, s.a⟩

/-- Direction normalizer for line segments: of `s` and `revL s` keep the
one whose `a` is lexicographically smaller.  `canonL (revL s) = canonL s`
always holds, so multisets of canonical forms identify line-segment
collections up to per-segment reversal. -/
def canonL (s : LSeg) : LSeg := if ptLt s.b s.a then revL s else s

namespace P0

/-- Atomic segment of `part_000` (comment at lines 88-90): a line or an
arc with center, radius, direction flag and endpoint angles.  Chaining
never evaluates trigonometry on the angles, so they stay rational data. -/
inductive Seg where
  | line (a b : Pt)
  | arc (a b c : Pt) (r : ℚ) (ccw : Bool) (a1 a2 : ℚ)
deriving DecidableEq, Repr

instance : Inhabited Seg := ⟨.line ⟨0, 0⟩ ⟨0, 0⟩⟩

/-- Start point `s.a` of a segment. -/
def Seg.sa : Seg → Pt
  | .line a _ => a
  | .arc a _ _ _ _ _ _ => a

/-- End point `s.b` of a segment. -/
def Seg.sb : Seg → Pt
  | .line _ b => b
  | .arc _ b _ _ _ _ _ => b

/-- `reverseSeg` of `part_000` lines 189-192: swap the endpoints and, for
arcs, flip the direction flag and swap the two angles. -/
def reverseSeg : Seg → Seg
  | .line a b => .line b a
  | .arc a b c r ccw a1 a2 => .arc b a c r (!ccw) a2 a1

/-- Index into the segment array (`segs[idx]`); the default is never hit
because every index we look up comes from `List.range segs.length`. -/
def segAt (segs : List Seg) (i : Nat) : Seg := segs.getD i default

/-- Direction normalizer used to state segment conservation "ignoring
direction": of a segment and its reversal, keep the one whose `a` is
lexicographically smaller (for a degenerate arc the counter-clockwise
one).  `canon s = canon (reverseSeg s)` always holds, so multisets of
canonical forms identify segment collections up to per-segment reversal. -/
def canon (s : Seg) : Seg :=
  if ptLt s.sb s.sa then reverseSeg s
  else if ptLt s.sa s.sb then s
  else
    match s with
    | .line a b => .line a b
    | .arc a b c r ccw a1 a2 => if ccw then .arc a b c r ccw a1 a2 else reverseSeg (.arc a b c r ccw a1 a2)

/-- The forward lookup `findNext(pt)` of `chainSegmentsIntoPaths`
(`part_000` lines 214-227): first an unused segment whose start lies in
the same hash cell as `pt` and within `tol` of it (taken as-is), else one
whose end does (taken reversed).  The JS hash map lists candidates of one
cell in ascending index order, so scanning all indices in order and
filtering on cell equality visits candidates in the same order. -/
def findNext (segs : List Seg) (tol : ℚ) (used : List Bool) (pt : Pt) :
    Option (Nat × Seg) :=
  match (List.range segs.length).find? (fun i =>
      !(used.getD i true) && decide (keyPt (segAt segs i).sa tol = keyPt pt tol)
        && decide (dist2 (segAt segs i).sa pt ≤ tol ^ 2)) with
  | some i => some (i, segAt segs i)
  | none =>
    match (List.range segs.length).find? (fun i =>
        !(used.getD i true) && decide (keyPt (segAt segs i).sb tol = keyPt pt tol)
          && decide (dist2 (segAt segs i).sb pt ≤ tol ^ 2)) with
    | some i => some (i, reverseSeg (segAt segs i))
    | none => none

/-- The backward lookup of the chainer (`part_000` lines 246-263): first
an unused segment whose end reaches `start` (kept as-is and prepended),
else one whose start does (prepended reversed). -/
def findPrev (segs : List Seg) (tol : ℚ) (used : List Bool) (pt : Pt) :
    Option (Nat × Seg) :=
  match (List.range segs.length).find? (fun i =>
      !(used.getD i true) && decide (keyPt (segAt segs i).sb tol = keyPt pt tol)
        && decide (dist2 (segAt segs i).sb pt ≤ tol ^ 2)) with
  | some i => some (i, segAt segs i)
  | none =>
    match (List.range segs.length).find? (fun i =>
        !(used.getD i true) && decide (keyPt (segAt segs i).sa tol = keyPt pt tol)
          && decide (dist2 (segAt segs i).sa pt ≤ tol ^ 2)) with
    | some i => some (i, reverseSeg (segAt segs i))
    | none => none

/-- Forward growth loop (`part_000` lines 235-242): repeatedly consume
the segment found at the chain's open end and append it.  Each step marks
one previously unused segment, so `segs.length` steps of fuel always
suffice for the loop to stop by exhausting candidates, as in the JS. -/
def forward (segs : List Seg) (tol : ℚ) :
    Nat → List Bool → List Seg → Pt → List Bool × List Seg
  | 0, used, chain, _ => (used, chain)
  | fuel + 1, used, chain, endPt =>
    match findNext segs tol used endPt with
    | none => (used, chain)
    | some (i, s) => forward segs tol fuel (used.set i true) (chain ++ [s]) s.sb

/-- Backward growth loop (`part_000` lines 245-268): prepend the segment
found at the chain's open start. -/
def backward (segs : List Seg) (tol : ℚ) :
    Nat → List Bool → List Seg → Pt → List Bool × List Seg
  | 0, used, chain, _ => (used, chain)
  | fuel + 1, used, chain, startPt =>
    match findPrev segs tol used startPt with
    | none => (used, chain)
    | some (i, s) => backward segs tol fuel (used.set i true) (s :: chain) s.sa

/-- Path type of `part_000`: `{segments:[seg...]}`. -/
structure Path where
  segments : List Seg
deriving DecidableEq, Repr

/-- Main chaining loop (`part_000` lines 229-271): every still-unused
index seeds a chain, which is grown forward from its end and backward
from its start. -/
def chainMain (segs : List Seg) (tol : ℚ) : List Nat → List Bool → List Path
  | [], _ => []
  | i :: rest, used =>
    if used.getD i true then chainMain segs tol rest used
    else
      let used1 := used.set i true
      let s := segAt segs i
      let (used2, chain2) := forward segs tol segs.length used1 [s] s.sb
      let (used3, chain3) :=
        backward segs tol segs.length used2 chain2 ((chain2.headD s).sa)
      ⟨chain3⟩ :: chainMain segs tol rest used3

/-- `chainSegmentsIntoPaths` of `part_000` lines 198-274. -/
def chainSegmentsIntoPaths (segs : List Seg) (tol : ℚ) : List Path :=
  chainMain segs tol (List.range segs.length) (List.replicate segs.length false)

/-- Move records of the `part_000` planner, including arc cuts with
incremental center offsets. -/
inductive Move where
  | retract (z : ℚ)
  | rapidXY (x y : ℚ)
  | plunge (z f : ℚ)
  | feedXY (f : ℚ)
  | cutLine (x y : ℚ)
  | cutArc (x y i j : ℚ) (ccw : Bool)
deriving DecidableEq, Repr

/-- One iteration of the `buildDAT` emitter loop (`part_000` lines
327-360); same dedup discipline as `NC.emitStep` plus the arc case. -/
def emitStepDAT (st : NC.EmitState) (m : Move) : NC.EmitState × List NCLine :=
  match m with
  | .retract z =>
    if st.atZ = some z then (st, [])
    else (⟨st.lastF, some z, st.atXY⟩, [NCLine.rapidZ z])
  | .rapidXY x y =>
    if st.atXY = some ⟨x, y⟩ then (st, [])
    else (⟨st.lastF, st.atZ, some ⟨x, y⟩⟩, [NCLine.rapidXY x y])
  | .plunge z f =>
    if st.lastF = some f then (⟨st.lastF, some z, st.atXY⟩, [NCLine.plunge z])
    else (⟨some f, some z, st.atXY⟩, [NCLine.plungeF z f])
  | .feedXY f =>
    if st.lastF = some f then (st, [])
    else (⟨some f, st.atZ, st.atXY⟩, [NCLine.feed f])
  | .cutLine x y => (⟨st.lastF, st.atZ, some ⟨x, y⟩⟩, [NCLine.cutLine x y])
  | .cutArc x y i j ccw => (⟨st.lastF, st.atZ, some ⟨x, y⟩⟩, [NCLine.cutArc ccw x y i j])

/-- The emitter loop of `buildDAT`. -/
def emitLoopDAT (st : NC.EmitState) : List Move → List NCLine
  | [] => []
  | m :: ms =>
    let (st1, ls) := emitStepDAT st m
    ls ++ emitLoopDAT st1 ms

/-- The fixed preamble of `buildDAT` (`part_000` lines 314-321), which
ends with the initial retract line `G0 Z<safe>`. -/
def preDAT (opts : Opts) : List NCLine :=
  [.text "%", .text "(Generated by DXF→DAT Toolpath)", .text opts.toolComment,
   .text "G90 (absolute)", .text "G94 (feed/min)", .text "G17 (XY plane)",
   .text "G20 (inches)", .rapidZ opts.safeZ]

/-- `buildDAT` of `part_000` lines 312-365.  Its shadow state starts with
`atZ = opts.safeZ` (line 325), matching the `G0 Z<safe>` already pushed
in the preamble. -/
def buildDAT (moves : List Move) (opts : Opts) : List NCLine :=
  preDAT opts ++ emitLoopDAT ⟨none, some opts.safeZ, none⟩ moves
    ++ [.text "M30", .text "%"]

end P0

section RealValued

open scoped Classical

/-- `Math.atan2(y, x)`: principal argument in `(-π, π]`, with
`atan2 0 0 = 0`, exactly `Complex.arg` of `x + y·i`. -/
noncomputable def atan2 (y x : ℝ) : ℝ := Complex.arg ⟨x, y⟩

/-- Planar point with real coordinates, for the code paths that use
square roots and trigonometry. -/
structure PtR where
  x : ℝ
  y : ℝ

namespace R

/-- Segment type of the geometry normalizer, over real coordinates. -/
inductive SegR where
  | line (a b : PtR)
  | arc (a b c : PtR) (r : ℝ) (ccw : Bool) (a1 a2 : ℝ)

/-- Euclidean distance `Math.hypot(a.x-b.x, a.y-b.y)`. -/
noncomputable def distR (a b : PtR) : ℝ :=
  Real.sqrt ((a.x - b.x) ^ 2 + (a.y - b.y) ^ 2)

/-- `bulgeToArcSeg` of `part_000` lines 134-158 / `part_001` lines
920-944 (identical bodies): DXF bulge-to-arc conversion.  Below the
chord epsilon it degrades to a line; otherwise included angle
`θ = 4·atan(β)`, counter-clockwise iff `θ > 0`, radius
`r = chord/(2·sin(|θ|/2))`, center offset from the chord midpoint by
`h = sqrt(max(0, r² − chord²/4))` along the left normal `(-uy, ux)`,
side chosen by the sign of `β`, endpoint angles via `atan2`. -/
noncomputable def bulgeToArcSeg (p q : PtR) (bulge : ℝ) : SegR :=
  let dx := q.x - p.x
  let dy := q.y - p.y
  let chord := Real.sqrt (dx ^ 2 + dy ^ 2)
  if chord < 1 / 10 ^ 12 then .line p q
  else
    let theta := 4 * Real.arctan bulge
    let ccw : Bool := decide (0 < theta)
    let absTheta := |theta|
    let r := chord / (2 * Real.sin (absTheta / 2))
    let mx := (p.x + q.x) / 2
    let my := (p.y + q.y) / 2
    let h := Real.sqrt (max 0 (r ^ 2 - chord ^ 2 / 4))
    let ux := dx / chord
    let uy := dy / chord
    let nx := -uy
    let ny := ux
    let sign : ℝ := if ccw then 1 else -1
    let cx := mx + sign * h * nx
    let cy := my + sign * h * ny
    let a1 := atan2 (p.y - cy) (p.x - cx)
    let a2 := atan2 (q.y - cy) (q.x - cx)
    .arc p q ⟨cx, cy⟩ r ccw a1 a2

end R

namespace App

/-- Real Euclidean distance between two rational points (`dist` of
`app.js`), used by the minimum-length filter of `buildPaths`. -/
noncomputable def distQ (a b : Pt) : ℝ :=
  Real.sqrt (((a.x - b.x : ℚ) : ℝ) ^ 2 + ((a.y - b.y : ℚ) : ℝ) ^ 2)

/-- `angle(a, b) = Math.atan2(b.y-a.y, b.x-a.x)` of `app.js` line 557. -/
noncomputable def angle (a b : Pt) : ℝ :=
  atan2 ((b.y - a.y : ℚ) : ℝ) ((b.x - a.x : ℚ) : ℝ)

/-- `normAng` of `app.js` line 558: the JS `while` loops add/subtract
`2π` until the value lands in `[-π, π]`; on the only reachable inputs —
differences of two `atan2` values, hence in `(-2π, 2π)` — each loop body
runs at most once, which this conditional reproduces exactly. -/
noncomputable def normAng (x : ℝ) : ℝ :=
  if x < -Real.pi then x + 2 * Real.pi
  else if Real.pi < x then x - 2 * Real.pi
  else x

/-- Index into the snapped line array (`L[idx]`). -/
def lsegAt (L : List LSeg) (i : Nat) : LSeg := L.getD i default

/-- The candidate list `map.get(key(end)) || []` of `buildPaths`: indices
whose (snapped) start point hashes to the same grid cell as `p`.  The JS
hash map lists the indices of one cell in ascending insertion order, so
filtering the full index range in order is the same list. -/
def candIdx (L : List LSeg) (g : ℚ) (p : Pt) : List Nat :=
  (List.range L.length).filter fun i => decide (keyPt (lsegAt L i).a g = keyPt p g)

/-- The best-candidate scan of `buildPaths` (`app.js` lines 616-626):
among unused candidates starting at the chain end (within `tol`,
Chebyshev), pick the one with the least angular deviation `da`, requiring
`da ≤ angTol`; strict improvement keeps the first of tied candidates.
`best = -1, bestScore = Infinity` is the fold start `(none, ⊤)`. -/
noncomputable def pickBest (L : List LSeg) (tol : ℚ) (angTol d0 : ℝ)
    (used : List Bool) (endPt : Pt) (cand : List Nat) : Option Nat :=
  (cand.foldl (fun (acc : Option Nat × WithTop ℝ) idx =>
      if used.getD idx true then acc
      else if ¬ samePt endPt (lsegAt L idx).a tol then acc
      else
        let d1 := angle (lsegAt L idx).a (lsegAt L idx).b
        let da := |normAng (d1 - d0)|
        if da ≤ angTol ∧ (da : WithTop ℝ) < acc.2 then (some idx, (da : WithTop ℝ)) else acc)
    (none, ⊤)).1

/-- The chain-growing `while` loop of `buildPaths` (`app.js` lines
611-631).  Each iteration consumes one unused segment, so `L.length`
steps of fuel always suffice for the loop to stop by finding no
candidate, as in the JS. -/
noncomputable def growChain (L : List LSeg) (g tol : ℚ) (angTol : ℝ) :
    Nat → List Bool → List LSeg → LSeg → List Bool × List LSeg
  | 0, used, chain, _ => (used, chain)
  | fuel + 1, used, chain, cur =>
    match pickBest L tol angTol (angle cur.a cur.b) used cur.b (candIdx L g cur.b) with
    | none => (used, chain)
    | some best =>
      growChain L g tol angTol fuel (used.set best true)
        (chain ++ [lsegAt L best]) (lsegAt L best)

/-- The inner run-extension loop of `mergeCollinear` (`app.js` lines
569-576): keep absorbing the next segment while it starts at the current
endpoint (within `tol`) and stays collinear; return the extended endpoint
and the unconsumed suffix. -/
def mergeRun (tol eps : ℚ) (a : Pt) : Pt → List LSeg → Pt × List LSeg
  | b, [] => (b, [])
  | b, n :: rest =>
    if samePt b n.a tol ∧ collinearE a b n.b eps then mergeRun tol eps a n.b rest
    else (b, n :: rest)

/-- The outer loop of `mergeCollinear`; one output segment per run.  The
fuel (`chain.length`) always suffices since every run consumes at least
its first segment. -/
def mergeCollinearF (tol eps : ℚ) : Nat → List LSeg → List LSeg
  | 0, _ => []
  | _ + 1, [] => []
  | fuel + 1, s :: rest =>
    let (b2, rest2) := mergeRun tol eps s.a s.b rest
    ⟨s.a, b2⟩ :: mergeCollinearF tol eps fuel rest2

/-- `mergeCollinear` of `app.js` lines 560-581, with its epsilon
`Math.max(1e-12, tol*tol)`. -/
def mergeCollinear (chain : List LSeg) (tol : ℚ) : List LSeg :=
  mergeCollinearF tol (max (1 / 10 ^ 12) (tol * tol)) chain.length chain

/-- The main index loop of `buildPaths` (`app.js` lines 604-635): each
unused segment seeds a chain, grown by `growChain`, simplified by
`mergeCollinear`, and kept when nonempty. -/
noncomputable def buildLoop (L : List LSeg) (g tol : ℚ) (angTol : ℝ) :
    List Nat → List Bool → List LPath
  | [], _ => []
  | i :: rest, used =>
    if used.getD i true then buildLoop L g tol angTol rest used
    else
      let s := lsegAt L i
      let (used2, chain) := growChain L g tol angTol L.length (used.set i true) [s] s
      let merged := mergeCollinear chain g
      if merged = [] then buildLoop L g tol angTol rest used2
      else ⟨merged⟩ :: buildLoop L g tol angTol rest used2

/-- `buildPaths` of `app.js` lines 583-638: snap every endpoint to the
grid, drop segments shorter than
`minLen = max(outPrec*0.8, snapGrid*0.5)`, then chain by snapped start
cell with angular tie-break (`tol = snapGrid*0.55`,
`angTol = degToRad(angleTolDeg)`). -/
noncomputable def buildPaths (lines : List LSeg) (opts : Opts) : List LPath :=
  let g := opts.snapGrid
  let tol := g * (55 / 100)
  let angTol : ℝ := ((opts.angleTolDeg : ℚ) : ℝ) * Real.pi / 180
  let minLen := max (opts.outPrec * (8 / 10)) (g * (1 / 2))
  let L := (lines.map fun s => (⟨snapPoint s.a g, snapPoint s.b g⟩ : LSeg)).filter
    fun s => decide ((minLen : ℝ) ≤ distQ s.a s.b)
  buildLoop L g tol angTol (List.range L.length) (List.replicate L.length false)

end App

namespace NC

/-- Playback motion mode. -/
inductive PMode where
  | RAPID
  | CUT
deriving DecidableEq, Repr

/-- A playback segment of `buildPlayback` (`part_001` lines 457-473 /
`app.js` lines 1601-1618): endpoints, mode, Euclidean length and running
cumulative length.  Lengths come from `Math.hypot`, so this part of the
model lives in `ℝ`; the rational move targets are cast on entry. -/
structure PlaySeg where
  a : PtR
  b : PtR
  mode : PMode
  len : ℝ
  cum : ℝ

instance : Inhabited PlaySeg := ⟨⟨⟨0, 0⟩, ⟨0, 0⟩, .RAPID, 0, 0⟩⟩

/-- The move loop of `buildPlayback`: one playback segment per
`rapidXY` / `cutLine` move, threading the cursor from `(0,0)` and the
cumulative length from `0`; all other move kinds are skipped. -/
noncomputable def playLoop (cur : PtR) (cum : ℝ) : List Move → List PlaySeg
  | [] => []
  | Move.rapidXY x y :: ms =>
    let b : PtR := ⟨((x : ℚ) : ℝ), ((y : ℚ) : ℝ)⟩
    let len := Real.sqrt ((b.x - cur.x) ^ 2 + (b.y - cur.y) ^ 2)
    ⟨cur, b, .RAPID, len, cum + len⟩ :: playLoop b (cum + len) ms
  | Move.cutLine x y :: ms =>
    let b : PtR := ⟨((x : ℚ) : ℝ), ((y : ℚ) : ℝ)⟩
    let len := Real.sqrt ((b.x - cur.x) ^ 2 + (b.y - cur.y) ^ 2)
    ⟨cur, b, .CUT, len, cum + len⟩ :: playLoop b (cum + len) ms
  | _ :: ms => playLoop cur cum ms

/-- `buildPlayback` of `part_001` lines 457-473 / `app.js` lines
1601-1618. -/
noncomputable def buildPlayback (moves : List Move) : List PlaySeg :=
  playLoop ⟨0, 0⟩ 0 moves

/-- Index into the playback array. -/
def psAt (segs : List PlaySeg) (i : Nat) : PlaySeg := segs.getD i default

/-- The binary search of `pointAtT` (`part_001` lines 480-485):
`while (lo < hi) { mid = (lo+hi)>>1; if (cum[mid] < target) lo = mid+1
else hi = mid }`.  The interval shrinks strictly each iteration, so
`segs.length` steps of fuel always suffice, as in the JS. -/
noncomputable def bsearchLoop (segs : List PlaySeg) (target : ℝ) :
    Nat → Nat → Nat → Nat
  | 0, lo, _ => lo
  | fuel + 1, lo, hi =>
    if lo < hi then
      let mid := (lo + hi) / 2
      if (psAt segs mid).cum < target then bsearchLoop segs target fuel (mid + 1) hi
      else bsearchLoop segs target fuel lo mid
    else lo

/-- The result record of `pointAtT`. -/
structure PPos where
  x : ℝ
  y : ℝ
  mode : PMode

/-- `pointAtT` of `part_001` lines 475-491 / `app.js` lines 1620-1636:
no position for an empty playback list; otherwise binary-search the
cumulative lengths for `t * total` (`total = last cum || 1`) and
interpolate linearly within the found segment, with `u = 0` on a
zero-length segment. -/
noncomputable def pointAtT (segs : List PlaySeg) (t : ℝ) : Option PPos :=
  if segs = [] then none
  else
    let total := if (segs.getLastD default).cum = 0 then 1 else (segs.getLastD default).cum
    let target := t * total
    let lo := bsearchLoop segs target segs.length 0 (segs.length - 1)
    let s := psAt segs lo
    let prev := if lo = 0 then 0 else (psAt segs (lo - 1)).cum
    let u := if s.len = 0 then 0 else (target - prev) / s.len
    some ⟨s.a.x + (s.b.x - s.a.x) * u, s.a.y + (s.b.y - s.a.y) * u, s.mode⟩

end NC

end RealValued

namespace E1

/-- A JS value as inspected by `xyOf` of `part_001` lines 72-86: `null`
(or `undefined` — both falsy, treated identically there), an array of
numbers, or an object with `x` / `y` fields and an optional nested
`point`.  A numeric field is `some q` when it holds a finite number and
`none` when missing or non-finite (`isFinite` rejects exactly the
latter); "no `point` property" is the falsy `.null`. -/
inductive JVal where
  | null
  | arr (xs : List (Option ℚ))
  | obj (x y : Option ℚ) (point : JVal)
deriving DecidableEq, Repr

/-- `xyOf` of `part_001` lines 72-86: bulletproof point normalization.
An array with two leading finite entries yields them; an object with
finite `x`/`y` yields them, else its `point` is tried recursively;
everything else is `null`.  (The object branch's second chance
`isFinite(pt[0]) && isFinite(pt[1])` reads numeric indices that DXF
entity objects never carry, so it never fires and is not modelled.) -/
def xyOf : JVal → Option Pt
  | .null => none
  | .arr xs =>
    match xs.get? 0, xs.get? 1 with
    | some (some x), some (some y) => some ⟨x, y⟩
    | _, _ => none
  | .obj x y point =>
    match x, y with
    | some xv, some yv => some ⟨xv, yv⟩
    | _, _ => xyOf point

/-- Input entity shapes consumed by `extractSegments` of `part_001`
lines 89-137.  A missing `vertices` / `fitPoints` / `controlPoints`
array is the empty list (the code defaults with `|| []`); `other`
covers every unsupported `type`, which the loop skips. -/
inductive Ent where
  | line (s e : JVal)
  | poly (verts : List JVal) (closed : Bool)
  | spline (fitPoints controlPoints : List JVal)
  | other
deriving DecidableEq, Repr

/-- The consecutive-pair edges over a vertex list (`for i in
0..len-2: push {a: pts[i], b: pts[i+1]}`). -/
def edges (pts : List Pt) : List LSeg :=
  (pts.zip pts.tail).map fun pq => ⟨pq.1, pq.2⟩

/-- Per-entity body of `extractSegments` of `part_001` lines 89-137:
LINE keeps its endpoints only when both normalize; polylines keep the
vertices that normalize (`.filter(Boolean)`), need at least two, and add
the closing edge when `closed`; splines use `fitPoints` when nonempty
else `controlPoints`; anything else contributes nothing. -/
def extractEnt : Ent → List LSeg
  | .line s e =>
    match xyOf s, xyOf e with
    | some a, some b => [⟨a, b⟩]
    | _, _ => []
  | .poly verts closed =>
    let vs := verts.filterMap xyOf
    if vs.length < 2 then []
    else
      edges vs ++
        (if closed then [⟨vs.getLastD ⟨0, 0⟩, vs.headD ⟨0, 0⟩⟩] else [])
  | .spline fitPoints controlPoints =>
    let raw := if fitPoints ≠ [] then fitPoints else controlPoints
    let pts := raw.filterMap xyOf
    if 2 ≤ pts.length then edges pts else []
  | .other => []

/-- `extractSegments` of `part_001` lines 89-137: the entity loop
appends each entity's segments in order. -/
def extractSegments (ents : List Ent) : List LSeg :=
  ents.flatMap extractEnt

end E1

section Extractor0

open scoped Classical

namespace E0

/-- A JS number as seen by `part_000`'s unguarded extractor: `some v`
for a finite double, `none` for `NaN` / `±∞` / a missing field coerced
to `NaN`.  Arithmetic propagates `none` exactly as JS arithmetic
propagates non-finite values. -/
abbrev JR := Option ℝ

/-- Addition on possibly non-finite numbers. -/
def jAdd (a b : JR) : JR := Option.map₂ (· + ·) a b

/-- Subtraction on possibly non-finite numbers. -/
def jSub (a b : JR) : JR := Option.map₂ (· - ·) a b

/-- Multiplication on possibly non-finite numbers. -/
def jMul (a b : JR) : JR := Option.map₂ (· * ·) a b

/-- Division: `x/0` is `±∞` or `NaN` in JS, i.e. non-finite. -/
noncomputable def jDiv (a b : JR) : JR :=
  match a, b with
  | some x, some y => if y = 0 then none else some (x / y)
  | _, _ => none

/-- Division by a plain real denominator. -/
noncomputable def jDivR (a : JR) (d : ℝ) : JR :=
  jDiv a (some d)

/-- `Math.cos`, propagating non-finiteness. -/
noncomputable def jCos (a : JR) : JR := a.map Real.cos

/-- `Math.sin`, propagating non-finiteness. -/
noncomputable def jSin (a : JR) : JR := a.map Real.sin

/-- `Math.hypot`, propagating non-finiteness. -/
noncomputable def jHypot (a b : JR) : JR :=
  Option.map₂ (fun x y => Real.sqrt (x ^ 2 + y ^ 2)) a b

/-- `Math.atan2`, propagating non-finiteness. -/
noncomputable def jAtan2 (y x : JR) : JR := Option.map₂ atan2 y x

/-- `degToRad` of `part_000` line 53. -/
noncomputable def jDegToRad (d : JR) : JR := d.map fun v => v * Real.pi / 180

/-- `chord < 1e-12` with JS comparison semantics: false when `chord` is
`NaN` (for `±∞` it is also false, and our `none` conflates the two; the
arc branch then propagates `none` either way). -/
def jLtR (a : JR) (c : ℝ) : Prop := ∃ v, a = some v ∧ v < c

/-- A point whose coordinates may be non-finite. -/
structure PtJ where
  x : JR
  y : JR

/-- Segments as produced by `part_000`'s extractor, coordinates possibly
non-finite. -/
inductive SegJ where
  | line (a b : PtJ)
  | arc (a b c : PtJ) (r : JR) (ccw : Bool) (a1 a2 : JR)

/-- `bulgeToArcSeg` of `part_000` lines 134-158 as called from the
unguarded extractor, i.e. over possibly non-finite inputs: the same
formulas as `R.bulgeToArcSeg`, with JS non-finite propagation.  The
bulge itself is always finite here because the polyline loop normalizes
it with `v.bulge || 0`. -/
noncomputable def jBulgeToArcSeg (p q : PtJ) (bulge : ℝ) : SegJ :=
  let dx := jSub q.x p.x
  let dy := jSub q.y p.y
  let chord := jHypot dx dy
  if jLtR chord (1 / 10 ^ 12) then .line p q
  else
    let theta := 4 * Real.arctan bulge
    let ccw : Bool := decide (0 < theta)
    let absTheta := |theta|
    let r := jDivR chord (2 * Real.sin (absTheta / 2))
    let mx := jDivR (jAdd p.x q.x) 2
    let my := jDivR (jAdd p.y q.y) 2
    let h := Option.map₂ (fun rv cv => Real.sqrt (max 0 (rv ^ 2 - cv ^ 2 / 4))) r chord
    let ux := jDiv dx chord
    let uy := jDiv dy chord
    let nx := ux.bind fun _ => uy.map Neg.neg
    let ny := uy.bind fun _ => ux
    let sign : ℝ := if ccw then 1 else -1
    let cx := jAdd mx ((jMul h nx).map fun v => sign * v)
    let cy := jAdd my ((jMul h ny).map fun v => sign * v)
    let a1 := jAtan2 (jSub p.y cy) (jSub p.x cx)
    let a2 := jAtan2 (jSub q.y cy) (jSub q.x cx)
    .arc p q ⟨cx, cy⟩ r ccw a1 a2

/-- A polyline vertex as normalized at `part_000` line 116:
`{x: v.x, y: v.y, bulge: v.bulge || 0}`; the `|| 0` turns a missing or
`NaN` bulge into `0`, so the effective bulge is the total `bulge.getD 0`. -/
structure VJ where
  x : JR
  y : JR
  bulge : JR

instance : Inhabited VJ := ⟨none, none, none⟩

/-- Input entities of `part_000`'s extractor.  The LINE / ARC / CIRCLE
point objects are taken as present (a wholly missing `e.start` would
make the JS throw a `TypeError` on `e.start.x`; we model the field-level
malformation, where the code silently fabricates a segment). -/
inductive Ent where
  | line (sx sy ex ey : JR)
  | arc (cx cy radius sa ea : JR)
  | circle (cx cy radius : JR)
  | poly (verts : List VJ) (closed : Bool)
  | other

/-- One polyline edge (`part_000` lines 120-122): bulge arc when
`Math.abs(bulge) > 1e-12`, else line. -/
noncomputable def polyEdge (p q : VJ) : SegJ :=
  if 1 / 10 ^ 12 < |p.bulge.getD 0| then
    jBulgeToArcSeg ⟨p.x, p.y⟩ ⟨q.x, q.y⟩ (p.bulge.getD 0)
  else .line ⟨p.x, p.y⟩ ⟨q.x, q.y⟩

/-- Per-entity body of `extractSegments` of `part_000` lines 91-132.
Note the LINE branch copies `e.start.x` etc. without any finiteness
guard. -/
noncomputable def extractEnt : Ent → List SegJ
  | .line sx sy ex ey => [.line ⟨sx, sy⟩ ⟨ex, ey⟩]
  | .arc cx cy radius sa ea =>
    let a1 := jDegToRad sa
    let a2 := jDegToRad ea
    let a : PtJ := ⟨jAdd cx (jMul radius (jCos a1)), jAdd cy (jMul radius (jSin a1))⟩
    let b : PtJ := ⟨jAdd cx (jMul radius (jCos a2)), jAdd cy (jMul radius (jSin a2))⟩
    [.arc a b ⟨cx, cy⟩ radius true a1 a2]
  | .circle cx cy radius =>
    let a : PtJ := ⟨jAdd cx radius, cy⟩
    let m : PtJ := ⟨jSub cx radius, cy⟩
    [.arc a m ⟨cx, cy⟩ radius true (some 0) (some Real.pi),
     .arc m a ⟨cx, cy⟩ radius true (some Real.pi) (some (2 * Real.pi))]
  | .poly verts closed =>
    if verts.length < 2 then []
    else
      (verts.zip verts.tail).map (fun pq => polyEdge pq.1 pq.2) ++
        (if closed then [polyEdge (verts.getLastD default) (verts.headD default)] else [])
  | .other => []

/-- `extractSegments` of `part_000` lines 91-132. -/
noncomputable def extractSegments (ents : List Ent) : List SegJ :=
  ents.flatMap extractEnt

end E0

end Extractor0

/-!
## Theorems

One theorem per claim (`C1`…`C10`), preceded by the helper lemmas its
proof needs.  Witness and counterexample theorems instantiate the
statements at concrete inputs.
-/

section C6Pass

/-- C6: pass schedule of the move planner, as the code computes it.  For
every `stepDown > 0` the depth list of `buildMoves` has
`max(1, ceil(|totalDepth|/stepDown))` entries — equal to
`ceil(|totalDepth|/stepDown)` whenever `totalDepth ≠ 0` — the `k`-th
(0-based) entry targets `Z = -min(|totalDepth|, (k+1)*stepDown)`, and the
entries are strictly descending. -/
theorem C6_pass_schedule (d s : ℚ) (hs : 0 < s) :
    (NC.passDepths d s).length = (max 1 ⌈|d| / s⌉).toNat ∧
    (d ≠ 0 → ((NC.passDepths d s).length : ℤ) = ⌈|d| / s⌉) ∧
    (∀ k, k < (NC.passDepths d s).length →
      (NC.passDepths d s).getD k 0 = -(min |d| (((k : ℚ) + 1) * s))) ∧
    List.Chain' (fun a b => b < a) (NC.passDepths d s) := by
  have hlen : (NC.passDepths d s).length = (max 1 ⌈|d| / s⌉).toNat := by
    simp only [NC.passDepths, List.length_map, List.length_range]
  have hget : ∀ k, k < (NC.passDepths d s).length →
      (NC.passDepths d s).getD k 0 = -(min |d| (((k : ℚ) + 1) * s)) := by
    intro k hk
    rw [hlen] at hk
    simp only [NC.passDepths, List.getD_eq_getElem?_getD, List.getElem?_map,
      List.getElem?_range, hk, Option.map_some', Option.getD_some]
  refine ⟨hlen, ?_, hget, ?_⟩
  · intro hd
    have h1 : (0 : ℚ) < |d| / s := div_pos (abs_pos.mpr hd) hs
    have h2 : (1 : ℤ) ≤ ⌈|d| / s⌉ := Int.ceil_pos.mpr h1
    rw [hlen, max_eq_right h2, Int.toNat_of_nonneg (le_trans zero_le_one h2)]
  · -- strict descent: consecutive entries k, k+1 with k+1 < length
    rw [List.chain'_iff_get]
    intro k hk
    have hk1 : k + 1 < (NC.passDepths d s).length := by omega
    have hk0 : k < (NC.passDepths d s).length := by omega
    have e0 := hget k hk0
    have e1 := hget (k + 1) hk1
    rw [List.get_eq_getElem, List.get_eq_getElem]
    have g0 : (NC.passDepths d s)[k] = -(min |d| (((k : ℚ) + 1) * s)) := by
      have := hget k hk0; rwa [List.getD_eq_getElem?_getD, List.getElem?_eq_getElem hk0,
        Option.getD_some] at this
    have g1 : (NC.passDepths d s)[k + 1] = -(min |d| (((k : ℚ) + 1 + 1) * s)) := by
      have := hget (k + 1) hk1
      rw [List.getD_eq_getElem?_getD, List.getElem?_eq_getElem hk1, Option.getD_some] at this
      rw [this]; norm_num
    rw [g0, g1, neg_lt_neg_iff]
    -- need min |d| ((k+1)s) < min |d| ((k+2)s), using (k+1)s < |d|
    have hcount : (k : ℤ) + 1 < max 1 ⌈|d| / s⌉ := by
      have := hk1; rw [hlen] at this
      have h3 : 0 ≤ max 1 ⌈|d| / s⌉ := le_trans zero_le_one (le_max_left 1 _)
      omega
    have hceil : (k : ℤ) + 1 < ⌈|d| / s⌉ ∨ ((k : ℤ) + 1 < 1) := by
      rcases max_cases 1 ⌈|d| / s⌉ with ⟨hm, _⟩ | ⟨hm, _⟩ <;> rw [hm] at hcount <;> omega
    have hklt : ((k : ℚ) + 1) * s < |d| := by
      rcases hceil with h | h
      · have h4 : ((k : ℚ) + 1) < |d| / s := by
          have h5 : ((k + 1 : ℤ) : ℚ) < |d| / s := by
            by_contra h6
            push_neg at h6
            have := Int.ceil_le.mpr h6
            omega
          push_cast at h5
          linarith
        calc ((k : ℚ) + 1) * s < (|d| / s) * s := by
              exact mul_lt_mul_of_pos_right h4 hs
          _ = |d| := by field_simp
      · omega
    have hlt2 : ((k : ℚ) + 1) * s < ((k : ℚ) + 1 + 1) * s := by
      have : (0 : ℚ) < s := hs
      nlinarith
    rw [min_eq_right hklt.le]
    exact lt_min hklt hlt2

/-- C6 witness: depth 5/8 at step 1/4 gives the schedule of the theorem
(`3 = ceil(2.5)` passes). -/
theorem C6_pass_schedule_witness :
    (0 : ℚ) < 1 / 4 ∧
      (NC.passDepths (-(5 / 8)) (1 / 4)).length = (max 1 ⌈|(-(5 / 8) : ℚ)| / (1 / 4)⌉).toNat ∧
      List.Chain' (fun a b => b < a) (NC.passDepths (-(5 / 8)) (1 / 4)) :=
  ⟨by norm_num, (C6_pass_schedule (-(5 / 8)) (1 / 4) (by norm_num)).1,
    (C6_pass_schedule (-(5 / 8)) (1 / 4) (by norm_num)).2.2.2⟩

/-- C6 counterexample: at `totalDepth = 0`, `stepDown = 1/4` the planner
produces one pass (the code's `max(1, …)`), while the claimed count
`ceil(|totalDepth|/stepDown)` is `0`. -/
theorem C6_pass_schedule_cex :
    NC.passDepths 0 (1 / 4) = [0] ∧
      ⌈|(0 : ℚ)| / (1 / 4)⌉ = 0 ∧
      ((NC.passDepths 0 (1 / 4)).length : ℤ) ≠ ⌈|(0 : ℚ)| / (1 / 4)⌉ := by
  have h : ⌈|(0 : ℚ)| / (1 / 4)⌉ = 0 := by norm_num
  refine ⟨?_, h, ?_⟩ <;> simp only [NC.passDepths, h] <;> norm_num [List.range_succ]

end C6Pass

section C7Emit

/-- Claim-level reading of "the emitted text never contains a rapid line
to the already-current XY": walking the emitted lines while tracking the
XY position they establish, every `G0 X.. Y..` line targets a point
different from the tracked one. -/
def noBadRapid : Option Pt → List NCLine → Prop
  | _, [] => True
  | cur, NCLine.rapidXY x y :: ls => cur ≠ some ⟨x, y⟩ ∧ noBadRapid (some ⟨x, y⟩) ls
  | cur, NCLine.cutLine x y :: ls => noBadRapid (some ⟨x, y⟩) ls
  | cur, NCLine.cutArc _ x y _ _ :: ls => noBadRapid (some ⟨x, y⟩) ls
  | cur, _ :: ls => noBadRapid cur ls

/-- Claim-level reading of "the emitted text never contains a feed
declaration equal to the last emitted feed": walking the emitted lines
while tracking the feed they establish (`F` lines and plunges carrying
`F`), every standalone `F` line differs from the tracked feed. -/
def noBadFeed : Option ℚ → List NCLine → Prop
  | _, [] => True
  | cur, NCLine.feed f :: ls => cur ≠ some f ∧ noBadFeed (some f) ls
  | _, NCLine.plungeF _ f :: ls => noBadFeed (some f) ls
  | cur, _ :: ls => noBadFeed cur ls

lemma emitLoop_noBadRapid : ∀ (ms : List NC.Move) (st : NC.EmitState),
    noBadRapid st.atXY (NC.emitLoop st ms) := by
  intro ms
  induction ms with
  | nil => intro st; simp [NC.emitLoop, noBadRapid]
  | cons m ms ih =>
    intro st
    cases m with
    | retract z =>
      by_cases h : st.atZ = some z
      · simpa only [NC.emitLoop, NC.emitStep, h, ite_true, List.nil_append] using ih st
      · simp only [NC.emitLoop, NC.emitStep, h, ite_false, List.cons_append,
          List.nil_append, noBadRapid]
        exact ih ⟨st.lastF, some z, st.atXY⟩
    | rapidXY x y =>
      by_cases h : st.atXY = some ⟨x, y⟩
      · simpa only [NC.emitLoop, NC.emitStep, h, ite_true, List.nil_append] using ih st
      · simp only [NC.emitLoop, NC.emitStep, h, ite_false, List.cons_append,
          List.nil_append, noBadRapid]
        exact ⟨h, ih ⟨st.lastF, st.atZ, some ⟨x, y⟩⟩⟩
    | plunge z f =>
      by_cases h : st.lastF = some f
      · simp only [NC.emitLoop, NC.emitStep, h, ite_true, List.cons_append,
          List.nil_append, noBadRapid]
        exact ih ⟨some f, some z, st.atXY⟩
      · simp only [NC.emitLoop, NC.emitStep, h, ite_false, List.cons_append,
          List.nil_append, noBadRapid]
        exact ih ⟨some f, some z, st.atXY⟩
    | feedXY f =>
      by_cases h : st.lastF = some f
      · simpa only [NC.emitLoop, NC.emitStep, h, ite_true, List.nil_append] using ih st
      · simp only [NC.emitLoop, NC.emitStep, h, ite_false, List.cons_append,
          List.nil_append, noBadRapid]
        exact ih ⟨some f, st.atZ, st.atXY⟩
    | cutLine x y =>
      simp only [NC.emitLoop, NC.emitStep, List.cons_append, List.nil_append, noBadRapid]
      exact ih ⟨st.lastF, st.atZ, some ⟨x, y⟩⟩

lemma emitLoop_noBadFeed : ∀ (ms : List NC.Move) (st : NC.EmitState),
    noBadFeed st.lastF (NC.emitLoop st ms) := by
  intro ms
  induction ms with
  | nil => intro st; simp [NC.emitLoop, noBadFeed]
  | cons m ms ih =>
    intro st
    cases m with
    | retract z =>
      by_cases h : st.atZ = some z
      · simpa only [NC.emitLoop, NC.emitStep, h, ite_true, List.nil_append] using ih st
      · simp only [NC.emitLoop, NC.emitStep, h, ite_false, List.cons_append,
          List.nil_append, noBadFeed]
        exact ih ⟨st.lastF, some z, st.atXY⟩
    | rapidXY x y =>
      by_cases h : st.atXY = some ⟨x, y⟩
      · simpa only [NC.emitLoop, NC.emitStep, h, ite_true, List.nil_append] using ih st
      · simp only [NC.emitLoop, NC.emitStep, h, ite_false, List.cons_append,
          List.nil_append, noBadFeed]
        exact ih ⟨st.lastF, st.atZ, some ⟨x, y⟩⟩
    | plunge z f =>
      by_cases h : st.lastF = some f
      · simp only [NC.emitLoop, NC.emitStep, h, ite_true, List.cons_append,
          List.nil_append, noBadFeed]
        have h2 := ih (⟨st.lastF, some z, st.atXY⟩ : NC.EmitState)
        rw [h] at h2
        exact h2
      · simp only [NC.emitLoop, NC.emitStep, h, ite_false, List.cons_append,
          List.nil_append, noBadFeed]
        exact ih ⟨some f, some z, st.atXY⟩
    | feedXY f =>
      by_cases h : st.lastF = some f
      · simpa only [NC.emitLoop, NC.emitStep, h, ite_true, List.nil_append] using ih st
      · simp only [NC.emitLoop, NC.emitStep, h, ite_false, List.cons_append,
          List.nil_append, noBadFeed]
        exact ⟨h, ih ⟨some f, st.atZ, st.atXY⟩⟩
    | cutLine x y =>
      simp only [NC.emitLoop, NC.emitStep, List.cons_append, List.nil_append, noBadFeed]
      exact ih ⟨st.lastF, st.atZ, some ⟨x, y⟩⟩

lemma emitLoopMap_fst : ∀ (ms : List NC.Move) (st : NC.EmitState) (i j : Nat),
    (NC.emitLoopMap st i j ms).1 = NC.emitLoop st ms := by
  intro ms
  induction ms with
  | nil => intro st i j; rfl
  | cons m ms ih =>
    intro st i j
    simp only [NC.emitLoopMap, NC.emitLoop, ih]

lemma noBadRapid_text (s : String) (cur : Option Pt) (ls : List NCLine) :
    noBadRapid cur (NCLine.text s :: ls) = noBadRapid cur ls := rfl

lemma noBadFeed_text (s : String) (cur : Option ℚ) (ls : List NCLine) :
    noBadFeed cur (NCLine.text s :: ls) = noBadFeed cur ls := rfl

lemma noBadRapid_append_tail (cur : Option Pt) (ls : List NCLine) :
    noBadRapid cur ls → noBadRapid cur (ls ++ [NCLine.text "M30 (end)", NCLine.text "%"]) := by
  induction ls generalizing cur with
  | nil => intro _; simp [noBadRapid]
  | cons l ls ih =>
    intro h
    cases l <;> simp only [noBadRapid, List.cons_append] at h ⊢ <;>
      first
        | exact ih _ h
        | exact ⟨h.1, ih _ h.2⟩

lemma noBadFeed_append_tail (cur : Option ℚ) (ls : List NCLine) :
    noBadFeed cur ls → noBadFeed cur (ls ++ [NCLine.text "M30 (end)", NCLine.text "%"]) := by
  induction ls generalizing cur with
  | nil => intro _; simp [noBadFeed]
  | cons l ls ih =>
    intro h
    cases l <;> simp only [noBadFeed, List.cons_append] at h ⊢ <;>
      first
        | exact ih _ h
        | exact ⟨h.1, ih _ h.2⟩

/-- C7: command deduplication and determinism.  Re-emitting the same
move list yields the same lines (the emitters are pure functions of
their input); a `rapidXY` move to the emitter's tracked XY emits
nothing; a `feedXY` move matching the last emitted feed emits nothing;
and, globally, the line lists of `buildNC` and `buildNCWithMap` never
contain a rapid line to the XY position established by the preceding
lines nor a feed line equal to the feed established by the preceding
lines. -/
theorem C7_emitter_dedup :
    (∀ moves opts, NC.buildNC moves opts = NC.buildNC moves opts ∧
      NC.buildNCWithMap moves opts = NC.buildNCWithMap moves opts) ∧
    (∀ (st : NC.EmitState) (x y : ℚ), st.atXY = some ⟨x, y⟩ →
      NC.emitStep st (NC.Move.rapidXY x y) = (st, [])) ∧
    (∀ (st : NC.EmitState) (f : ℚ), st.lastF = some f →
      NC.emitStep st (NC.Move.feedXY f) = (st, [])) ∧
    (∀ moves opts, noBadRapid none (NC.buildNC moves opts) ∧
      noBadFeed none (NC.buildNC moves opts)) ∧
    (∀ moves opts, noBadRapid none (NC.buildNCWithMap moves opts).1 ∧
      noBadFeed none (NC.buildNCWithMap moves opts).1) := by
  refine ⟨fun _ _ => ⟨rfl, rfl⟩, ?_, ?_, ?_, ?_⟩
  · intro st x y h
    simp [NC.emitStep, h]
  · intro st f h
    simp [NC.emitStep, h]
  · intro moves opts
    constructor
    · simp only [NC.buildNC, NC.preNC, List.cons_append, List.nil_append, noBadRapid]
      exact noBadRapid_append_tail _ _ (emitLoop_noBadRapid moves ⟨none, none, none⟩)
    · simp only [NC.buildNC, NC.preNC, List.cons_append, List.nil_append, noBadFeed]
      exact noBadFeed_append_tail _ _ (emitLoop_noBadFeed moves ⟨none, none, none⟩)
  · intro moves opts
    constructor
    · simp only [NC.buildNCWithMap, NC.preNCMap, List.cons_append, List.nil_append,
        noBadRapid, emitLoopMap_fst]
      exact noBadRapid_append_tail _ _ (emitLoop_noBadRapid moves ⟨none, none, none⟩)
    · simp only [NC.buildNCWithMap, NC.preNCMap, List.cons_append, List.nil_append,
        noBadFeed, emitLoopMap_fst]
      exact noBadFeed_append_tail _ _ (emitLoop_noBadFeed moves ⟨none, none, none⟩)

/-- C7 witness: a concrete emitter state already at `XY = (1,2)` with
feed `30` suppresses a `rapidXY (1,2)` and a `feedXY 30`. -/
theorem C7_emitter_dedup_witness :
    (⟨some 30, some (1 / 2), some ⟨1, 2⟩⟩ : NC.EmitState).atXY = some ⟨1, 2⟩ ∧
    (⟨some 30, some (1 / 2), some ⟨1, 2⟩⟩ : NC.EmitState).lastF = some 30 ∧
    NC.emitStep ⟨some 30, some (1 / 2), some ⟨1, 2⟩⟩ (NC.Move.rapidXY 1 2) =
      (⟨some 30, some (1 / 2), some ⟨1, 2⟩⟩, []) ∧
    NC.emitStep ⟨some 30, some (1 / 2), some ⟨1, 2⟩⟩ (NC.Move.feedXY 30) =
      (⟨some 30, some (1 / 2), some ⟨1, 2⟩⟩, []) :=
  ⟨rfl, rfl, C7_emitter_dedup.2.1 _ 1 2 rfl, C7_emitter_dedup.2.2.1 _ 30 rfl⟩

end C7Emit

section C8Pre

/-- C8 (amended): fixed preamble and postamble.  For every move list and
options, `buildDAT` emits exactly its fixed preamble — `%`, identifying
comment, tool comment, `G90`, `G94`, `G17`, `G20`, and the initial
retract `G0 Z<safe>` — then a body, then `M30` and `%`; `buildNCWithMap`
emits its fixed ten-line preamble (with `G40`/`G49`/`G54` and **no**
initial `G0 Z<safe>` line), then a body, then `M30 (end)` and `%`. -/
theorem C8_preamble_postamble :
    (∀ moves opts, ∃ body, P0.buildDAT moves opts =
      [NCLine.text "%", NCLine.text "(Generated by DXF→DAT Toolpath)",
       NCLine.text opts.toolComment, NCLine.text "G90 (absolute)",
       NCLine.text "G94 (feed/min)", NCLine.text "G17 (XY plane)",
       NCLine.text "G20 (inches)", NCLine.rapidZ opts.safeZ] ++ body ++
        [NCLine.text "M30", NCLine.text "%"]) ∧
    (∀ moves opts, ∃ body, (NC.buildNCWithMap moves opts).1 =
      [NCLine.text "%", NCLine.text "(NorrisCAM - USB DAT G-code)",
       NCLine.text opts.toolComment, NCLine.text "G90 (absolute)",
       NCLine.text "G94 (feed/min)", NCLine.text "G17 (XY plane)",
       NCLine.text "G20 (inches)", NCLine.text "G40 (cancel cutter comp)",
       NCLine.text "G49 (cancel tool length offset)",
       NCLine.text "G54 (work offset)"] ++ body ++
        [NCLine.text "M30 (end)", NCLine.text "%"]) := by
  constructor
  · intro moves opts
    exact ⟨P0.emitLoopDAT ⟨none, some opts.safeZ, none⟩ moves, rfl⟩
  · intro moves opts
    refine ⟨NC.emitLoop ⟨none, none, none⟩ moves, ?_⟩
    simp only [NC.buildNCWithMap, NC.preNCMap, emitLoopMap_fst]

/-- The concrete single-path build used by the C8 counterexample: one
line segment from `(1,1)` to `(2,1)`. -/
def pathC8 : LPath := ⟨[⟨⟨1, 1⟩, ⟨2, 1⟩⟩]⟩

/-- Options of the C8 counterexample: safe Z `1/2`, one pass to depth
`-1`, feeds `30`/`20`, chain tolerance `1/100`. -/
def optsC8 : Opts := ⟨1 / 2, -1, 1, 30, 20, 1 / 100, 1 / 50, 12, 1 / 100, "(T1)"⟩

lemma movesC8_eval : NC.buildMoves [pathC8] optsC8 =
    [NC.Move.rapidXY 1 1, NC.Move.plunge (-1) 20, NC.Move.feedXY 30,
     NC.Move.cutLine 2 1, NC.Move.retract (1 / 2)] := by
  have hd : NC.passDepths (-1) 1 = [-1] := by
    have h : ⌈|(-1 : ℚ)| / 1⌉ = 1 := by norm_num
    simp only [NC.passDepths, h]
    norm_num [List.range_succ]
  have hsp : ¬ samePt (⟨0, 0⟩ : Pt) (⟨1, 1⟩ : Pt) (1 / 100) := by
    norm_num [samePt, abs_le]
  simp only [NC.buildMoves, optsC8, hd]
  norm_num [NC.retractM, NC.passMoves, NC.pathMoves, pathC8, firstPt, hsp, samePt]

/-- C8 counterexample: for the concrete one-segment build, the line list
of `buildNCWithMap` has the rapid motion `G0 X1 Y1` as its 11th line,
immediately after the ten-line preamble; no initial retract line
`G0 Z<z>` (for any `z`) follows the preamble, refuting "the preamble is
followed by an initial retract line `G0 Z<safe>` before any motion". -/
theorem C8_preamble_cex :
    (NC.buildNCWithMap (NC.buildMoves [pathC8] optsC8) optsC8).1 =
      NC.preNCMap optsC8 ++
        [NCLine.rapidXY 1 1, NCLine.plungeF (-1) 20, NCLine.feed 30,
         NCLine.cutLine 2 1, NCLine.rapidZ (1 / 2),
         NCLine.text "M30 (end)", NCLine.text "%"] ∧
    ∀ z : ℚ, (NC.buildNCWithMap (NC.buildMoves [pathC8] optsC8) optsC8).1.take 11 ≠
      NC.preNCMap optsC8 ++ [NCLine.rapidZ z] := by
  have heval : (NC.buildNCWithMap (NC.buildMoves [pathC8] optsC8) optsC8).1 =
      NC.preNCMap optsC8 ++
        [NCLine.rapidXY 1 1, NCLine.plungeF (-1) 20, NCLine.feed 30,
         NCLine.cutLine 2 1, NCLine.rapidZ (1 / 2),
         NCLine.text "M30 (end)", NCLine.text "%"] := by
    rw [movesC8_eval]
    have e1 : NC.emitStep ⟨none, none, none⟩ (NC.Move.rapidXY 1 1) =
        (⟨none, none, some ⟨1, 1⟩⟩, [NCLine.rapidXY 1 1]) := by
      simp [NC.emitStep]
    have e2 : NC.emitStep ⟨none, none, some ⟨1, 1⟩⟩ (NC.Move.plunge (-1) 20) =
        (⟨some 20, some (-1), some ⟨1, 1⟩⟩, [NCLine.plungeF (-1) 20]) := by
      simp [NC.emitStep]
    have e3 : NC.emitStep ⟨some 20, some (-1), some ⟨1, 1⟩⟩ (NC.Move.feedXY 30) =
        (⟨some 30, some (-1), some ⟨1, 1⟩⟩, [NCLine.feed 30]) := by
      norm_num [NC.emitStep]
    have e4 : NC.emitStep ⟨some 30, some (-1), some ⟨1, 1⟩⟩ (NC.Move.cutLine 2 1) =
        (⟨some 30, some (-1), some ⟨2, 1⟩⟩, [NCLine.cutLine 2 1]) := by
      simp [NC.emitStep]
    have e5 : NC.emitStep ⟨some 30, some (-1), some ⟨2, 1⟩⟩ (NC.Move.retract (1 / 2)) =
        (⟨some 30, some (1 / 2), some ⟨2, 1⟩⟩, [NCLine.rapidZ (1 / 2)]) := by
      norm_num [NC.emitStep]
    simp only [NC.buildNCWithMap, emitLoopMap_fst, NC.emitLoop, e1, e2, e3, e4, e5, optsC8]
    rfl
  refine ⟨heval, ?_⟩
  intro z
  rw [heval]
  simp [NC.preNCMap]

end C8Pre

section C10Fuse

/-- The no-fuse relation between adjacent paths: the first one's last
point is not within the chain tolerance of the second one's first
point. -/
def noFuse (tol : ℚ) (P Q : LPath) : Prop := ¬ samePt (lastPt P) (firstPt Q) tol

lemma mergeLoop_ne_nil (tol : ℚ) (cur : LPath) (rest : List LPath) :
    NC.mergeLoop tol cur rest ≠ [] := by
  induction rest generalizing cur with
  | nil => simp [NC.mergeLoop]
  | cons next rest ih =>
    by_cases h : samePt (lastPt cur) (firstPt next) tol <;>
      simp [NC.mergeLoop, h, ih]

lemma mergeLoop_head_first (tol : ℚ) (cur : LPath) (rest : List LPath)
    (hcur : cur.segments ≠ []) :
    firstPt ((NC.mergeLoop tol cur rest).headD default) = firstPt cur := by
  induction rest generalizing cur with
  | nil => simp [NC.mergeLoop]
  | cons next rest ih =>
    by_cases h : samePt (lastPt cur) (firstPt next) tol
    · rw [NC.mergeLoop, if_pos h]
      have h2 : (⟨cur.segments ++ next.segments⟩ : LPath).segments ≠ [] := by
        simpa using fun h3 _ => hcur h3
      rw [ih ⟨cur.segments ++ next.segments⟩ h2]
      obtain ⟨s, ss, hss⟩ : ∃ s ss, cur.segments = s :: ss := by
        rcases hcs : cur.segments with _ | ⟨s, ss⟩
        · exact absurd hcs hcur
        · exact ⟨s, ss, rfl⟩
      simp [firstPt, hss]
    · rw [NC.mergeLoop, if_neg h]
      simp

lemma mergeLoop_chain (tol : ℚ) (cur : LPath) (rest : List LPath)
    (hcur : cur.segments ≠ []) (hrest : ∀ p ∈ rest, p.segments ≠ []) :
    List.Chain' (noFuse tol) (NC.mergeLoop tol cur rest) := by
  induction rest generalizing cur with
  | nil => simp [NC.mergeLoop]
  | cons next rest ih =>
    have hnext : next.segments ≠ [] := hrest next (by simp)
    have hrest2 : ∀ p ∈ rest, p.segments ≠ [] := fun p hp => hrest p (by simp [hp])
    by_cases h : samePt (lastPt cur) (firstPt next) tol
    · rw [NC.mergeLoop, if_pos h]
      have h2 : (⟨cur.segments ++ next.segments⟩ : LPath).segments ≠ [] := by
        simpa using fun h3 _ => hcur h3
      exact ih ⟨cur.segments ++ next.segments⟩ h2 hrest2
    · rw [NC.mergeLoop, if_neg h]
      rw [List.chain'_cons']
      refine ⟨?_, ih next hnext hrest2⟩
      intro q hq
      have hne := mergeLoop_ne_nil tol next rest
      have hhead : q = (NC.mergeLoop tol next rest).headD default := by
        rcases hm : NC.mergeLoop tol next rest with _ | ⟨a, l⟩
        · exact absurd hm hne
        · rw [hm] at hq; simp at hq; simp [hq]
      rw [hhead, noFuse, mergeLoop_head_first tol next rest hnext]
      exact h

lemma mergeLoop_of_chain (tol : ℚ) (cur : LPath) (rest : List LPath)
    (h : List.Chain' (noFuse tol) (cur :: rest)) :
    NC.mergeLoop tol cur rest = cur :: rest := by
  induction rest generalizing cur with
  | nil => rfl
  | cons next rest ih =>
    rw [List.chain'_cons] at h
    rw [NC.mergeLoop, if_neg h.1, ih next h.2]

/-- C10: continuous-chain fusion is complete and idempotent.  In the
output of `mergeContinuousPaths` (over nonempty paths) no adjacent pair
still coincides within the chain tolerance, and applying
`mergeContinuousPaths` to its own output returns it unchanged. -/
theorem C10_fusion_idempotent (paths : List LPath) (tol : ℚ)
    (h : ∀ p ∈ paths, p.segments ≠ []) :
    List.Chain' (noFuse tol) (NC.mergeContinuousPaths paths tol) ∧
    NC.mergeContinuousPaths (NC.mergeContinuousPaths paths tol) tol =
      NC.mergeContinuousPaths paths tol := by
  rcases paths with _ | ⟨p, rest⟩
  · exact ⟨by simp [NC.mergeContinuousPaths], rfl⟩
  · have hp : p.segments ≠ [] := h p (by simp)
    have hrest : ∀ q ∈ rest, q.segments ≠ [] := fun q hq => h q (by simp [hq])
    have hchain := mergeLoop_chain tol p rest hp hrest
    rw [NC.mergeContinuousPaths]
    refine ⟨hchain, ?_⟩
    rcases hm : NC.mergeLoop tol p rest with _ | ⟨a, l⟩
    · rfl
    · rw [hm] at hchain
      rw [NC.mergeContinuousPaths, mergeLoop_of_chain tol a l hchain]

/-- C10 witness: two touching unit segments fuse into one path; the
result is stable under a second fusion. -/
theorem C10_fusion_idempotent_witness :
    (∀ p ∈ [(⟨[⟨⟨0, 0⟩, ⟨1, 0⟩⟩]⟩ : LPath), ⟨[⟨⟨1, 0⟩, ⟨2, 0⟩⟩]⟩], p.segments ≠ []) ∧
    NC.mergeContinuousPaths
        (NC.mergeContinuousPaths [⟨[⟨⟨0, 0⟩, ⟨1, 0⟩⟩]⟩, ⟨[⟨⟨1, 0⟩, ⟨2, 0⟩⟩]⟩] (1 / 100))
        (1 / 100) =
      NC.mergeContinuousPaths [⟨[⟨⟨0, 0⟩, ⟨1, 0⟩⟩]⟩, ⟨[⟨⟨1, 0⟩, ⟨2, 0⟩⟩]⟩] (1 / 100) := by
  have hne : ∀ p ∈ [(⟨[⟨⟨0, 0⟩, ⟨1, 0⟩⟩]⟩ : LPath), ⟨[⟨⟨1, 0⟩, ⟨2, 0⟩⟩]⟩],
      p.segments ≠ [] := by
    intro p hp
    simp only [List.mem_cons, List.not_mem_nil, or_false] at hp
    rcases hp with h | h <;> subst h <;> simp
  exact ⟨hne, (C10_fusion_idempotent _ (1 / 100) hne).2⟩

end C10Fuse

section C2Elision

/-- Number of `plunge` moves in a move list. -/
def countPlunge (ms : List NC.Move) : Nat :=
  ms.countP fun m => match m with | NC.Move.plunge _ _ => true | _ => false

/-- Number of `retract` moves in a move list. -/
def countRetract (ms : List NC.Move) : Nat :=
  ms.countP fun m => match m with | NC.Move.retract _ => true | _ => false

/-- The Z coordinate after replaying a move list from height `z`
(retracts and plunges set it; nothing else touches it). -/
def zAfter (z : ℚ) : List NC.Move → ℚ
  | [] => z
  | NC.Move.retract z9 :: ms => zAfter z9 ms
  | NC.Move.plunge z9 _ :: ms => zAfter z9 ms
  | _ :: ms => zAfter z ms

/-- Amended elision guarantee: replaying the move list from height `z`,
every `rapidXY` move occurs with the tool at safe Z. -/
def rapidsAtSafeZ (safe : ℚ) : ℚ → List NC.Move → Prop
  | _, [] => True
  | _, NC.Move.retract z9 :: ms => rapidsAtSafeZ safe z9 ms
  | _, NC.Move.plunge z9 _ :: ms => rapidsAtSafeZ safe z9 ms
  | z, NC.Move.rapidXY _ _ :: ms => z = safe ∧ rapidsAtSafeZ safe z ms
  | z, _ :: ms => rapidsAtSafeZ safe z ms

/-- The claim as frozen, weakest reading: walking the move list while
replaying the XY cursor, every `rapidXY` whose target is not within the
chain tolerance of the current XY position is preceded (anywhere
earlier) by at least one `retract` move (`seen` records whether one has
been emitted so far). -/
def retractPrecedesRapids (tol : ℚ) : Bool → Pt → List NC.Move → Prop
  | _, _, [] => True
  | _, cur, NC.Move.retract _ :: ms => retractPrecedesRapids tol true cur ms
  | seen, cur, NC.Move.rapidXY x y :: ms =>
    (¬ samePt cur ⟨x, y⟩ tol → seen = true) ∧ retractPrecedesRapids tol seen ⟨x, y⟩ ms
  | seen, _, NC.Move.cutLine x y :: ms => retractPrecedesRapids tol seen ⟨x, y⟩ ms
  | seen, cur, _ :: ms => retractPrecedesRapids tol seen cur ms

lemma countPlunge_append (a b : List NC.Move) :
    countPlunge (a ++ b) = countPlunge a + countPlunge b :=
  List.countP_append _ _ _

lemma countRetract_append (a b : List NC.Move) :
    countRetract (a ++ b) = countRetract a + countRetract b :=
  List.countP_append _ _ _

/-- The cut loop of `pathMoves`: all emitted moves are cuts, the Z of the
cursor is untouched. -/
lemma cutsFold (segs : List LSeg) : ∀ (st : NC.MState) (acc : List NC.Move),
    ∃ xyF ms,
      segs.foldl (fun (acc : NC.MState × List NC.Move) s =>
          ((⟨s.b, acc.1.z⟩ : NC.MState), acc.2 ++ [NC.Move.cutLine s.b.x s.b.y])) (st, acc)
        = (⟨xyF, st.z⟩, acc ++ ms) ∧
      ∀ m ∈ ms, ∃ x y, m = NC.Move.cutLine x y := by
  induction segs with
  | nil =>
    intro st acc
    exact ⟨st.xy, [], by simp, by simp⟩
  | cons s segs ih =>
    intro st acc
    obtain ⟨xyF, ms, heq, hall⟩ := ih ⟨s.b, st.z⟩ (acc ++ [NC.Move.cutLine s.b.x s.b.y])
    refine ⟨xyF, NC.Move.cutLine s.b.x s.b.y :: ms, ?_, ?_⟩
    · rw [List.foldl_cons]
      show (segs.foldl _ ((⟨s.b, st.z⟩ : NC.MState), acc ++ [NC.Move.cutLine s.b.x s.b.y])) = _
      rw [heq]
      simp
    · intro m hm
      rcases List.mem_cons.mp hm with h | h
      · exact ⟨s.b.x, s.b.y, h⟩
      · exact hall m h

lemma cuts_counts {ms : List NC.Move} (h : ∀ m ∈ ms, ∃ x y, m = NC.Move.cutLine x y) :
    countPlunge ms = 0 ∧ countRetract ms = 0 := by
  constructor <;>
    · simp only [countPlunge, countRetract]
      rw [List.countP_eq_zero]
      intro m hm
      obtain ⟨x, y, hxy⟩ := h m hm
      subst hxy
      simp

/-- One pass of `buildMoves` over the single (fused) path: exactly one
plunge and one trailing retract, and the pass returns the cursor to safe
Z. -/
lemma passMoves_single (opts : Opts) (R : LPath) (passZ : ℚ) (st : NC.MState)
    (hR : R.segments ≠ []) (hz : st.z = opts.safeZ) (hp : passZ ≠ opts.safeZ) :
    ∃ stO ms, NC.passMoves opts [R] passZ st = (stO, ms) ∧
      countPlunge ms = 1 ∧ countRetract ms = 1 ∧ stO.z = opts.safeZ ∧
      ms.getLast? = some (NC.Move.retract opts.safeZ) := by
  have hzz : st.z ≠ passZ := by rw [hz]; exact fun h => hp h.symm
  have hzz2 : opts.safeZ ≠ passZ := fun h => hp h.symm
  have hcond : ¬ samePt st.xy (firstPt R) opts.chainTol ∨ st.z ≠ passZ := Or.inr hzz
  by_cases hxy : samePt st.xy (firstPt R) opts.chainTol
  · obtain ⟨xyF, cuts, hcuts, hallcuts⟩ := cutsFold R.segments ⟨st.xy, passZ⟩ []
    have hcc := cuts_counts hallcuts
    refine ⟨⟨xyF, opts.safeZ⟩,
      ([NC.Move.plunge passZ opts.feedZ, NC.Move.feedXY opts.feedXY] ++ cuts) ++
        [NC.Move.retract opts.safeZ], ?_, ?_, ?_, rfl, ?_⟩
    · simp only [NC.passMoves, NC.retractM, NC.pathMoves, hz, List.foldl_cons,
        List.foldl_nil, hR, if_pos hcond, hxy, not_true_eq_false, false_or, ite_false,
        ite_true, List.nil_append, if_neg, hzz2, ne_eq, not_false_iff, if_pos]
      simp only [List.nil_append] at hcuts
      rw [hcuts]
      simp [hp, List.append_assoc]
    · rw [countPlunge_append, countPlunge_append, hcc.1]
      simp [countPlunge, List.countP_cons, List.countP_nil]
    · rw [countRetract_append, countRetract_append, hcc.2]
      simp [countRetract, List.countP_cons, List.countP_nil]
    · rw [List.getLast?_concat]
  · obtain ⟨xyF, cuts, hcuts, hallcuts⟩ := cutsFold R.segments ⟨firstPt R, passZ⟩ []
    have hcc := cuts_counts hallcuts
    refine ⟨⟨xyF, opts.safeZ⟩,
      ([NC.Move.rapidXY (firstPt R).x (firstPt R).y, NC.Move.plunge passZ opts.feedZ,
        NC.Move.feedXY opts.feedXY] ++ cuts) ++ [NC.Move.retract opts.safeZ],
      ?_, ?_, ?_, rfl, ?_⟩
    · simp only [NC.passMoves, NC.retractM, NC.pathMoves, hz, List.foldl_cons,
        List.foldl_nil, hR, if_pos hcond, hxy, not_false_iff, false_or, true_or,
        or_true, ite_false, ite_true, List.nil_append, if_neg, hzz2, ne_eq, if_pos]
      simp only [List.nil_append] at hcuts
      rw [hcuts]
      simp [hp, List.append_assoc]
    · rw [countPlunge_append, countPlunge_append, hcc.1]
      simp [countPlunge, List.countP_cons, List.countP_nil]
    · rw [countRetract_append, countRetract_append, hcc.2]
      simp [countRetract, List.countP_cons, List.countP_nil]
    · rw [List.getLast?_concat]

lemma getLast?_append_right {α : Type} (l1 l2 : List α) (a : α)
    (h : l2.getLast? = some a) : (l1 ++ l2).getLast? = some a := by
  rw [List.getLast?_append, h]
  rfl

/-- Append-normalization for the accumulator-threading folds of
`passMoves` / `buildMoves`. -/
lemma foldl_emit_acc {α : Type} (f : NC.MState → α → NC.MState × List NC.Move) :
    ∀ (l : List α) (st : NC.MState) (acc : List NC.Move),
      l.foldl (fun (p : NC.MState × List NC.Move) a =>
          ((f p.1 a).1, p.2 ++ (f p.1 a).2)) (st, acc)
        = ((l.foldl (fun (p : NC.MState × List NC.Move) a =>
            ((f p.1 a).1, p.2 ++ (f p.1 a).2)) (st, [])).1,
           acc ++ (l.foldl (fun (p : NC.MState × List NC.Move) a =>
            ((f p.1 a).1, p.2 ++ (f p.1 a).2)) (st, [])).2) := by
  intro l
  induction l with
  | nil => intro st acc; simp
  | cons a l ih =>
    intro st acc
    rw [List.foldl_cons, List.foldl_cons]
    rw [ih (f st a).1 (acc ++ (f st a).2), ih (f st a).1 ([] ++ (f st a).2)]
    simp [List.append_assoc]

/-- The pass loop of `buildMoves` over the single fused path: one plunge
and one retract per pass, ending at safe Z with a trailing retract. -/
lemma passesFold (opts : Opts) (R : LPath) (hR : R.segments ≠ []) :
    ∀ (ds : List ℚ) (st : NC.MState),
      (∀ z ∈ ds, z ≠ opts.safeZ) → st.z = opts.safeZ →
      ∃ stF ms,
        ds.foldl (fun (p : NC.MState × List NC.Move) passZ =>
            ((NC.passMoves opts [R] passZ p.1).1, p.2 ++ (NC.passMoves opts [R] passZ p.1).2))
          (st, []) = (stF, ms) ∧
        stF.z = opts.safeZ ∧ countPlunge ms = ds.length ∧ countRetract ms = ds.length ∧
        (ds = [] → ms = []) ∧
        (ds ≠ [] → ms.getLast? = some (NC.Move.retract opts.safeZ)) := by
  intro ds
  induction ds with
  | nil =>
    intro st _ hz
    exact ⟨st, [], by simp, hz, rfl, rfl, fun _ => rfl, fun h => absurd rfl h⟩
  | cons d ds ih =>
    intro st hall hz
    obtain ⟨st1, ms1, h1, hc1p, hc1r, h1z, h1last⟩ :=
      passMoves_single opts R d st hR hz (hall d (by simp))
    obtain ⟨stF, ms2, h2, h2z, hc2p, hc2r, h2nil, h2last⟩ :=
      ih st1 (fun z hzz => hall z (by simp [hzz])) h1z
    refine ⟨stF, ms1 ++ ms2, ?_, h2z, ?_, ?_, by simp, ?_⟩
    · rw [List.foldl_cons]
      simp only [h1, List.nil_append]
      rw [foldl_emit_acc (fun s passZ => NC.passMoves opts [R] passZ s) ds st1 ms1, h2]
    · rw [countPlunge_append, hc1p, hc2p, List.length_cons, Nat.add_comm]
    · rw [countRetract_append, hc1r, hc2r, List.length_cons, Nat.add_comm]
    · intro _
      by_cases hds : ds = []
      · subst hds
        rw [h2nil rfl, List.append_nil]
        exact h1last
      · exact getLast?_append_right ms1 ms2 _ (h2last hds)

lemma passDepths_ne_safe (opts : Opts) (hsafe : 0 < opts.safeZ) (hstep : 0 < opts.stepDown) :
    ∀ z ∈ NC.passDepths opts.totalDepth opts.stepDown, z ≠ opts.safeZ := by
  intro z hz
  simp only [NC.passDepths, List.mem_map, List.mem_range] at hz
  obtain ⟨k, _, hk⟩ := hz
  have h1 : (0 : ℚ) ≤ min |opts.totalDepth| (((k : ℚ) + 1) * opts.stepDown) :=
    le_min (abs_nonneg _) (mul_nonneg (by positivity) hstep.le)
  intro heq
  rw [← hk] at heq
  have : (0 : ℚ) < opts.safeZ := hsafe
  linarith [heq]

lemma passDepths_ne_nil (d s : ℚ) : NC.passDepths d s ≠ [] := by
  have h1 : (1 : ℤ) ≤ max 1 ⌈|d| / s⌉ := le_max_left 1 _
  have h2 : 1 ≤ (max 1 ⌈|d| / s⌉).toNat := by
    have := Int.toNat_le_toNat h1
    simpa using this
  have h3 : 0 < (NC.passDepths d s).length := by
    simp only [NC.passDepths, List.length_map, List.length_range]
    omega
  exact List.ne_nil_of_length_pos h3

lemma zAfter_append : ∀ (a b : List NC.Move) (z : ℚ),
    zAfter z (a ++ b) = zAfter (zAfter z a) b := by
  intro a
  induction a with
  | nil => intro b z; rfl
  | cons m a ih =>
    intro b z
    cases m <;> simp only [List.cons_append, List.append_eq, zAfter] <;> exact ih b _

lemma rapids_append (safe : ℚ) : ∀ (a b : List NC.Move) (z : ℚ),
    rapidsAtSafeZ safe z (a ++ b) ↔
      rapidsAtSafeZ safe z a ∧ rapidsAtSafeZ safe (zAfter z a) b := by
  intro a
  induction a with
  | nil => intro b z; simp [rapidsAtSafeZ, zAfter]
  | cons m a ih =>
    intro b z
    cases m <;>
      simp only [List.cons_append, List.append_eq, rapidsAtSafeZ, zAfter, ih, and_assoc]

lemma cuts_neutral {ms : List NC.Move} (safe : ℚ)
    (h : ∀ m ∈ ms, ∃ x y, m = NC.Move.cutLine x y) :
    ∀ z, zAfter z ms = z ∧ rapidsAtSafeZ safe z ms := by
  induction ms with
  | nil => intro z; exact ⟨rfl, trivial⟩
  | cons m ms ih =>
    intro z
    obtain ⟨x, y, hm⟩ := h m (by simp)
    subst hm
    have ih2 := ih (fun m hm => h m (by simp [hm]))
    exact ⟨(ih2 z).1, (ih2 z).2⟩

lemma retractM_facts (safe : ℚ) (st : NC.MState) :
    (NC.retractM safe st).1.z = safe ∧ (NC.retractM safe st).1.xy = st.xy ∧
      zAfter st.z (NC.retractM safe st).2 = safe ∧
      rapidsAtSafeZ safe st.z (NC.retractM safe st).2 := by
  by_cases h : st.z = safe
  · simp [NC.retractM, h, zAfter, rapidsAtSafeZ]
  · simp [NC.retractM, h, zAfter, rapidsAtSafeZ]

lemma pathMoves_rapids (opts : Opts) (passZ : ℚ) (p : LPath) : ∀ (st : NC.MState),
    rapidsAtSafeZ opts.safeZ st.z (NC.pathMoves opts passZ st p).2 ∧
      zAfter st.z (NC.pathMoves opts passZ st p).2 = (NC.pathMoves opts passZ st p).1.z := by
  intro st
  by_cases hemp : p.segments = []
  · simp [NC.pathMoves, hemp, zAfter, rapidsAtSafeZ]
  · by_cases hcond : ¬ samePt st.xy (firstPt p) opts.chainTol ∨ st.z ≠ passZ
    · by_cases hz : st.z = opts.safeZ
      · by_cases hxy : samePt st.xy (firstPt p) opts.chainTol
        · obtain ⟨xyF, cuts, hcuts, hall⟩ := cutsFold p.segments ⟨st.xy, passZ⟩ []
          simp only [List.nil_append] at hcuts
          have hneut := cuts_neutral opts.safeZ hall
          have heval : NC.pathMoves opts passZ st p =
              (⟨xyF, passZ⟩,
               [NC.Move.plunge passZ opts.feedZ, NC.Move.feedXY opts.feedXY] ++ cuts) := by
            simp only [NC.pathMoves, if_neg hemp, if_pos hcond, NC.retractM, if_pos hz,
              if_neg (not_not_intro hxy), List.nil_append, hcuts]
          rw [heval]
          exact ⟨(hneut passZ).2, (hneut passZ).1⟩
        · obtain ⟨xyF, cuts, hcuts, hall⟩ := cutsFold p.segments ⟨firstPt p, passZ⟩ []
          simp only [List.nil_append] at hcuts
          have hneut := cuts_neutral opts.safeZ hall
          have heval : NC.pathMoves opts passZ st p =
              (⟨xyF, passZ⟩,
               [NC.Move.rapidXY (firstPt p).x (firstPt p).y,
                NC.Move.plunge passZ opts.feedZ, NC.Move.feedXY opts.feedXY] ++ cuts) := by
            simp only [NC.pathMoves, if_neg hemp, if_pos hcond, NC.retractM, if_pos hz,
              if_pos hxy, List.nil_append, List.cons_append, hcuts]
          rw [heval]
          refine ⟨⟨hz, (hneut passZ).2⟩, (hneut passZ).1⟩
      · by_cases hxy : samePt st.xy (firstPt p) opts.chainTol
        · obtain ⟨xyF, cuts, hcuts, hall⟩ := cutsFold p.segments ⟨st.xy, passZ⟩ []
          simp only [List.nil_append] at hcuts
          have hneut := cuts_neutral opts.safeZ hall
          have heval : NC.pathMoves opts passZ st p =
              (⟨xyF, passZ⟩,
               [NC.Move.retract opts.safeZ, NC.Move.plunge passZ opts.feedZ,
                NC.Move.feedXY opts.feedXY] ++ cuts) := by
            simp only [NC.pathMoves, if_neg hemp, if_pos hcond, NC.retractM, if_neg hz,
              if_neg (not_not_intro hxy), List.nil_append, List.cons_append, hcuts]
          rw [heval]
          exact ⟨(hneut passZ).2, (hneut passZ).1⟩
        · obtain ⟨xyF, cuts, hcuts, hall⟩ := cutsFold p.segments ⟨firstPt p, passZ⟩ []
          simp only [List.nil_append] at hcuts
          have hneut := cuts_neutral opts.safeZ hall
          have heval : NC.pathMoves opts passZ st p =
              (⟨xyF, passZ⟩,
               [NC.Move.retract opts.safeZ, NC.Move.rapidXY (firstPt p).x (firstPt p).y,
                NC.Move.plunge passZ opts.feedZ, NC.Move.feedXY opts.feedXY] ++ cuts) := by
            simp only [NC.pathMoves, if_neg hemp, if_pos hcond, NC.retractM, if_neg hz,
              if_pos hxy, List.nil_append, List.cons_append, hcuts]
          rw [heval]
          exact ⟨⟨rfl, (hneut passZ).2⟩, (hneut passZ).1⟩
    · obtain ⟨xyF, cuts, hcuts, hall⟩ := cutsFold p.segments ⟨st.xy, st.z⟩ []
      simp only [List.nil_append] at hcuts
      have hneut := cuts_neutral opts.safeZ hall
      have hsteq : (⟨st.xy, st.z⟩ : NC.MState) = st := rfl
      rw [hsteq] at hcuts
      have heval : NC.pathMoves opts passZ st p =
          (⟨xyF, st.z⟩, NC.Move.feedXY opts.feedXY :: cuts) := by
        simp only [NC.pathMoves, if_neg hemp, if_neg hcond, List.nil_append,
          List.cons_append, hcuts]
      rw [heval]
      exact ⟨(hneut st.z).2, (hneut st.z).1⟩

lemma pathsFold_rapids (opts : Opts) (passZ : ℚ) : ∀ (paths : List LPath) (st : NC.MState),
    rapidsAtSafeZ opts.safeZ st.z
        (paths.foldl (fun (q : NC.MState × List NC.Move) p =>
          ((NC.pathMoves opts passZ q.1 p).1, q.2 ++ (NC.pathMoves opts passZ q.1 p).2))
          (st, [])).2 ∧
      zAfter st.z
        (paths.foldl (fun (q : NC.MState × List NC.Move) p =>
          ((NC.pathMoves opts passZ q.1 p).1, q.2 ++ (NC.pathMoves opts passZ q.1 p).2))
          (st, [])).2 =
      (paths.foldl (fun (q : NC.MState × List NC.Move) p =>
          ((NC.pathMoves opts passZ q.1 p).1, q.2 ++ (NC.pathMoves opts passZ q.1 p).2))
          (st, [])).1.z := by
  intro paths
  induction paths with
  | nil => intro st; exact ⟨trivial, rfl⟩
  | cons p paths ih =>
    intro st
    rw [List.foldl_cons]
    have hstep : ((NC.pathMoves opts passZ (st, ([] : List NC.Move)).1 p).1,
        (st, ([] : List NC.Move)).2 ++ (NC.pathMoves opts passZ (st, ([] : List NC.Move)).1 p).2)
        = ((NC.pathMoves opts passZ st p).1, (NC.pathMoves opts passZ st p).2) := by
      simp
    rw [hstep]
    rw [foldl_emit_acc (fun s q => NC.pathMoves opts passZ s q) paths
      (NC.pathMoves opts passZ st p).1 (NC.pathMoves opts passZ st p).2]
    obtain ⟨h1, h2⟩ := pathMoves_rapids opts passZ p st
    obtain ⟨h3, h4⟩ := ih (NC.pathMoves opts passZ st p).1
    constructor
    · rw [rapids_append]
      exact ⟨h1, by rw [h2]; exact h3⟩
    · rw [zAfter_append, h2, h4]

lemma passMoves_rapids (opts : Opts) (paths : List LPath) (passZ : ℚ) (st : NC.MState) :
    rapidsAtSafeZ opts.safeZ st.z (NC.passMoves opts paths passZ st).2 ∧
      (NC.passMoves opts paths passZ st).1.z = opts.safeZ := by
  obtain ⟨hr1z, hr1xy, hr1za, hr1ok⟩ := retractM_facts opts.safeZ st
  have hbody := pathsFold_rapids opts passZ paths (NC.retractM opts.safeZ st).1
  set B := paths.foldl (fun (q : NC.MState × List NC.Move) p =>
    ((NC.pathMoves opts passZ q.1 p).1, q.2 ++ (NC.pathMoves opts passZ q.1 p).2))
    ((NC.retractM opts.safeZ st).1, []) with hB
  obtain ⟨hr2z, hr2xy, hr2za, hr2ok⟩ := retractM_facts opts.safeZ B.1
  have heval : NC.passMoves opts paths passZ st =
      ((NC.retractM opts.safeZ B.1).1,
        (NC.retractM opts.safeZ st).2 ++ B.2 ++ (NC.retractM opts.safeZ B.1).2) := by
    simp only [NC.passMoves, hB]
  rw [heval]
  refine ⟨?_, hr2z⟩
  rw [rapids_append, rapids_append]
  have hb1 := hbody.1
  have hb2 := hbody.2
  rw [hr1z] at hb1 hb2
  refine ⟨⟨hr1ok, ?_⟩, ?_⟩
  · rw [hr1za]
    exact hb1
  · rw [zAfter_append, hr1za, hb2]
    exact hr2ok

/-- Amended C2 invariant, proved for every path list and options: in the
move list of `buildMoves`, every rapid reposition happens with the tool
at safe Z (a retract is emitted beforehand exactly when the tool is not
already at safe height). -/
lemma buildMoves_rapids (paths : List LPath) (opts : Opts) :
    rapidsAtSafeZ opts.safeZ opts.safeZ (NC.buildMoves paths opts) := by
  have hds : ∀ (ds : List ℚ) (st : NC.MState), st.z = opts.safeZ →
      rapidsAtSafeZ opts.safeZ st.z
        (ds.foldl (fun (q : NC.MState × List NC.Move) passZ =>
          ((NC.passMoves opts paths passZ q.1).1, q.2 ++ (NC.passMoves opts paths passZ q.1).2))
          (st, [])).2 ∧
      (ds.foldl (fun (q : NC.MState × List NC.Move) passZ =>
          ((NC.passMoves opts paths passZ q.1).1, q.2 ++ (NC.passMoves opts paths passZ q.1).2))
          (st, [])).1.z = opts.safeZ := by
    intro ds
    induction ds with
    | nil => intro st hz; exact ⟨trivial, hz⟩
    | cons d ds ih =>
      intro st hz
      rw [List.foldl_cons]
      have hstep : ((NC.passMoves opts paths d (st, ([] : List NC.Move)).1).1,
          (st, ([] : List NC.Move)).2 ++ (NC.passMoves opts paths d (st, ([] : List NC.Move)).1).2)
          = ((NC.passMoves opts paths d st).1, (NC.passMoves opts paths d st).2) := by
        simp
      rw [hstep]
      rw [foldl_emit_acc (fun s q => NC.passMoves opts paths q s) ds
        (NC.passMoves opts paths d st).1 (NC.passMoves opts paths d st).2]
      obtain ⟨h1, h2⟩ := passMoves_rapids opts paths d st
      obtain ⟨h3, h4⟩ := ih (NC.passMoves opts paths d st).1 h2
      refine ⟨?_, h4⟩
      rw [rapids_append]
      refine ⟨h1, ?_⟩
      have h5 : zAfter st.z (NC.passMoves opts paths d st).2 =
          (NC.passMoves opts paths d st).1.z := by
        obtain ⟨hr1z, hr1xy, hr1za, hr1ok⟩ := retractM_facts opts.safeZ st
        set B := paths.foldl (fun (q : NC.MState × List NC.Move) p =>
          ((NC.pathMoves opts d q.1 p).1, q.2 ++ (NC.pathMoves opts d q.1 p).2))
          ((NC.retractM opts.safeZ st).1, []) with hB
        obtain ⟨hr2z, hr2xy, hr2za, hr2ok⟩ := retractM_facts opts.safeZ B.1
        have heval : NC.passMoves opts paths d st =
            ((NC.retractM opts.safeZ B.1).1,
              (NC.retractM opts.safeZ st).2 ++ B.2 ++ (NC.retractM opts.safeZ B.1).2) := by
          simp only [NC.passMoves, hB]
        rw [heval]
        rw [zAfter_append, zAfter_append, hr1za]
        have hp2 := (pathsFold_rapids opts d paths (NC.retractM opts.safeZ st).1).2
        rw [hr1z] at hp2
        rw [hp2, hr2za, hr2z]
      rw [h5]
      exact h3
  have hst0 : ((⟨⟨0, 0⟩, opts.safeZ⟩ : NC.MState)).z = opts.safeZ := rfl
  have heval : NC.buildMoves paths opts =
      ((NC.passDepths opts.totalDepth opts.stepDown).foldl
        (fun (q : NC.MState × List NC.Move) passZ =>
          ((NC.passMoves opts paths passZ q.1).1, q.2 ++ (NC.passMoves opts paths passZ q.1).2))
        (⟨⟨0, 0⟩, opts.safeZ⟩, [])).2 := by
    simp only [NC.buildMoves, NC.retractM, ite_true, List.nil_append]
  rw [heval]
  exact (hds _ _ hst0).1

/-- C2 (corrected): tool-down elision.  For two nonempty paths whose
junction coincides within the chain tolerance, continuous-chain fusion
produces the single concatenated path, and the planned move list over
the fused path contains exactly one plunge and one trailing retract per
depth pass (pass count = length of the pass-depth schedule), ends with
the retract to safe Z, and — the amended lift guarantee — every rapid
reposition in it occurs with the tool at safe height.  The claim's
stronger clause, that a retract move is *emitted* before every
non-adjacent rapid, fails for the very first rapid (the initial retract
is elided because the cursor starts at safe Z); see the
counterexample. -/
theorem C2_tool_down_elision (P Q : LPath) (opts : Opts)
    (hP : P.segments ≠ []) (hQ : Q.segments ≠ [])
    (hfuse : samePt (lastPt P) (firstPt Q) opts.chainTol)
    (hsafe : 0 < opts.safeZ) (hstep : 0 < opts.stepDown) :
    NC.mergeContinuousPaths [P, Q] opts.chainTol = [(⟨P.segments ++ Q.segments⟩ : LPath)] ∧
    countPlunge (NC.buildMoves [(⟨P.segments ++ Q.segments⟩ : LPath)] opts)
      = (NC.passDepths opts.totalDepth opts.stepDown).length ∧
    countRetract (NC.buildMoves [(⟨P.segments ++ Q.segments⟩ : LPath)] opts)
      = (NC.passDepths opts.totalDepth opts.stepDown).length ∧
    (NC.buildMoves [(⟨P.segments ++ Q.segments⟩ : LPath)] opts).getLast?
      = some (NC.Move.retract opts.safeZ) ∧
    rapidsAtSafeZ opts.safeZ opts.safeZ
      (NC.buildMoves [(⟨P.segments ++ Q.segments⟩ : LPath)] opts) := by
  have hmerge : NC.mergeContinuousPaths [P, Q] opts.chainTol
      = [(⟨P.segments ++ Q.segments⟩ : LPath)] := by
    simp only [NC.mergeContinuousPaths, NC.mergeLoop, if_pos hfuse]
  have hRne : (⟨P.segments ++ Q.segments⟩ : LPath).segments ≠ [] := by
    intro h
    exact hP (List.append_eq_nil.mp h).1
  obtain ⟨stF, ms, hfold, hstz, hcp, hcr, hnil, hlast⟩ :=
    passesFold opts ⟨P.segments ++ Q.segments⟩ hRne
      (NC.passDepths opts.totalDepth opts.stepDown) ⟨⟨0, 0⟩, opts.safeZ⟩
      (passDepths_ne_safe opts hsafe hstep) rfl
  have heval : NC.buildMoves [(⟨P.segments ++ Q.segments⟩ : LPath)] opts =
      ((NC.passDepths opts.totalDepth opts.stepDown).foldl
        (fun (p : NC.MState × List NC.Move) passZ =>
          ((NC.passMoves opts [(⟨P.segments ++ Q.segments⟩ : LPath)] passZ p.1).1,
           p.2 ++ (NC.passMoves opts [(⟨P.segments ++ Q.segments⟩ : LPath)] passZ p.1).2))
        (⟨⟨0, 0⟩, opts.safeZ⟩, [])).2 := by
    simp only [NC.buildMoves, NC.retractM, ite_true, List.nil_append]
  refine ⟨hmerge, ?_, ?_, ?_, ?_⟩
  · rw [heval, hfold]
    exact hcp
  · rw [heval, hfold]
    exact hcr
  · rw [heval, hfold]
    exact hlast (passDepths_ne_nil _ _)
  · exact buildMoves_rapids _ opts

/-- First path of the C2 witness and counterexample: the single segment
`(1,1)-(2,1)`. -/
def pathC2a : LPath := ⟨[⟨⟨1, 1⟩, ⟨2, 1⟩⟩]⟩

/-- Second path of the C2 witness and counterexample: the single segment
`(2,1)-(3,1)`, starting exactly at the first path's end. -/
def pathC2b : LPath := ⟨[⟨⟨2, 1⟩, ⟨3, 1⟩⟩]⟩

lemma fuseC2 : samePt (lastPt pathC2a) (firstPt pathC2b) optsC8.chainTol := by
  have h1 : lastPt pathC2a = ⟨2, 1⟩ := rfl
  have h2 : firstPt pathC2b = ⟨2, 1⟩ := rfl
  rw [h1, h2]
  exact ⟨by norm_num [optsC8], by norm_num [optsC8]⟩

/-- C2 witness: the two touching unit segments fused under `optsC8`
(one pass to depth `-1`): the junction is within tolerance, the safe
height is positive, and the fused build has exactly one plunge and a
trailing retract. -/
theorem C2_tool_down_elision_witness :
    samePt (lastPt pathC2a) (firstPt pathC2b) optsC8.chainTol ∧
    (0 : ℚ) < optsC8.safeZ ∧
    countPlunge (NC.buildMoves [(⟨pathC2a.segments ++ pathC2b.segments⟩ : LPath)] optsC8)
      = (NC.passDepths optsC8.totalDepth optsC8.stepDown).length ∧
    (NC.buildMoves [(⟨pathC2a.segments ++ pathC2b.segments⟩ : LPath)] optsC8).getLast?
      = some (NC.Move.retract optsC8.safeZ) := by
  have h := C2_tool_down_elision pathC2a pathC2b optsC8 (by simp [pathC2a])
    (by simp [pathC2b]) fuseC2 (by norm_num [optsC8]) (by norm_num [optsC8])
  exact ⟨fuseC2, by norm_num [optsC8], h.2.1, h.2.2.2.1⟩

lemma movesC2_eval :
    NC.buildMoves (NC.mergeContinuousPaths [pathC2a, pathC2b] optsC8.chainTol) optsC8 =
    [NC.Move.rapidXY 1 1, NC.Move.plunge (-1) 20, NC.Move.feedXY 30,
     NC.Move.cutLine 2 1, NC.Move.cutLine 3 1, NC.Move.retract (1 / 2)] := by
  have hm : NC.mergeContinuousPaths [pathC2a, pathC2b] optsC8.chainTol =
      [(⟨[⟨⟨1, 1⟩, ⟨2, 1⟩⟩, ⟨⟨2, 1⟩, ⟨3, 1⟩⟩]⟩ : LPath)] := by
    simp only [NC.mergeContinuousPaths, NC.mergeLoop, if_pos fuseC2]
    rfl
  rw [hm]
  have hd : NC.passDepths (-1) 1 = [-1] := by
    have h : ⌈|(-1 : ℚ)| / 1⌉ = 1 := by norm_num
    simp only [NC.passDepths, h]
    norm_num [List.range_succ]
  have hsp : ¬ samePt (⟨0, 0⟩ : Pt) (⟨1, 1⟩ : Pt) (1 / 100) := by
    norm_num [samePt, abs_le]
  simp only [NC.buildMoves, optsC8, hd]
  norm_num [NC.retractM, NC.passMoves, NC.pathMoves, firstPt, hsp, samePt]
  norm_num [List.cons_ne_nil]

/-- C2 counterexample: in the concrete fused build the very first move is
the rapid reposition to `(1,1)` from the initial cursor `(0,0)` — far
beyond the chain tolerance — and no retract move occurs anywhere before
it, because the planner elides the initial retract (the cursor starts at
safe Z).  This refutes the claim's clause that a retract is emitted
before every rapid reposition whose target is not within chain tolerance
of the current position. -/
theorem C2_tool_down_elision_cex :
    ¬ retractPrecedesRapids optsC8.chainTol false ⟨0, 0⟩
        (NC.buildMoves (NC.mergeContinuousPaths [pathC2a, pathC2b] optsC8.chainTol) optsC8) := by
  rw [movesC2_eval]
  intro h
  have hns : ¬ samePt (⟨0, 0⟩ : Pt) (⟨1, 1⟩ : Pt) optsC8.chainTol := by
    norm_num [samePt, abs_le, optsC8]
  exact Bool.false_ne_true (h.1 hns)

end C2Elision

section C1Conserve

/-- Indices the exact chainer has not yet consumed.  Out-of-range lookups
default to `true` (= used): absent entries are never candidates. -/
def unusedIdx (n : Nat) (used : List Bool) : List Nat :=
  (List.range n).filter fun i => !used.getD i true

/-- Canonical forms of the still-unused segments of the exact chainer. -/
def unusedCanon (segs : List P0.Seg) (used : List Bool) : List P0.Seg :=
  (unusedIdx segs.length used).map fun i => P0.canon (P0.segAt segs i)

lemma ptLt_asymm {p q : Pt} (h : ptLt p q) : ¬ ptLt q p := by
  rcases h with h | ⟨he, h⟩
  · rintro (h2 | ⟨he2, h2⟩) <;> linarith
  · rintro (h2 | ⟨he2, h2⟩) <;> linarith

lemma ptLt_conn {p q : Pt} (h1 : ¬ ptLt p q) (h2 : ¬ ptLt q p) : p = q := by
  obtain ⟨px, py⟩ := p
  obtain ⟨qx, qy⟩ := q
  simp only [ptLt, not_or, not_and, not_lt] at h1 h2
  obtain ⟨h1x, h1y⟩ := h1
  obtain ⟨h2x, h2y⟩ := h2
  have hx : px = qx := le_antisymm h2x h1x
  have hy : py = qy := le_antisymm (h2y hx.symm) (h1y hx)
  rw [hx, hy]

lemma reverseSeg_sa (s : P0.Seg) : (P0.reverseSeg s).sa = s.sb := by
  cases s <;> rfl

lemma reverseSeg_sb (s : P0.Seg) : (P0.reverseSeg s).sb = s.sa := by
  cases s <;> rfl

/-- Reversal does not change the canonical form, so multisets of
canonical segments identify collections up to per-segment direction. -/
lemma canon_reverse (s : P0.Seg) : P0.canon (P0.reverseSeg s) = P0.canon s := by
  cases s with
  | line a b =>
    by_cases h1 : ptLt b a
    · have h2 : ¬ ptLt a b := ptLt_asymm h1
      simp [P0.canon, P0.reverseSeg, P0.Seg.sa, P0.Seg.sb, h1, h2]
    · by_cases h3 : ptLt a b
      · simp [P0.canon, P0.reverseSeg, P0.Seg.sa, P0.Seg.sb, h1, h3]
      · have hab : a = b := ptLt_conn h3 h1
        subst hab
        simp [P0.canon, P0.reverseSeg, P0.Seg.sa, P0.Seg.sb, h1]
  | arc a b c r ccw a1 a2 =>
    by_cases h1 : ptLt b a
    · have h2 : ¬ ptLt a b := ptLt_asymm h1
      simp [P0.canon, P0.reverseSeg, P0.Seg.sa, P0.Seg.sb, h1, h2]
    · by_cases h3 : ptLt a b
      · simp [P0.canon, P0.reverseSeg, P0.Seg.sa, P0.Seg.sb, h1, h3]
      · have hab : a = b := ptLt_conn h3 h1
        subst hab
        cases ccw <;>
          simp [P0.canon, P0.reverseSeg, P0.Seg.sa, P0.Seg.sb, h1]

lemma getD_set_self {l : List Bool} {i : Nat} (h : i < l.length) (b d : Bool) :
    (l.set i b).getD i d = b := by
  rw [List.getD_eq_getElem?_getD, List.getElem?_set]
  simp [h]

lemma getD_set_ne {l : List Bool} {i j : Nat} (h : i ≠ j) (b d : Bool) :
    (l.set i b).getD j d = l.getD j d := by
  rw [List.getD_eq_getElem?_getD, List.getElem?_set, if_neg h, ← List.getD_eq_getElem?_getD]

lemma lt_length_of_getD_false {l : List Bool} {i : Nat} (h : l.getD i true = false) :
    i < l.length := by
  by_contra hn
  rw [List.getD_eq_getElem?_getD, List.getElem?_eq_none (by omega)] at h
  simp at h

lemma getD_set_true_mono {used : List Bool} {i j : Nat} (h : used.getD j true = true) :
    (used.set i true).getD j true = true := by
  by_cases hji : i = j
  · subst hji
    by_cases hl : i < used.length
    · exact getD_set_self hl true true
    · rw [List.set_eq_of_length_le (by omega)]
      exact h
  · rw [getD_set_ne hji]
    exact h

/-- Flipping one list element from selected to unselected removes exactly
that element from a duplicate-free filter, up to permutation. -/
lemma filter_flip {l : List Nat} {p q : Nat → Bool} {i : Nat}
    (hnd : l.Nodup) (hi : i ∈ l) (hpi : p i = true) (hqi : q i = false)
    (hagree : ∀ j ∈ l, j ≠ i → p j = q j) :
    List.Perm (l.filter p) (i :: l.filter q) := by
  induction l with
  | nil => cases hi
  | cons a l ih =>
    rcases List.mem_cons.mp hi with rfl | hi2
    · have hnotin : i ∉ l := (List.nodup_cons.mp hnd).1
      have hfeq : l.filter p = l.filter q :=
        List.filter_congr fun j hj =>
          hagree j (List.mem_cons_of_mem _ hj) (fun h => hnotin (h ▸ hj))
      rw [List.filter_cons_of_pos hpi, List.filter_cons_of_neg (by simp [hqi]), hfeq]
    · have hne : a ≠ i := fun h => (List.nodup_cons.mp hnd).1 (h ▸ hi2)
      have hih := ih (List.nodup_cons.mp hnd).2 hi2
        (fun j hj hji => hagree j (List.mem_cons_of_mem _ hj) hji)
      have hpa : p a = q a := hagree a (List.mem_cons_self _ _) hne
      by_cases hqa : q a = true
      · rw [List.filter_cons_of_pos (hpa.trans hqa), List.filter_cons_of_pos hqa]
        exact (hih.cons a).trans (List.Perm.swap i a _)
      · have hqa2 : q a = false := Bool.eq_false_iff.mpr hqa
        rw [List.filter_cons_of_neg (by simp [hpa, hqa2]),
          List.filter_cons_of_neg (by simp [hqa2])]
        exact hih

lemma unusedIdx_set {n : Nat} {used : List Bool} {i : Nat}
    (hi : i < n) (hu : used.getD i true = false) :
    List.Perm (unusedIdx n used) (i :: unusedIdx n (used.set i true)) := by
  have hil : i < used.length := lt_length_of_getD_false hu
  refine filter_flip (List.nodup_range n) (List.mem_range.mpr hi) ?_ ?_ ?_
  · simp only [hu, Bool.not_false]
  · simp only [getD_set_self hil true true, Bool.not_true]
  · intro j _ hji
    simp only [getD_set_ne (fun h => hji h.symm)]

lemma unusedCanon_set {segs : List P0.Seg} {used : List Bool} {i : Nat}
    (hi : i < segs.length) (hu : used.getD i true = false) :
    List.Perm (unusedCanon segs used)
      (P0.canon (P0.segAt segs i) :: unusedCanon segs (used.set i true)) := by
  have h := (unusedIdx_set hi hu).map fun j => P0.canon (P0.segAt segs j)
  simpa [unusedCanon] using h

/-- What a successful forward lookup guarantees: an in-range unused index
whose segment, up to reversal, is returned, with its start point within
`tol` of the probe point. -/
lemma findNext_spec {segs : List P0.Seg} {tol : ℚ} {used : List Bool} {pt : Pt}
    {i : Nat} {s : P0.Seg} (h : P0.findNext segs tol used pt = some (i, s)) :
    i < segs.length ∧ used.getD i true = false ∧ P0.canon s = P0.canon (P0.segAt segs i) ∧
      dist2 s.sa pt ≤ tol ^ 2 := by
  rw [P0.findNext] at h
  split at h
  case _ j hj =>
    obtain ⟨rfl, rfl⟩ : j = i ∧ P0.segAt segs j = s := by
      injection h with h2
      exact ⟨congrArg Prod.fst h2, congrArg Prod.snd h2⟩
    have hp := List.find?_some hj
    have hm := List.mem_of_find?_eq_some hj
    simp only [Bool.and_eq_true, Bool.not_eq_true', decide_eq_true_eq] at hp
    exact ⟨List.mem_range.mp hm, hp.1.1, rfl, hp.2⟩
  case _ =>
    split at h
    case _ j hj =>
      obtain ⟨rfl, rfl⟩ : j = i ∧ P0.reverseSeg (P0.segAt segs j) = s := by
        injection h with h2
        exact ⟨congrArg Prod.fst h2, congrArg Prod.snd h2⟩
      have hp := List.find?_some hj
      have hm := List.mem_of_find?_eq_some hj
      simp only [Bool.and_eq_true, Bool.not_eq_true', decide_eq_true_eq] at hp
      refine ⟨List.mem_range.mp hm, hp.1.1, canon_reverse _, ?_⟩
      rw [reverseSeg_sa]
      exact hp.2
    case _ => cases h

/-- What a successful backward lookup guarantees (mirror image of the
forward one; the returned segment's end reaches the probe point). -/
lemma findPrev_spec {segs : List P0.Seg} {tol : ℚ} {used : List Bool} {pt : Pt}
    {i : Nat} {s : P0.Seg} (h : P0.findPrev segs tol used pt = some (i, s)) :
    i < segs.length ∧ used.getD i true = false ∧ P0.canon s = P0.canon (P0.segAt segs i) ∧
      dist2 s.sb pt ≤ tol ^ 2 := by
  rw [P0.findPrev] at h
  split at h
  case _ j hj =>
    obtain ⟨rfl, rfl⟩ : j = i ∧ P0.segAt segs j = s := by
      injection h with h2
      exact ⟨congrArg Prod.fst h2, congrArg Prod.snd h2⟩
    have hp := List.find?_some hj
    have hm := List.mem_of_find?_eq_some hj
    simp only [Bool.and_eq_true, Bool.not_eq_true', decide_eq_true_eq] at hp
    exact ⟨List.mem_range.mp hm, hp.1.1, rfl, hp.2⟩
  case _ =>
    split at h
    case _ j hj =>
      obtain ⟨rfl, rfl⟩ : j = i ∧ P0.reverseSeg (P0.segAt segs j) = s := by
        injection h with h2
        exact ⟨congrArg Prod.fst h2, congrArg Prod.snd h2⟩
      have hp := List.find?_some hj
      have hm := List.mem_of_find?_eq_some hj
      simp only [Bool.and_eq_true, Bool.not_eq_true', decide_eq_true_eq] at hp
      refine ⟨List.mem_range.mp hm, hp.1.1, canon_reverse _, ?_⟩
      rw [reverseSeg_sb]
      exact hp.2
    case _ => cases h

/-- The forward growth loop preserves the canonical multiset
`chain ∪ unused`, only marks segments used, only appends to the chain,
and keeps the marker list's length. -/
lemma forward_conserve (segs : List P0.Seg) (tol : ℚ) :
    ∀ (fuel : Nat) (used : List Bool) (chain : List P0.Seg) (pt : Pt),
      List.Perm
        ((P0.forward segs tol fuel used chain pt).2.map P0.canon ++
          unusedCanon segs (P0.forward segs tol fuel used chain pt).1)
        (chain.map P0.canon ++ unusedCanon segs used) ∧
      (∀ j, used.getD j true = true →
        (P0.forward segs tol fuel used chain pt).1.getD j true = true) ∧
      (∃ ext, (P0.forward segs tol fuel used chain pt).2 = chain ++ ext) ∧
      (P0.forward segs tol fuel used chain pt).1.length = used.length := by
  intro fuel
  induction fuel with
  | zero =>
    intro used chain pt
    exact ⟨List.Perm.refl _, fun j h => h, ⟨[], by simp [P0.forward]⟩, rfl⟩
  | succ fuel ih =>
    intro used chain pt
    rcases hf : P0.findNext segs tol used pt with _ | ⟨i, s⟩
    · have hstep : P0.forward segs tol (fuel + 1) used chain pt = (used, chain) := by
        simp only [P0.forward, hf]
      rw [hstep]
      exact ⟨List.Perm.refl _, fun j h => h, ⟨[], by simp⟩, rfl⟩
    · obtain ⟨hilt, hiu, hcanon, _⟩ := findNext_spec hf
      have hstep : P0.forward segs tol (fuel + 1) used chain pt
          = P0.forward segs tol fuel (used.set i true) (chain ++ [s]) s.sb := by
        simp only [P0.forward, hf]
      rw [hstep]
      obtain ⟨hperm, hmono, ⟨ext, hext⟩, hlen⟩ := ih (used.set i true) (chain ++ [s]) s.sb
      have h2 : List.Perm (P0.canon s :: unusedCanon segs (used.set i true))
          (unusedCanon segs used) := by
        rw [hcanon]
        exact (unusedCanon_set hilt hiu).symm
      refine ⟨?_, ?_, ⟨s :: ext, by rw [hext]; simp⟩, by rw [hlen, List.length_set]⟩
      · refine hperm.trans ?_
        have e1 : (chain ++ [s]).map P0.canon ++ unusedCanon segs (used.set i true)
            = chain.map P0.canon ++ (P0.canon s :: unusedCanon segs (used.set i true)) := by
          simp
        rw [e1]
        exact List.Perm.append_left _ h2
      · intro j hj
        exact hmono j (getD_set_true_mono hj)

/-- The backward growth loop: same conservation, prepending instead. -/
lemma backward_conserve (segs : List P0.Seg) (tol : ℚ) :
    ∀ (fuel : Nat) (used : List Bool) (chain : List P0.Seg) (pt : Pt),
      List.Perm
        ((P0.backward segs tol fuel used chain pt).2.map P0.canon ++
          unusedCanon segs (P0.backward segs tol fuel used chain pt).1)
        (chain.map P0.canon ++ unusedCanon segs used) ∧
      (∀ j, used.getD j true = true →
        (P0.backward segs tol fuel used chain pt).1.getD j true = true) ∧
      (∃ ext, (P0.backward segs tol fuel used chain pt).2 = ext ++ chain) ∧
      (P0.backward segs tol fuel used chain pt).1.length = used.length := by
  intro fuel
  induction fuel with
  | zero =>
    intro used chain pt
    exact ⟨List.Perm.refl _, fun j h => h, ⟨[], by simp [P0.backward]⟩, rfl⟩
  | succ fuel ih =>
    intro used chain pt
    rcases hf : P0.findPrev segs tol used pt with _ | ⟨i, s⟩
    · have hstep : P0.backward segs tol (fuel + 1) used chain pt = (used, chain) := by
        simp only [P0.backward, hf]
      rw [hstep]
      exact ⟨List.Perm.refl _, fun j h => h, ⟨[], by simp⟩, rfl⟩
    · obtain ⟨hilt, hiu, hcanon, _⟩ := findPrev_spec hf
      have hstep : P0.backward segs tol (fuel + 1) used chain pt
          = P0.backward segs tol fuel (used.set i true) (s :: chain) s.sa := by
        simp only [P0.backward, hf]
      rw [hstep]
      obtain ⟨hperm, hmono, ⟨ext, hext⟩, hlen⟩ := ih (used.set i true) (s :: chain) s.sa
      have h2 : List.Perm (P0.canon s :: unusedCanon segs (used.set i true))
          (unusedCanon segs used) := by
        rw [hcanon]
        exact (unusedCanon_set hilt hiu).symm
      refine ⟨?_, ?_, ⟨ext ++ [s], by rw [hext]; simp⟩, by rw [hlen, List.length_set]⟩
      · refine hperm.trans ?_
        have e1 : (s :: chain).map P0.canon ++ unusedCanon segs (used.set i true)
            = P0.canon s :: (chain.map P0.canon ++ unusedCanon segs (used.set i true)) := by
          simp
        rw [e1]
        exact (List.perm_middle.symm.trans (List.Perm.append_left _ h2))
      · intro j hj
        exact hmono j (getD_set_true_mono hj)

/-- The main chaining loop: if every still-unused index is scheduled,
the canonical multiset of the emitted paths' segments is exactly the
canonical multiset of the unused segments, and no emitted path is
empty. -/
lemma chainMain_conserve (segs : List P0.Seg) (tol : ℚ) :
    ∀ (idxs : List Nat) (used : List Bool),
      used.length = segs.length →
      (∀ i, i < segs.length → used.getD i true = false → i ∈ idxs) →
      List.Perm
        ((((P0.chainMain segs tol idxs used).map P0.Path.segments).flatten).map P0.canon)
        (unusedCanon segs used) ∧
      ∀ p ∈ P0.chainMain segs tol idxs used, p.segments ≠ [] := by
  intro idxs
  induction idxs with
  | nil =>
    intro used _ hcov
    have hidx : unusedIdx segs.length used = [] := by
      rw [List.eq_nil_iff_forall_not_mem]
      intro i hi
      simp only [unusedIdx, List.mem_filter, List.mem_range, Bool.not_eq_true'] at hi
      exact absurd (hcov i hi.1 hi.2) (List.not_mem_nil i)
    have hcanon : unusedCanon segs used = [] := by
      rw [unusedCanon, hidx]
      rfl
    rw [hcanon]
    exact ⟨by simp [P0.chainMain], by simp [P0.chainMain]⟩
  | cons i rest ih =>
    intro used hlen hcov
    by_cases hui : used.getD i true = true
    · have hstep : P0.chainMain segs tol (i :: rest) used
          = P0.chainMain segs tol rest used := by
        simp only [P0.chainMain, hui, if_true]
      rw [hstep]
      refine ih used hlen ?_
      intro j hj hju
      rcases List.mem_cons.mp (hcov j hj hju) with h | h
      · rw [h] at hju
        rw [hui] at hju
        cases hju
      · exact h
    · have hui2 : used.getD i true = false := Bool.eq_false_iff.mpr hui
      have hilt : i < segs.length := hlen ▸ lt_length_of_getD_false hui2
      rcases hF : P0.forward segs tol segs.length (used.set i true)
          [P0.segAt segs i] (P0.segAt segs i).sb with ⟨used2, chain2⟩
      rcases hB : P0.backward segs tol segs.length used2 chain2
          ((chain2.headD (P0.segAt segs i)).sa) with ⟨used3, chain3⟩
      have hstep : P0.chainMain segs tol (i :: rest) used
          = ⟨chain3⟩ :: P0.chainMain segs tol rest used3 := by
        simp only [P0.chainMain, hui2, Bool.false_eq_true, if_false, hF, hB]
      have F := forward_conserve segs tol segs.length (used.set i true)
        [P0.segAt segs i] (P0.segAt segs i).sb
      rw [hF] at F
      obtain ⟨hFperm, hFmono, ⟨ext2, hext2⟩, hFlen⟩ := F
      have B := backward_conserve segs tol segs.length used2 chain2
        ((chain2.headD (P0.segAt segs i)).sa)
      rw [hB] at B
      obtain ⟨hBperm, hBmono, ⟨ext3, hext3⟩, hBlen⟩ := B
      have hlen3 : used3.length = segs.length := by
        rw [hBlen, hFlen, List.length_set, hlen]
      have hcov3 : ∀ j, j < segs.length → used3.getD j true = false → j ∈ rest := by
        intro j hj hju3
        have hjuF : used.getD j true = false := by
          rcases Bool.eq_false_or_eq_true (used.getD j true) with h | h
          · have h1 := hBmono j (hFmono j (getD_set_true_mono h))
            rw [hju3] at h1
            cases h1
          · exact h
        have hji : j ≠ i := by
          intro hj2
          subst hj2
          have h1 := hBmono j (hFmono j (getD_set_self (lt_length_of_getD_false hjuF)
            true true))
          rw [hju3] at h1
          cases h1
        rcases List.mem_cons.mp (hcov j hj hjuF) with h | h
        · exact absurd h hji
        · exact h
      obtain ⟨hmainperm, hmainne⟩ := ih used3 hlen3 hcov3
      rw [hstep]
      constructor
      · have e1 : ((((⟨chain3⟩ : P0.Path) :: P0.chainMain segs tol rest used3).map
            P0.Path.segments).flatten).map P0.canon
            = chain3.map P0.canon ++
              ((((P0.chainMain segs tol rest used3).map P0.Path.segments).flatten).map
                P0.canon) := by
          simp
        rw [e1]
        have p1 : List.Perm
            (chain3.map P0.canon ++
              ((((P0.chainMain segs tol rest used3).map P0.Path.segments).flatten).map
                P0.canon))
            (chain3.map P0.canon ++ unusedCanon segs used3) :=
          List.Perm.append_left _ hmainperm
        have p2 : List.Perm (chain3.map P0.canon ++ unusedCanon segs used3)
            (chain2.map P0.canon ++ unusedCanon segs used2) := hBperm
        have p3 : List.Perm (chain2.map P0.canon ++ unusedCanon segs used2)
            ([P0.segAt segs i].map P0.canon ++ unusedCanon segs (used.set i true)) := hFperm
        have p4 : List.Perm
            ([P0.segAt segs i].map P0.canon ++ unusedCanon segs (used.set i true))
            (unusedCanon segs used) := by
          have h := (unusedCanon_set hilt hui2).symm
          simpa using h
        exact ((p1.trans p2).trans p3).trans p4
      · intro p hp
        rcases List.mem_cons.mp hp with rfl | hp2
        · show chain3 ≠ []
          have hext3a : chain3 = ext3 ++ chain2 := hext3
          have hext2a : chain2 = [P0.segAt segs i] ++ ext2 := hext2
          rw [hext3a, hext2a]
          simp
        · exact hmainne p hp2

/-- On the all-false marker list every segment is unused, in index
order. -/
lemma unusedCanon_replicate (segs : List P0.Seg) :
    unusedCanon segs (List.replicate segs.length false) = segs.map P0.canon := by
  have h1 : unusedIdx segs.length (List.replicate segs.length false)
      = List.range segs.length := by
    rw [unusedIdx, List.filter_eq_self]
    intro i hi
    rw [List.mem_range] at hi
    simp [List.getD_eq_getElem?_getD, List.getElem?_replicate, hi]
  rw [unusedCanon, h1]
  apply List.ext_getElem
  · simp
  · intro n h1 h2
    have hn : n < segs.length := by simpa using h2
    simp [P0.segAt, List.getD_eq_getElem?_getD, List.getElem?_eq_getElem hn,
      List.getElem_range]

/-- The index loop of the tracing chainer never emits an empty path (the
`merged.length` guard). -/
lemma buildLoop_ne_nil (L : List LSeg) (g tol : ℚ) (angTol : ℝ) :
    ∀ (idxs : List Nat) (used : List Bool),
      ∀ p ∈ App.buildLoop L g tol angTol idxs used, p.segments ≠ [] := by
  intro idxs
  induction idxs with
  | nil =>
    intro used p hp
    simp only [App.buildLoop, List.not_mem_nil] at hp
  | cons i rest ih =>
    intro used p hp
    by_cases hui : used.getD i true = true
    · rw [show App.buildLoop L g tol angTol (i :: rest) used
          = App.buildLoop L g tol angTol rest used by
        simp only [App.buildLoop, hui, if_true]] at hp
      exact ih used p hp
    · have hui2 : used.getD i true = false := Bool.eq_false_iff.mpr hui
      rcases hG : App.growChain L g tol angTol L.length (used.set i true)
          [App.lsegAt L i] (App.lsegAt L i) with ⟨used2, chain⟩
      by_cases hm : App.mergeCollinear chain g = []
      · rw [show App.buildLoop L g tol angTol (i :: rest) used
            = App.buildLoop L g tol angTol rest used2 by
          simp only [App.buildLoop, hui2, Bool.false_eq_true, if_false, hG, hm, if_true]] at hp
        exact ih used2 p hp
      · rw [show App.buildLoop L g tol angTol (i :: rest) used
            = ⟨App.mergeCollinear chain g⟩ :: App.buildLoop L g tol angTol rest used2 by
          simp only [App.buildLoop, hui2, Bool.false_eq_true, if_false, hG, hm, if_false]] at hp
        rcases List.mem_cons.mp hp with rfl | hp2
        · exact hm
        · exact ih used2 p hp2

/-- C1 (corrected): segment conservation of chaining.  The exact chainer
`chainSegmentsIntoPaths` of `part_000` conserves segments: the union of
all produced paths' segments, ignoring direction (canonical forms),
is a permutation of the input list's — every input segment appears in
exactly one output path exactly once, none duplicated, none lost — and
every produced path is nonempty.  The tracing chainer `buildPaths` of
`app.js` also never emits an empty path, but does NOT conserve segments
(see the counterexample: a short segment is snapped to a point and
dropped by the minimum-length filter). -/
theorem C1_segment_conservation (segs : List P0.Seg) (tol : ℚ)
    (lines : List LSeg) (opts : Opts) :
    List.Perm
      ((((P0.chainSegmentsIntoPaths segs tol).map P0.Path.segments).flatten).map P0.canon)
      (segs.map P0.canon) ∧
    (∀ p ∈ P0.chainSegmentsIntoPaths segs tol, p.segments ≠ []) ∧
    (∀ p ∈ App.buildPaths lines opts, p.segments ≠ []) := by
  have h := chainMain_conserve segs tol (List.range segs.length)
    (List.replicate segs.length false) (List.length_replicate _ _)
    (fun i hi _ => List.mem_range.mpr hi)
  rw [unusedCanon_replicate] at h
  refine ⟨h.1, h.2, ?_⟩
  intro p hp
  rw [App.buildPaths] at hp
  exact buildLoop_ne_nil _ _ _ _ _ _ p hp

/-- C1 counterexample: under `optsC8` (snap grid `1/50`, output precision
`1/100`) the single input segment `(0,0)-(1/250,0)` snaps to the
degenerate segment `(0,0)-(0,0)`, fails the minimum-length filter
`max(outPrec*0.8, snapGrid*0.5) = 1/100`, and `buildPaths` returns no
paths at all: the input segment is lost, refuting conservation for the
tracing chainer. -/
theorem C1_segment_conservation_cex :
    App.buildPaths [(⟨⟨0, 0⟩, ⟨1 / 250, 0⟩⟩ : LSeg)] optsC8 = [] ∧
    ¬ List.Perm
        ((((App.buildPaths [(⟨⟨0, 0⟩, ⟨1 / 250, 0⟩⟩ : LSeg)] optsC8).map
            LPath.segments).flatten).map canonL)
        ([(⟨⟨0, 0⟩, ⟨1 / 250, 0⟩⟩ : LSeg)].map canonL) := by
  have hsa : snapPoint (⟨0, 0⟩ : Pt) (1 / 50) = ⟨0, 0⟩ := by
    simp [snapPoint]
  have hsb : snapPoint (⟨1 / 250, 0⟩ : Pt) (1 / 50) = ⟨0, 0⟩ := by
    simp only [snapPoint]
    have h1 : round ((1 / 250 : ℚ) / (1 / 50)) = 0 := by
      rw [round_eq, Int.floor_eq_iff]
      constructor <;> norm_num
    have h2 : round ((0 : ℚ) / (1 / 50)) = 0 := by
      norm_num
    rw [h1, h2]
    norm_num
  have hdist : App.distQ (⟨0, 0⟩ : Pt) (⟨0, 0⟩ : Pt) = 0 := by
    simp [App.distQ]
  have hdec : decide (((max (optsC8.outPrec * (8 / 10)) (optsC8.snapGrid * (1 / 2)) : ℚ) : ℝ)
      ≤ App.distQ (⟨0, 0⟩ : Pt) (⟨0, 0⟩ : Pt)) = false := by
    rw [decide_eq_false_iff_not, hdist, not_le]
    have hmax : (max (optsC8.outPrec * (8 / 10)) (optsC8.snapGrid * (1 / 2)) : ℚ)
        = 1 / 100 := by
      norm_num [optsC8]
    rw [hmax]
    norm_num
  have heval : App.buildPaths [(⟨⟨0, 0⟩, ⟨1 / 250, 0⟩⟩ : LSeg)] optsC8 = [] := by
    rw [App.buildPaths]
    simp only [List.map_cons, List.map_nil]
    rw [show (⟨snapPoint (⟨⟨0, 0⟩, ⟨1 / 250, 0⟩⟩ : LSeg).a optsC8.snapGrid,
        snapPoint (⟨⟨0, 0⟩, ⟨1 / 250, 0⟩⟩ : LSeg).b optsC8.snapGrid⟩ : LSeg)
      = (⟨⟨0, 0⟩, ⟨0, 0⟩⟩ : LSeg) by
        show (⟨snapPoint ⟨0, 0⟩ optsC8.snapGrid, snapPoint ⟨1 / 250, 0⟩ optsC8.snapGrid⟩ : LSeg)
          = _
        rw [show optsC8.snapGrid = 1 / 50 from rfl, hsa, hsb]]
    rw [List.filter_cons_of_neg (by rw [hdec]; exact Bool.false_ne_true),
      List.filter_nil]
    rfl
  refine ⟨heval, ?_⟩
  rw [heval]
  intro h
  have := h.length_eq
  simp at this

end C1Conserve

section C4Contig

lemma dist2_comm (a b : Pt) : dist2 a b = dist2 b a := by
  simp only [dist2]
  ring

/-- The forward growth loop only appends segments reached within `tol`
of the running chain end, so it preserves junction contiguity. -/
lemma forward_chain (segs : List P0.Seg) (tol : ℚ) :
    ∀ (fuel : Nat) (used : List Bool) (chain : List P0.Seg) (pt : Pt),
      List.Chain' (fun s t => dist2 s.sb t.sa ≤ tol ^ 2) chain →
      (∀ c ∈ chain.getLast?, c.sb = pt) →
      List.Chain' (fun s t => dist2 s.sb t.sa ≤ tol ^ 2)
        (P0.forward segs tol fuel used chain pt).2 := by
  intro fuel
  induction fuel with
  | zero => intro used chain pt hc _; exact hc
  | succ fuel ih =>
    intro used chain pt hc hlast
    rcases hf : P0.findNext segs tol used pt with _ | ⟨i, s⟩
    · have hstep : P0.forward segs tol (fuel + 1) used chain pt = (used, chain) := by
        simp only [P0.forward, hf]
      rw [hstep]
      exact hc
    · have hstep : P0.forward segs tol (fuel + 1) used chain pt
          = P0.forward segs tol fuel (used.set i true) (chain ++ [s]) s.sb := by
        simp only [P0.forward, hf]
      rw [hstep]
      obtain ⟨_, _, _, hdist⟩ := findNext_spec hf
      refine ih (used.set i true) (chain ++ [s]) s.sb ?_ ?_
      · rw [List.chain'_append]
        refine ⟨hc, List.chain'_singleton s, ?_⟩
        intro x hx y hy
        rw [List.head?_cons, Option.mem_some_iff] at hy
        subst hy
        rw [hlast x hx, dist2_comm]
        exact hdist
      · intro c hc2
        rw [List.getLast?_concat, Option.mem_some_iff] at hc2
        subst hc2
        rfl

/-- The backward growth loop only prepends segments reaching within
`tol` of the running chain start, so it preserves contiguity. -/
lemma backward_chain (segs : List P0.Seg) (tol : ℚ) :
    ∀ (fuel : Nat) (used : List Bool) (chain : List P0.Seg) (pt : Pt),
      List.Chain' (fun s t => dist2 s.sb t.sa ≤ tol ^ 2) chain →
      (∀ c ∈ chain.head?, c.sa = pt) →
      List.Chain' (fun s t => dist2 s.sb t.sa ≤ tol ^ 2)
        (P0.backward segs tol fuel used chain pt).2 := by
  intro fuel
  induction fuel with
  | zero => intro used chain pt hc _; exact hc
  | succ fuel ih =>
    intro used chain pt hc hhead
    rcases hf : P0.findPrev segs tol used pt with _ | ⟨i, s⟩
    · have hstep : P0.backward segs tol (fuel + 1) used chain pt = (used, chain) := by
        simp only [P0.backward, hf]
      rw [hstep]
      exact hc
    · have hstep : P0.backward segs tol (fuel + 1) used chain pt
          = P0.backward segs tol fuel (used.set i true) (s :: chain) s.sa := by
        simp only [P0.backward, hf]
      rw [hstep]
      obtain ⟨_, _, _, hdist⟩ := findPrev_spec hf
      refine ih (used.set i true) (s :: chain) s.sa ?_ ?_
      · rw [List.chain'_cons']
        refine ⟨?_, hc⟩
        intro y hy
        rw [hhead y hy]
        exact hdist
      · intro c hc2
        rw [List.head?_cons, Option.mem_some_iff] at hc2
        subst hc2
        rfl

/-- Every path emitted by the main chaining loop is junction-contiguous
within `tol`. -/
lemma chainMain_chain (segs : List P0.Seg) (tol : ℚ) :
    ∀ (idxs : List Nat) (used : List Bool),
      ∀ p ∈ P0.chainMain segs tol idxs used,
        List.Chain' (fun s t => dist2 s.sb t.sa ≤ tol ^ 2) p.segments := by
  intro idxs
  induction idxs with
  | nil =>
    intro used p hp
    simp only [P0.chainMain, List.not_mem_nil] at hp
  | cons i rest ih =>
    intro used p hp
    by_cases hui : used.getD i true = true
    · rw [show P0.chainMain segs tol (i :: rest) used = P0.chainMain segs tol rest used by
        simp only [P0.chainMain, hui, if_true]] at hp
      exact ih used p hp
    · have hui2 : used.getD i true = false := Bool.eq_false_iff.mpr hui
      rcases hF : P0.forward segs tol segs.length (used.set i true)
          [P0.segAt segs i] (P0.segAt segs i).sb with ⟨used2, chain2⟩
      rcases hB : P0.backward segs tol segs.length used2 chain2
          ((chain2.headD (P0.segAt segs i)).sa) with ⟨used3, chain3⟩
      rw [show P0.chainMain segs tol (i :: rest) used
          = ⟨chain3⟩ :: P0.chainMain segs tol rest used3 by
        simp only [P0.chainMain, hui2, Bool.false_eq_true, if_false, hF, hB]] at hp
      rcases List.mem_cons.mp hp with rfl | hp2
      · show List.Chain' _ chain3
        have hc2 : List.Chain' (fun s t => dist2 s.sb t.sa ≤ tol ^ 2) chain2 := by
          have h := forward_chain segs tol segs.length (used.set i true)
            [P0.segAt segs i] (P0.segAt segs i).sb (List.chain'_singleton _)
            (by intro c hc
                rw [show ([P0.segAt segs i].getLast? : Option P0.Seg)
                    = some (P0.segAt segs i) from rfl, Option.mem_some_iff] at hc
                subst hc
                rfl)
          rw [hF] at h
          exact h
        have h := backward_chain segs tol segs.length used2 chain2
          ((chain2.headD (P0.segAt segs i)).sa) hc2
          (by intro c hc
              have : chain2.headD (P0.segAt segs i) = c := by
                rw [List.headD_eq_head?_getD]
                rw [Option.mem_def] at hc
                rw [hc]
                rfl
              rw [this])
        rw [hB] at h
        exact h
      · exact ih used3 p hp2

/-- A point lying on the snap grid: both coordinates are integer
multiples of `g`.  All points entering the tracing chainer are snapped,
hence on-grid. -/
def onGrid (g : ℚ) (p : Pt) : Prop := ∃ m k : ℤ, p.x = m * g ∧ p.y = k * g

lemma snapPoint_onGrid (p : Pt) (g : ℚ) : onGrid g (snapPoint p g) :=
  ⟨round (p.x / g), round (p.y / g), rfl, rfl⟩

lemma onGrid_zero (g : ℚ) : onGrid g ⟨0, 0⟩ :=
  ⟨0, 0, by simp, by simp⟩

/-- On a positive grid, two grid points within the chaining tolerance
`0.55·g` (Chebyshev) are equal: the coordinate gap is an integer
multiple of `g` not exceeding `0.55·g`. -/
lemma grid_samePt_eq {g : ℚ} (hg : 0 < g) {p q : Pt} (hp : onGrid g p) (hq : onGrid g q)
    (h : samePt p q (g * (55 / 100))) : p = q := by
  obtain ⟨m1, k1, hx1, hy1⟩ := hp
  obtain ⟨m2, k2, hx2, hy2⟩ := hq
  obtain ⟨hx, hy⟩ := h
  rw [hx1, hx2] at hx
  rw [hy1, hy2] at hy
  have key : ∀ a b : ℤ, |(a : ℚ) * g - (b : ℚ) * g| ≤ g * (55 / 100) → a = b := by
    intro a b hab
    have hsub : ((a : ℚ) * g - (b : ℚ) * g) = ((a - b : ℤ) : ℚ) * g := by
      push_cast
      ring
    rw [hsub, abs_mul, abs_of_pos hg, mul_comm g (55 / 100 : ℚ)] at hab
    have h2 := (mul_le_mul_right hg).mp hab
    have h3 : |((a - b : ℤ) : ℚ)| < 1 := lt_of_le_of_lt h2 (by norm_num)
    have h4 : |a - b| < 1 := by exact_mod_cast h3
    have h5 : a - b = 0 := Int.abs_lt_one_iff.mp h4
    omega
  have hm := key m1 m2 hx
  have hk := key k1 k2 hy
  obtain ⟨px, py⟩ := p
  obtain ⟨qx, qy⟩ := q
  simp only at hx1 hy1 hx2 hy2
  rw [hx1, hx2, hy1, hy2, hm, hk]

/-- Invariant of the best-candidate fold: any index it selects was a
candidate whose (snapped) start coincides with the chain end within the
tolerance. -/
lemma pickBest_fold_spec (L : List LSeg) (tol : ℚ) (angTol d0 : ℝ)
    (used : List Bool) (endPt : Pt) (P : Nat → Prop) :
    ∀ (cs : List Nat) (acc : Option Nat × WithTop ℝ),
      (∀ j, acc.1 = some j → P j) →
      (∀ idx ∈ cs, samePt endPt (App.lsegAt L idx).a tol → P idx) →
      ∀ j, (cs.foldl (fun (acc : Option Nat × WithTop ℝ) idx =>
          if used.getD idx true then acc
          else if ¬ samePt endPt (App.lsegAt L idx).a tol then acc
          else
            let d1 := App.angle (App.lsegAt L idx).a (App.lsegAt L idx).b
            let da := |App.normAng (d1 - d0)|
            if da ≤ angTol ∧ (da : WithTop ℝ) < acc.2 then (some idx, (da : WithTop ℝ))
            else acc) acc).1 = some j → P j := by
  intro cs
  induction cs with
  | nil => intro acc hacc _ j hj; exact hacc j hj
  | cons c cs ih =>
    intro acc hacc hcs j hj
    rw [List.foldl_cons] at hj
    refine ih _ ?_ (fun idx hidx hsp => hcs idx (List.mem_cons_of_mem _ hidx) hsp) j hj
    intro j2 hj2
    by_cases h1 : used.getD c true = true
    · rw [if_pos h1] at hj2
      exact hacc j2 hj2
    · rw [if_neg h1] at hj2
      by_cases h2 : samePt endPt (App.lsegAt L c).a tol
      · rw [if_neg (not_not_intro h2)] at hj2
        simp only [] at hj2
        split at hj2
        · have hc2 : c = j2 := by simpa using hj2
          subst hc2
          exact hcs c (List.mem_cons_self _ _) h2
        · exact hacc j2 hj2
      · rw [if_pos h2] at hj2
        exact hacc j2 hj2

lemma pickBest_spec {L : List LSeg} {tol : ℚ} {angTol d0 : ℝ} {used : List Bool}
    {endPt : Pt} {cand : List Nat} {best : Nat}
    (h : App.pickBest L tol angTol d0 used endPt cand = some best) :
    best ∈ cand ∧ samePt endPt (App.lsegAt L best).a tol := by
  rw [App.pickBest] at h
  exact pickBest_fold_spec L tol angTol d0 used endPt
    (fun j => j ∈ cand ∧ samePt endPt (App.lsegAt L j).a tol) cand (none, ⊤)
    (fun j hj => by cases hj) (fun idx hidx hsp => ⟨hidx, hsp⟩) best h

lemma lsegAt_onGrid {L : List LSeg} {g : ℚ}
    (HL : ∀ s ∈ L, onGrid g s.a ∧ onGrid g s.b) (i : Nat) :
    onGrid g (App.lsegAt L i).a ∧ onGrid g (App.lsegAt L i).b := by
  by_cases hi : i < L.length
  · rw [App.lsegAt, List.getD_eq_getElem _ _ hi]
    exact HL _ (List.getElem_mem hi)
  · rw [App.lsegAt, List.getD_eq_default _ _ (by omega)]
    exact ⟨onGrid_zero g, onGrid_zero g⟩

/-- The chain-growing loop of the tracing chainer produces exact
junctions: the appended candidate's start, a grid point within `0.55·g`
of the grid-point chain end, is equal to it. -/
lemma growChain_chain (L : List LSeg) (g : ℚ) (angTol : ℝ) (hg : 0 < g)
    (HL : ∀ s ∈ L, onGrid g s.a ∧ onGrid g s.b) :
    ∀ (fuel : Nat) (used : List Bool) (chain : List LSeg) (cur : LSeg),
      chain.getLast? = some cur → onGrid g cur.b →
      List.Chain' (fun s t => s.b = t.a) chain →
      List.Chain' (fun s t => s.b = t.a)
        (App.growChain L g (g * (55 / 100)) angTol fuel used chain cur).2 := by
  intro fuel
  induction fuel with
  | zero => intro used chain cur _ _ hc; exact hc
  | succ fuel ih =>
    intro used chain cur hlast hgrid hc
    rcases hpb : App.pickBest L (g * (55 / 100)) angTol (App.angle cur.a cur.b) used cur.b
        (App.candIdx L g cur.b) with _ | best
    · have hstep : App.growChain L g (g * (55 / 100)) angTol (fuel + 1) used chain cur
          = (used, chain) := by
        simp only [App.growChain, hpb]
      rw [hstep]
      exact hc
    · have hstep : App.growChain L g (g * (55 / 100)) angTol (fuel + 1) used chain cur
          = App.growChain L g (g * (55 / 100)) angTol fuel (used.set best true)
            (chain ++ [App.lsegAt L best]) (App.lsegAt L best) := by
        simp only [App.growChain, hpb]
      rw [hstep]
      obtain ⟨_, hsp⟩ := pickBest_spec hpb
      have heq : cur.b = (App.lsegAt L best).a :=
        grid_samePt_eq hg hgrid (lsegAt_onGrid HL best).1 hsp
      refine ih (used.set best true) (chain ++ [App.lsegAt L best]) (App.lsegAt L best)
        (List.getLast?_concat _) (lsegAt_onGrid HL best).2 ?_
      rw [List.chain'_append]
      refine ⟨hc, List.chain'_singleton _, ?_⟩
      intro x hx y hy
      rw [List.head?_cons, Option.mem_some_iff] at hy
      subst hy
      rw [hlast, Option.mem_some_iff] at hx
      subst hx
      exact heq

/-- The run-extension loop of `mergeCollinear` preserves exact junctions:
it returns the consumed run's endpoint together with an exactly-chained
suffix starting at that endpoint. -/
lemma mergeRun_exact (tol eps : ℚ) (a : Pt) :
    ∀ (rest : List LSeg) (b : Pt),
      List.Chain' (fun s t => s.b = t.a) rest →
      (∀ n ∈ rest.head?, b = n.a) →
      List.Chain' (fun s t => s.b = t.a) (App.mergeRun tol eps a b rest).2 ∧
      (∀ n ∈ (App.mergeRun tol eps a b rest).2.head?,
        (App.mergeRun tol eps a b rest).1 = n.a) := by
  intro rest
  induction rest with
  | nil =>
    intro b _ _
    refine ⟨List.chain'_nil, ?_⟩
    intro n hn
    simp [App.mergeRun] at hn
  | cons n rest ih =>
    intro b hc hb
    by_cases hcond : samePt b n.a tol ∧ collinearE a b n.b eps
    · have hstep : App.mergeRun tol eps a b (n :: rest) = App.mergeRun tol eps a n.b rest := by
        simp only [App.mergeRun, if_pos hcond]
      rw [hstep]
      exact ih n.b hc.tail (List.chain'_cons'.mp hc).1
    · have hstep : App.mergeRun tol eps a b (n :: rest) = (b, n :: rest) := by
        simp only [App.mergeRun, if_neg hcond]
      rw [hstep]
      refine ⟨hc, ?_⟩
      intro m hm
      rw [List.head?_cons, Option.mem_some_iff] at hm
      subst hm
      exact hb n rfl

lemma mergeCollinearF_nil (tol eps : ℚ) (fuel : Nat) :
    App.mergeCollinearF tol eps fuel [] = [] := by
  cases fuel <;> rfl

/-- The outer loop of `mergeCollinear` preserves exact junctions, and the
first emitted segment starts where the input chain starts. -/
lemma mergeCollinearF_exact (tol eps : ℚ) :
    ∀ (fuel : Nat) (chain : List LSeg),
      List.Chain' (fun s t => s.b = t.a) chain →
      List.Chain' (fun s t => s.b = t.a) (App.mergeCollinearF tol eps fuel chain) ∧
      (∀ m ∈ (App.mergeCollinearF tol eps fuel chain).head?,
        ∀ c ∈ chain.head?, m.a = c.a) := by
  intro fuel
  induction fuel with
  | zero =>
    intro chain _
    refine ⟨List.chain'_nil, ?_⟩
    intro m hm
    simp [App.mergeCollinearF] at hm
  | succ fuel ih =>
    intro chain hc
    cases chain with
    | nil =>
      refine ⟨List.chain'_nil, ?_⟩
      intro m hm
      simp [App.mergeCollinearF] at hm
    | cons s rest =>
      rcases hmr : App.mergeRun tol eps s.a s.b rest with ⟨b2, rest2⟩
      have hstep : App.mergeCollinearF tol eps (fuel + 1) (s :: rest)
          = ⟨s.a, b2⟩ :: App.mergeCollinearF tol eps fuel rest2 := by
        simp only [App.mergeCollinearF, hmr]
      have MR := mergeRun_exact tol eps s.a rest s.b hc.tail (List.chain'_cons'.mp hc).1
      rw [hmr] at MR
      obtain ⟨hmc, hmh⟩ := MR
      obtain ⟨hic, hih⟩ := ih rest2 hmc
      rw [hstep]
      constructor
      · rw [List.chain'_cons']
        refine ⟨?_, hic⟩
        intro y hy
        cases hr2 : rest2 with
        | nil =>
          rw [hr2, mergeCollinearF_nil] at hy
          cases hy
        | cons c r2 =>
          have hc2 : c ∈ rest2.head? := by rw [hr2, List.head?_cons]; rfl
          have h1 : y.a = c.a := hih y hy c (by rw [hr2, List.head?_cons]; rfl)
          have h2 : b2 = c.a := hmh c hc2
          show (⟨s.a, b2⟩ : LSeg).b = y.a
          rw [show (⟨s.a, b2⟩ : LSeg).b = b2 from rfl, h2, h1]
      · intro m hm c hcm
        rw [List.head?_cons, Option.mem_some_iff] at hm hcm
        subst hm
        subst hcm
        rfl

/-- The index loop of the tracing chainer: every emitted path has exact
junctions (each segment ends exactly where the next begins). -/
lemma buildLoop_contig (L : List LSeg) (g : ℚ) (angTol : ℝ) (hg : 0 < g)
    (HL : ∀ s ∈ L, onGrid g s.a ∧ onGrid g s.b) :
    ∀ (idxs : List Nat) (used : List Bool),
      ∀ p ∈ App.buildLoop L g (g * (55 / 100)) angTol idxs used,
        List.Chain' (fun s t => s.b = t.a) p.segments := by
  intro idxs
  induction idxs with
  | nil => intro used p hp; simp only [App.buildLoop, List.not_mem_nil] at hp
  | cons i rest ih =>
    intro used p hp
    by_cases hui : used.getD i true = true
    · rw [show App.buildLoop L g (g * (55 / 100)) angTol (i :: rest) used
          = App.buildLoop L g (g * (55 / 100)) angTol rest used by
        simp only [App.buildLoop, hui, if_true]] at hp
      exact ih used p hp
    · have hui2 : used.getD i true = false := Bool.eq_false_iff.mpr hui
      rcases hG : App.growChain L g (g * (55 / 100)) angTol L.length (used.set i true)
          [App.lsegAt L i] (App.lsegAt L i) with ⟨used2, chain⟩
      have hchain : List.Chain' (fun s t => s.b = t.a) chain := by
        have h := growChain_chain L g angTol hg HL L.length (used.set i true)
          [App.lsegAt L i] (App.lsegAt L i) rfl (lsegAt_onGrid HL i).2
          (List.chain'_singleton _)
        rw [hG] at h
        exact h
      by_cases hm : App.mergeCollinear chain g = []
      · rw [show App.buildLoop L g (g * (55 / 100)) angTol (i :: rest) used
            = App.buildLoop L g (g * (55 / 100)) angTol rest used2 by
          simp only [App.buildLoop, hui2, Bool.false_eq_true, if_false, hG, hm, if_true]] at hp
        exact ih used2 p hp
      · rw [show App.buildLoop L g (g * (55 / 100)) angTol (i :: rest) used
            = ⟨App.mergeCollinear chain g⟩ :: App.buildLoop L g (g * (55 / 100)) angTol rest used2 by
          simp only [App.buildLoop, hui2, Bool.false_eq_true, if_false, hG, hm, if_false]] at hp
        rcases List.mem_cons.mp hp with rfl | hp2
        · show List.Chain' _ (App.mergeCollinear chain g)
          rw [App.mergeCollinear]
          exact (mergeCollinearF_exact g (max (1 / 10 ^ 12) (g * g)) chain.length chain
            hchain).1
        · exact ih used2 p hp2

/-- C4: chain contiguity.  In every path of the exact chainer,
consecutive segments' junction distance is within the chaining tolerance
(squared distance at most `tol²`, as the source compares
`Math.hypot ≤ tol`); in every path of the tracing chainer (`buildPaths`
with positive snap grid), junctions are exactly equal — the snapped
candidate start within `0.55·snapGrid` of the snapped chain end must
coincide with it, and `mergeCollinear` preserves exact junctions — which
is within any nonnegative tolerance. -/
theorem C4_chain_contiguity (segs : List P0.Seg) (tol : ℚ)
    (lines : List LSeg) (opts : Opts) (hg : 0 < opts.snapGrid) :
    (∀ p ∈ P0.chainSegmentsIntoPaths segs tol,
      List.Chain' (fun s t => dist2 s.sb t.sa ≤ tol ^ 2) p.segments) ∧
    (∀ p ∈ App.buildPaths lines opts,
      List.Chain' (fun s t => s.b = t.a) p.segments) := by
  constructor
  · intro p hp
    rw [P0.chainSegmentsIntoPaths] at hp
    exact chainMain_chain segs tol _ _ p hp
  · intro p hp
    simp only [App.buildPaths] at hp
    refine buildLoop_contig _ opts.snapGrid _ hg ?_ _ _ p hp
    intro s hs
    simp only [List.mem_filter, List.mem_map] at hs
    obtain ⟨⟨s0, _, rfl⟩, _⟩ := hs
    exact ⟨snapPoint_onGrid _ _, snapPoint_onGrid _ _⟩

/-- C4 witness: a one-segment input for each chainer under `optsC8`
(snap grid `1/50 > 0`); both produced path sets are junction-contiguous. -/
theorem C4_chain_contiguity_witness :
    0 < optsC8.snapGrid ∧
    (∀ p ∈ P0.chainSegmentsIntoPaths [P0.Seg.line ⟨0, 0⟩ ⟨1, 0⟩] (1 / 100),
      List.Chain' (fun s t => dist2 s.sb t.sa ≤ (1 / 100) ^ 2) p.segments) ∧
    (∀ p ∈ App.buildPaths [(⟨⟨0, 0⟩, ⟨1, 0⟩⟩ : LSeg)] optsC8,
      List.Chain' (fun s t => s.b = t.a) p.segments) := by
  have h := C4_chain_contiguity [P0.Seg.line ⟨0, 0⟩ ⟨1, 0⟩] (1 / 100)
    [(⟨⟨0, 0⟩, ⟨1, 0⟩⟩ : LSeg)] optsC8 (by norm_num [optsC8])
  exact ⟨by norm_num [optsC8], h.1, h.2⟩

end C4Contig

section C3Bulge

open scoped Classical

/-- Core circle algebra of the bulge conversion: offsetting the chord
midpoint by `h` along the unit left normal puts the center at distance
`√(chord²/4 + h²) = r` from both endpoints (the cross terms cancel). -/
lemma arc_center_dist (px py qx qy s h r chord : ℝ)
    (hchord : chord = Real.sqrt ((qx - px) ^ 2 + (qy - py) ^ 2))
    (hcpos : 0 < chord)
    (hs : s ^ 2 = 1)
    (hh : h ^ 2 = r ^ 2 - chord ^ 2 / 4)
    (hr : 0 ≤ r) :
    Real.sqrt (((px + qx) / 2 + s * h * (-((qy - py) / chord)) - px) ^ 2
      + ((py + qy) / 2 + s * h * ((qx - px) / chord) - py) ^ 2) = r ∧
    Real.sqrt (((px + qx) / 2 + s * h * (-((qy - py) / chord)) - qx) ^ 2
      + ((py + qy) / 2 + s * h * ((qx - px) / chord) - qy) ^ 2) = r := by
  have hcne : chord ≠ 0 := ne_of_gt hcpos
  have hchord2 : chord ^ 2 = (qx - px) ^ 2 + (qy - py) ^ 2 := by
    rw [hchord]
    exact Real.sq_sqrt (by positivity)
  have e1 : ((px + qx) / 2 + s * h * (-((qy - py) / chord)) - px) ^ 2
      + ((py + qy) / 2 + s * h * ((qx - px) / chord) - py) ^ 2
      = ((qx - px) ^ 2 + (qy - py) ^ 2) / 4
        + s ^ 2 * h ^ 2 * (((qx - px) ^ 2 + (qy - py) ^ 2) / chord ^ 2) := by
    field_simp
    ring
  have e2 : ((px + qx) / 2 + s * h * (-((qy - py) / chord)) - qx) ^ 2
      + ((py + qy) / 2 + s * h * ((qx - px) / chord) - qy) ^ 2
      = ((qx - px) ^ 2 + (qy - py) ^ 2) / 4
        + s ^ 2 * h ^ 2 * (((qx - px) ^ 2 + (qy - py) ^ 2) / chord ^ 2) := by
    field_simp
    ring
  have e3 : ((qx - px) ^ 2 + (qy - py) ^ 2) / 4
      + s ^ 2 * h ^ 2 * (((qx - px) ^ 2 + (qy - py) ^ 2) / chord ^ 2) = r ^ 2 := by
    rw [← hchord2, hs, hh, div_self (pow_ne_zero 2 hcne)]
    ring
  rw [e1, e2, e3]
  exact ⟨Real.sqrt_sq hr, Real.sqrt_sq hr⟩

/-- C3: bulge-to-arc conversion.  For endpoints at chord length at least
`1e-12` and nonzero bulge, the result is an arc with radius
`chord/(2·sin(|4·atan β|/2))`, direction flag `decide (0 < 4·atan β)`,
endpoint angles by `atan2` about the computed center, and that center
lies EXACTLY at distance `r` from both endpoints (residual `0`, well
below the claimed `1e-9`).  Below the chord epsilon the result is the
degenerate line segment. -/
theorem C3_bulge_roundtrip (p q : PtR) (bulge : ℝ)
    (hchord : 1 / 10 ^ 12 ≤ R.distR p q) (hb : bulge ≠ 0) :
    (∃ cx cy,
      R.bulgeToArcSeg p q bulge
        = R.SegR.arc p q ⟨cx, cy⟩
            (R.distR p q / (2 * Real.sin (|4 * Real.arctan bulge| / 2)))
            (decide (0 < 4 * Real.arctan bulge))
            (atan2 (p.y - cy) (p.x - cx)) (atan2 (q.y - cy) (q.x - cx)) ∧
      R.distR ⟨cx, cy⟩ p
        = R.distR p q / (2 * Real.sin (|4 * Real.arctan bulge| / 2)) ∧
      R.distR ⟨cx, cy⟩ q
        = R.distR p q / (2 * Real.sin (|4 * Real.arctan bulge| / 2))) ∧
    (∀ p2 q2 : PtR, ∀ b2 : ℝ, R.distR p2 q2 < 1 / 10 ^ 12 →
      R.bulgeToArcSeg p2 q2 b2 = R.SegR.line p2 q2) := by
  constructor
  · have hdeq : Real.sqrt ((q.x - p.x) ^ 2 + (q.y - p.y) ^ 2) = R.distR p q := by
      rw [R.distR]
      congr 1
      ring
    have hdpos : (0 : ℝ) < R.distR p q :=
      lt_of_lt_of_le (by norm_num) hchord
    have hnlt : ¬ (Real.sqrt ((q.x - p.x) ^ 2 + (q.y - p.y) ^ 2) < 1 / 10 ^ 12) := by
      rw [hdeq]
      exact not_lt.mpr hchord
    have hane : Real.arctan bulge ≠ 0 := by
      rw [ne_eq, Real.arctan_eq_zero_iff]
      exact hb
    have hu1 : 0 < |4 * Real.arctan bulge| / 2 := by
      have : (4 : ℝ) * Real.arctan bulge ≠ 0 := mul_ne_zero (by norm_num) hane
      positivity
    have hu2 : |4 * Real.arctan bulge| / 2 < Real.pi := by
      have ha : |Real.arctan bulge| < Real.pi / 2 :=
        abs_lt.mpr ⟨Real.neg_pi_div_two_lt_arctan bulge, Real.arctan_lt_pi_div_two bulge⟩
      rw [abs_mul]
      rw [show |(4 : ℝ)| = 4 by norm_num]
      linarith
    have hsin : 0 < Real.sin (|4 * Real.arctan bulge| / 2) :=
      Real.sin_pos_of_pos_of_lt_pi hu1 hu2
    have hrpos : 0 < R.distR p q / (2 * Real.sin (|4 * Real.arctan bulge| / 2)) :=
      div_pos hdpos (by positivity)
    have hr2 : (R.distR p q) ^ 2 / 4
        ≤ (R.distR p q / (2 * Real.sin (|4 * Real.arctan bulge| / 2))) ^ 2 := by
      rw [div_pow, div_le_div_iff (by norm_num) (by positivity)]
      have hs1 : Real.sin (|4 * Real.arctan bulge| / 2) ≤ 1 := Real.sin_le_one _
      have hs2 : Real.sin (|4 * Real.arctan bulge| / 2) ^ 2 ≤ 1 := by
        nlinarith
      nlinarith [sq_nonneg (R.distR p q)]
    have hh2 : (Real.sqrt (max 0
        ((R.distR p q / (2 * Real.sin (|4 * Real.arctan bulge| / 2))) ^ 2
          - (R.distR p q) ^ 2 / 4))) ^ 2
        = (R.distR p q / (2 * Real.sin (|4 * Real.arctan bulge| / 2))) ^ 2
          - (R.distR p q) ^ 2 / 4 := by
      rw [Real.sq_sqrt (le_max_left _ _), max_eq_right (sub_nonneg.mpr hr2)]
    have hseq : ((if decide (0 < 4 * Real.arctan bulge) = true then (1 : ℝ) else -1)) ^ 2
        = 1 := by
      split <;> norm_num
    have heval : R.bulgeToArcSeg p q bulge
        = R.SegR.arc p q
            ⟨(p.x + q.x) / 2
              + (if decide (0 < 4 * Real.arctan bulge) = true then (1 : ℝ) else -1)
                * Real.sqrt (max 0
                  ((Real.sqrt ((q.x - p.x) ^ 2 + (q.y - p.y) ^ 2)
                      / (2 * Real.sin (|4 * Real.arctan bulge| / 2))) ^ 2
                    - (Real.sqrt ((q.x - p.x) ^ 2 + (q.y - p.y) ^ 2)) ^ 2 / 4))
                * (-((q.y - p.y) / Real.sqrt ((q.x - p.x) ^ 2 + (q.y - p.y) ^ 2))),
             (p.y + q.y) / 2
              + (if decide (0 < 4 * Real.arctan bulge) = true then (1 : ℝ) else -1)
                * Real.sqrt (max 0
                  ((Real.sqrt ((q.x - p.x) ^ 2 + (q.y - p.y) ^ 2)
                      / (2 * Real.sin (|4 * Real.arctan bulge| / 2))) ^ 2
                    - (Real.sqrt ((q.x - p.x) ^ 2 + (q.y - p.y) ^ 2)) ^ 2 / 4))
                * ((q.x - p.x) / Real.sqrt ((q.x - p.x) ^ 2 + (q.y - p.y) ^ 2))⟩
            (Real.sqrt ((q.x - p.x) ^ 2 + (q.y - p.y) ^ 2)
              / (2 * Real.sin (|4 * Real.arctan bulge| / 2)))
            (decide (0 < 4 * Real.arctan bulge))
            (atan2 (p.y - ((p.y + q.y) / 2
              + (if decide (0 < 4 * Real.arctan bulge) = true then (1 : ℝ) else -1)
                * Real.sqrt (max 0
                  ((Real.sqrt ((q.x - p.x) ^ 2 + (q.y - p.y) ^ 2)
                      / (2 * Real.sin (|4 * Real.arctan bulge| / 2))) ^ 2
                    - (Real.sqrt ((q.x - p.x) ^ 2 + (q.y - p.y) ^ 2)) ^ 2 / 4))
                * ((q.x - p.x) / Real.sqrt ((q.x - p.x) ^ 2 + (q.y - p.y) ^ 2))))
              (p.x - ((p.x + q.x) / 2
              + (if decide (0 < 4 * Real.arctan bulge) = true then (1 : ℝ) else -1)
                * Real.sqrt (max 0
                  ((Real.sqrt ((q.x - p.x) ^ 2 + (q.y - p.y) ^ 2)
                      / (2 * Real.sin (|4 * Real.arctan bulge| / 2))) ^ 2
                    - (Real.sqrt ((q.x - p.x) ^ 2 + (q.y - p.y) ^ 2)) ^ 2 / 4))
                * (-((q.y - p.y) / Real.sqrt ((q.x - p.x) ^ 2 + (q.y - p.y) ^ 2))))))
            (atan2 (q.y - ((p.y + q.y) / 2
              + (if decide (0 < 4 * Real.arctan bulge) = true then (1 : ℝ) else -1)
                * Real.sqrt (max 0
                  ((Real.sqrt ((q.x - p.x) ^ 2 + (q.y - p.y) ^ 2)
                      / (2 * Real.sin (|4 * Real.arctan bulge| / 2))) ^ 2
                    - (Real.sqrt ((q.x - p.x) ^ 2 + (q.y - p.y) ^ 2)) ^ 2 / 4))
                * ((q.x - p.x) / Real.sqrt ((q.x - p.x) ^ 2 + (q.y - p.y) ^ 2))))
              (q.x - ((p.x + q.x) / 2
              + (if decide (0 < 4 * Real.arctan bulge) = true then (1 : ℝ) else -1)
                * Real.sqrt (max 0
                  ((Real.sqrt ((q.x - p.x) ^ 2 + (q.y - p.y) ^ 2)
                      / (2 * Real.sin (|4 * Real.arctan bulge| / 2))) ^ 2
                    - (Real.sqrt ((q.x - p.x) ^ 2 + (q.y - p.y) ^ 2)) ^ 2 / 4))
                * (-((q.y - p.y) / Real.sqrt ((q.x - p.x) ^ 2 + (q.y - p.y) ^ 2)))))) := by
      simp only [R.bulgeToArcSeg]
      rw [if_neg hnlt]
    rw [hdeq] at heval
    refine ⟨_, _, heval, ?_, ?_⟩
    · have h := (arc_center_dist p.x p.y q.x q.y
        (if decide (0 < 4 * Real.arctan bulge) = true then (1 : ℝ) else -1)
        (Real.sqrt (max 0
          ((R.distR p q / (2 * Real.sin (|4 * Real.arctan bulge| / 2))) ^ 2
            - (R.distR p q) ^ 2 / 4)))
        (R.distR p q / (2 * Real.sin (|4 * Real.arctan bulge| / 2)))
        (R.distR p q) hdeq.symm hdpos hseq hh2 hrpos.le).1
      rw [R.distR]
      exact h
    · have h := (arc_center_dist p.x p.y q.x q.y
        (if decide (0 < 4 * Real.arctan bulge) = true then (1 : ℝ) else -1)
        (Real.sqrt (max 0
          ((R.distR p q / (2 * Real.sin (|4 * Real.arctan bulge| / 2))) ^ 2
            - (R.distR p q) ^ 2 / 4)))
        (R.distR p q / (2 * Real.sin (|4 * Real.arctan bulge| / 2)))
        (R.distR p q) hdeq.symm hdpos hseq hh2 hrpos.le).2
      rw [R.distR]
      exact h
  · intro p2 q2 b2 hlt
    have hdeq2 : Real.sqrt ((q2.x - p2.x) ^ 2 + (q2.y - p2.y) ^ 2) = R.distR p2 q2 := by
      rw [R.distR]
      congr 1
      ring
    have hlt2 : Real.sqrt ((q2.x - p2.x) ^ 2 + (q2.y - p2.y) ^ 2) < 1 / 10 ^ 12 := by
      rw [hdeq2]
      exact hlt
    simp only [R.bulgeToArcSeg]
    rw [if_pos hlt2]

/-- C3 witness: the half-circle bulge `β = 1` on the chord `(0,0)-(2,0)`
(length `2`): the hypotheses hold and the arc's center is equidistant
from both endpoints. -/
theorem C3_bulge_roundtrip_witness :
    ((1 / 10 ^ 12 : ℝ) ≤ R.distR ⟨0, 0⟩ ⟨2, 0⟩ ∧ ((1 : ℝ) ≠ 0)) ∧
    (∃ cx cy,
      R.bulgeToArcSeg ⟨0, 0⟩ ⟨2, 0⟩ 1
        = R.SegR.arc ⟨0, 0⟩ ⟨2, 0⟩ ⟨cx, cy⟩
            (R.distR ⟨0, 0⟩ ⟨2, 0⟩ / (2 * Real.sin (|4 * Real.arctan 1| / 2)))
            (decide (0 < 4 * Real.arctan 1))
            (atan2 ((PtR.mk 0 0).y - cy) ((PtR.mk 0 0).x - cx))
            (atan2 ((PtR.mk 2 0).y - cy) ((PtR.mk 2 0).x - cx)) ∧
      R.distR ⟨cx, cy⟩ ⟨0, 0⟩
        = R.distR ⟨0, 0⟩ ⟨2, 0⟩ / (2 * Real.sin (|4 * Real.arctan 1| / 2)) ∧
      R.distR ⟨cx, cy⟩ ⟨2, 0⟩
        = R.distR ⟨0, 0⟩ ⟨2, 0⟩ / (2 * Real.sin (|4 * Real.arctan 1| / 2))) := by
  have hc : (1 / 10 ^ 12 : ℝ) ≤ R.distR ⟨0, 0⟩ ⟨2, 0⟩ := by
    rw [R.distR]
    have he : ((PtR.mk 0 0).x - (PtR.mk 2 0).x) ^ 2
        + ((PtR.mk 0 0).y - (PtR.mk 2 0).y) ^ 2 = 2 ^ 2 := by
      norm_num
    rw [he, Real.sqrt_sq (by norm_num)]
    norm_num
  have hb : (1 : ℝ) ≠ 0 := by norm_num
  exact ⟨⟨hc, hb⟩, (C3_bulge_roundtrip ⟨0, 0⟩ ⟨2, 0⟩ 1 hc hb).1⟩

end C3Bulge

section C5Playback

open scoped Classical

lemma PtR_ext {a b : PtR} (hx : a.x = b.x) (hy : a.y = b.y) : a = b := by
  cases a
  cases b
  simp only at hx hy
  rw [hx, hy]

/-- Structure of the playback list built by `playLoop`: junctions chain
(each segment starts where the previous one ends), cumulative lengths
accumulate nonnegative `Math.hypot` lengths, a zero length forces equal
endpoints, and the head starts at the cursor with `cum = c + len`. -/
lemma playLoop_struct :
    ∀ (ms : List NC.Move) (cur : PtR) (c : ℝ),
      List.Chain' (fun s t => s.b = t.a ∧ t.cum = s.cum + t.len ∧ 0 ≤ t.len)
        (NC.playLoop cur c ms) ∧
      (∀ s ∈ NC.playLoop cur c ms, 0 ≤ s.len ∧ (s.len = 0 → s.a = s.b) ∧ c ≤ s.cum) ∧
      (∀ h2 ∈ (NC.playLoop cur c ms).head?, h2.a = cur ∧ h2.cum = c + h2.len) := by
  intro ms
  induction ms with
  | nil =>
    intro cur c
    refine ⟨List.chain'_nil, ?_, ?_⟩ <;> · intro s hs; simp [NC.playLoop] at hs
  | cons m ms ih =>
    intro cur c
    cases m with
    | retract z =>
      have hstep : NC.playLoop cur c (NC.Move.retract z :: ms) = NC.playLoop cur c ms := by
        simp only [NC.playLoop]
      rw [hstep]
      exact ih cur c
    | plunge z f =>
      have hstep : NC.playLoop cur c (NC.Move.plunge z f :: ms) = NC.playLoop cur c ms := by
        simp only [NC.playLoop]
      rw [hstep]
      exact ih cur c
    | feedXY f =>
      have hstep : NC.playLoop cur c (NC.Move.feedXY f :: ms) = NC.playLoop cur c ms := by
        simp only [NC.playLoop]
      rw [hstep]
      exact ih cur c
    | rapidXY x y =>
      have hstep : NC.playLoop cur c (NC.Move.rapidXY x y :: ms)
          = ⟨cur, ⟨((x : ℚ) : ℝ), ((y : ℚ) : ℝ)⟩, .RAPID,
              Real.sqrt ((((x : ℚ) : ℝ) - cur.x) ^ 2 + (((y : ℚ) : ℝ) - cur.y) ^ 2),
              c + Real.sqrt ((((x : ℚ) : ℝ) - cur.x) ^ 2 + (((y : ℚ) : ℝ) - cur.y) ^ 2)⟩
            :: NC.playLoop ⟨((x : ℚ) : ℝ), ((y : ℚ) : ℝ)⟩
              (c + Real.sqrt ((((x : ℚ) : ℝ) - cur.x) ^ 2 + (((y : ℚ) : ℝ) - cur.y) ^ 2))
              ms := by
        simp only [NC.playLoop]
      rw [hstep]
      obtain ⟨ichain, imem, ihead⟩ := ih ⟨((x : ℚ) : ℝ), ((y : ℚ) : ℝ)⟩
        (c + Real.sqrt ((((x : ℚ) : ℝ) - cur.x) ^ 2 + (((y : ℚ) : ℝ) - cur.y) ^ 2))
      refine ⟨?_, ?_, ?_⟩
      · rw [List.chain'_cons']
        refine ⟨?_, ichain⟩
        intro yh hy
        obtain ⟨ha, hcum⟩ := ihead yh hy
        have hlen := (imem yh (List.mem_of_mem_head? hy)).1
        refine ⟨?_, hcum, hlen⟩
        rw [ha]
      · intro s hs
        rcases List.mem_cons.mp hs with rfl | hs2
        · refine ⟨Real.sqrt_nonneg _, ?_, le_add_of_nonneg_right (Real.sqrt_nonneg _)⟩
          intro h0
          have hz : (((x : ℚ) : ℝ) - cur.x) ^ 2 + (((y : ℚ) : ℝ) - cur.y) ^ 2 ≤ 0 :=
            Real.sqrt_eq_zero'.mp h0
          have hx0 : (((x : ℚ) : ℝ) - cur.x) ^ 2 = 0 := by
            nlinarith [sq_nonneg (((x : ℚ) : ℝ) - cur.x), sq_nonneg (((y : ℚ) : ℝ) - cur.y)]
          have hy0 : (((y : ℚ) : ℝ) - cur.y) ^ 2 = 0 := by
            nlinarith [sq_nonneg (((x : ℚ) : ℝ) - cur.x), sq_nonneg (((y : ℚ) : ℝ) - cur.y)]
          refine PtR_ext ?_ ?_
          · have := (pow_eq_zero_iff (two_ne_zero)).mp hx0
            show cur.x = ((x : ℚ) : ℝ)
            linarith [sub_eq_zero.mp this]
          · have := (pow_eq_zero_iff (two_ne_zero)).mp hy0
            show cur.y = ((y : ℚ) : ℝ)
            linarith [sub_eq_zero.mp this]
        · obtain ⟨l1, l2, l3⟩ := imem s hs2
          exact ⟨l1, l2, le_trans (le_add_of_nonneg_right (Real.sqrt_nonneg _)) l3⟩
      · intro h2 hh
        rw [List.head?_cons, Option.mem_some_iff] at hh
        subst hh
        exact ⟨rfl, rfl⟩
    | cutLine x y =>
      have hstep : NC.playLoop cur c (NC.Move.cutLine x y :: ms)
          = ⟨cur, ⟨((x : ℚ) : ℝ), ((y : ℚ) : ℝ)⟩, .CUT,
              Real.sqrt ((((x : ℚ) : ℝ) - cur.x) ^ 2 + (((y : ℚ) : ℝ) - cur.y) ^ 2),
              c + Real.sqrt ((((x : ℚ) : ℝ) - cur.x) ^ 2 + (((y : ℚ) : ℝ) - cur.y) ^ 2)⟩
            :: NC.playLoop ⟨((x : ℚ) : ℝ), ((y : ℚ) : ℝ)⟩
              (c + Real.sqrt ((((x : ℚ) : ℝ) - cur.x) ^ 2 + (((y : ℚ) : ℝ) - cur.y) ^ 2))
              ms := by
        simp only [NC.playLoop]
      rw [hstep]
      obtain ⟨ichain, imem, ihead⟩ := ih ⟨((x : ℚ) : ℝ), ((y : ℚ) : ℝ)⟩
        (c + Real.sqrt ((((x : ℚ) : ℝ) - cur.x) ^ 2 + (((y : ℚ) : ℝ) - cur.y) ^ 2))
      refine ⟨?_, ?_, ?_⟩
      · rw [List.chain'_cons']
        refine ⟨?_, ichain⟩
        intro yh hy
        obtain ⟨ha, hcum⟩ := ihead yh hy
        have hlen := (imem yh (List.mem_of_mem_head? hy)).1
        refine ⟨?_, hcum, hlen⟩
        rw [ha]
      · intro s hs
        rcases List.mem_cons.mp hs with rfl | hs2
        · refine ⟨Real.sqrt_nonneg _, ?_, le_add_of_nonneg_right (Real.sqrt_nonneg _)⟩
          intro h0
          have hz : (((x : ℚ) : ℝ) - cur.x) ^ 2 + (((y : ℚ) : ℝ) - cur.y) ^ 2 ≤ 0 :=
            Real.sqrt_eq_zero'.mp h0
          have hx0 : (((x : ℚ) : ℝ) - cur.x) ^ 2 = 0 := by
            nlinarith [sq_nonneg (((x : ℚ) : ℝ) - cur.x), sq_nonneg (((y : ℚ) : ℝ) - cur.y)]
          have hy0 : (((y : ℚ) : ℝ) - cur.y) ^ 2 = 0 := by
            nlinarith [sq_nonneg (((x : ℚ) : ℝ) - cur.x), sq_nonneg (((y : ℚ) : ℝ) - cur.y)]
          refine PtR_ext ?_ ?_
          · have := (pow_eq_zero_iff (two_ne_zero)).mp hx0
            show cur.x = ((x : ℚ) : ℝ)
            linarith [sub_eq_zero.mp this]
          · have := (pow_eq_zero_iff (two_ne_zero)).mp hy0
            show cur.y = ((y : ℚ) : ℝ)
            linarith [sub_eq_zero.mp this]
        · obtain ⟨l1, l2, l3⟩ := imem s hs2
          exact ⟨l1, l2, le_trans (le_add_of_nonneg_right (Real.sqrt_nonneg _)) l3⟩
      · intro h2 hh
        rw [List.head?_cons, Option.mem_some_iff] at hh
        subst hh
        exact ⟨rfl, rfl⟩

lemma playback_facts (moves : List NC.Move) :
    List.Chain' (fun s t => s.b = t.a ∧ t.cum = s.cum + t.len ∧ 0 ≤ t.len)
      (NC.buildPlayback moves) ∧
    (∀ s ∈ NC.buildPlayback moves, 0 ≤ s.len ∧ (s.len = 0 → s.a = s.b) ∧ 0 ≤ s.cum) ∧
    (∀ h2 ∈ (NC.buildPlayback moves).head?, h2.a = ⟨0, 0⟩ ∧ h2.cum = 0 + h2.len) := by
  have h := playLoop_struct moves ⟨0, 0⟩ 0
  exact ⟨h.1, h.2.1, h.2.2⟩

lemma psAt_step (moves : List NC.Move) (k : Nat)
    (h : k + 1 < (NC.buildPlayback moves).length) :
    (NC.psAt (NC.buildPlayback moves) k).b = (NC.psAt (NC.buildPlayback moves) (k + 1)).a ∧
    (NC.psAt (NC.buildPlayback moves) (k + 1)).cum
      = (NC.psAt (NC.buildPlayback moves) k).cum
        + (NC.psAt (NC.buildPlayback moves) (k + 1)).len ∧
    0 ≤ (NC.psAt (NC.buildPlayback moves) (k + 1)).len := by
  have hc := (playback_facts moves).1
  rw [List.chain'_iff_get] at hc
  have h2 := hc k (by omega)
  rw [List.get_eq_getElem, List.get_eq_getElem] at h2
  have e1 : NC.psAt (NC.buildPlayback moves) k = (NC.buildPlayback moves)[k] :=
    List.getD_eq_getElem _ _ (by omega)
  have e2 : NC.psAt (NC.buildPlayback moves) (k + 1) = (NC.buildPlayback moves)[k + 1] :=
    List.getD_eq_getElem _ _ h
  rw [e1, e2]
  exact h2

lemma psAt_mem_facts (moves : List NC.Move) (k : Nat)
    (h : k < (NC.buildPlayback moves).length) :
    0 ≤ (NC.psAt (NC.buildPlayback moves) k).len ∧
    ((NC.psAt (NC.buildPlayback moves) k).len = 0 →
      (NC.psAt (NC.buildPlayback moves) k).a = (NC.psAt (NC.buildPlayback moves) k).b) ∧
    0 ≤ (NC.psAt (NC.buildPlayback moves) k).cum := by
  have e : NC.psAt (NC.buildPlayback moves) k = (NC.buildPlayback moves)[k] :=
    List.getD_eq_getElem _ _ h
  rw [e]
  exact (playback_facts moves).2.1 _ (List.getElem_mem h)

lemma psAt_cum_nonneg (moves : List NC.Move) (k : Nat) :
    0 ≤ (NC.psAt (NC.buildPlayback moves) k).cum := by
  by_cases h : k < (NC.buildPlayback moves).length
  · exact (psAt_mem_facts moves k h).2.2
  · have e : NC.psAt (NC.buildPlayback moves) k = default :=
      List.getD_eq_default _ _ (by omega)
    rw [e]
    exact le_refl 0

lemma psAt_mono (moves : List NC.Move) :
    ∀ j k, j ≤ k → k < (NC.buildPlayback moves).length →
      (NC.psAt (NC.buildPlayback moves) j).cum
        ≤ (NC.psAt (NC.buildPlayback moves) k).cum := by
  intro j k
  induction k with
  | zero =>
    intro hjk _
    have h0 : j = 0 := Nat.le_zero.mp hjk
    subst h0
    exact le_refl _
  | succ k ih =>
    intro hjk hk
    by_cases hje : j = k + 1
    · subst hje
      exact le_refl _
    · have hjk2 : j ≤ k := by omega
      obtain ⟨_, hcum, hlen⟩ := psAt_step moves k hk
      have h1 := ih hjk2 (by omega)
      rw [hcum]
      linarith

/-- Specification of the binary search: starting from a window whose
left part is all below the target, it returns the least index in the
window whose cumulative length reaches the target (or the window's right
edge if none does). -/
lemma bsearch_spec (segs : List NC.PlaySeg) (target : ℝ)
    (hmono : ∀ j k, j ≤ k → k < segs.length →
      (NC.psAt segs j).cum ≤ (NC.psAt segs k).cum) :
    ∀ (fuel lo hi : Nat), lo ≤ hi → hi < segs.length → hi - lo ≤ fuel →
      (∀ k, k < lo → (NC.psAt segs k).cum < target) →
      lo ≤ NC.bsearchLoop segs target fuel lo hi ∧
      NC.bsearchLoop segs target fuel lo hi ≤ hi ∧
      (∀ k, k < NC.bsearchLoop segs target fuel lo hi → (NC.psAt segs k).cum < target) ∧
      (NC.bsearchLoop segs target fuel lo hi ≠ hi →
        target ≤ (NC.psAt segs (NC.bsearchLoop segs target fuel lo hi)).cum) := by
  intro fuel
  induction fuel with
  | zero =>
    intro lo hi hlohi hhin hfuel hplo
    have heq : lo = hi := by omega
    have hr : NC.bsearchLoop segs target 0 lo hi = lo := rfl
    rw [hr]
    exact ⟨le_refl _, hlohi, hplo, fun hne => absurd heq hne⟩
  | succ fuel ih =>
    intro lo hi hlohi hhin hfuel hplo
    by_cases hlt : lo < hi
    · by_cases hcm : (NC.psAt segs ((lo + hi) / 2)).cum < target
      · have hr : NC.bsearchLoop segs target (fuel + 1) lo hi
            = NC.bsearchLoop segs target fuel ((lo + hi) / 2 + 1) hi := by
          simp only [NC.bsearchLoop, if_pos hlt, if_pos hcm]
        rw [hr]
        have h2 := ih ((lo + hi) / 2 + 1) hi (by omega) hhin (by omega) ?_
        · exact ⟨le_trans (by omega) h2.1, h2.2.1, h2.2.2.1, h2.2.2.2⟩
        · intro k hk
          exact lt_of_le_of_lt (hmono k ((lo + hi) / 2) (by omega) (by omega)) hcm
      · have hr : NC.bsearchLoop segs target (fuel + 1) lo hi
            = NC.bsearchLoop segs target fuel lo ((lo + hi) / 2) := by
          simp only [NC.bsearchLoop, if_pos hlt, if_neg hcm]
        rw [hr]
        have h2 := ih lo ((lo + hi) / 2) (by omega) (by omega) (by omega) hplo
        refine ⟨h2.1, by omega, h2.2.2.1, ?_⟩
        intro _
        by_cases hrm : NC.bsearchLoop segs target fuel lo ((lo + hi) / 2) = (lo + hi) / 2
        · rw [hrm]
          exact not_lt.mp hcm
        · exact h2.2.2.2 hrm
    · have heq : lo = hi := by omega
      have hr : NC.bsearchLoop segs target (fuel + 1) lo hi = lo := by
        simp only [NC.bsearchLoop, if_neg hlt]
      rw [hr]
      exact ⟨le_refl _, hlohi, hplo, fun hne => absurd heq hne⟩

lemma psAt_last (segs : List NC.PlaySeg) :
    segs.getLastD default = NC.psAt segs (segs.length - 1) := by
  rw [List.getLastD_eq_getLast?, List.getLast?_eq_getElem?, NC.psAt,
    List.getD_eq_getElem?_getD]

lemma psAt_zero_cum (moves : List NC.Move) (hne : NC.buildPlayback moves ≠ []) :
    (NC.psAt (NC.buildPlayback moves) 0).cum = 0 + (NC.psAt (NC.buildPlayback moves) 0).len := by
  have hlen : 0 < (NC.buildPlayback moves).length := List.length_pos.mpr hne
  have e : NC.psAt (NC.buildPlayback moves) 0 = (NC.buildPlayback moves)[0] :=
    List.getD_eq_getElem _ _ hlen
  have hmem : (NC.buildPlayback moves)[0] ∈ (NC.buildPlayback moves).head? := by
    rw [List.head?_eq_getElem?, List.getElem?_eq_getElem hlen]
    rfl
  rw [e]
  exact ((playback_facts moves).2.2 _ hmem).2

/-- Once the cumulative length has reached its final value, all later
segments have zero length, equal endpoints, and chain through the same
point: the endpoint at the selected index equals the final endpoint. -/
lemma b_propagate (moves : List NC.Move) (r : Nat)
    (hr : r < (NC.buildPlayback moves).length)
    (hcum : (NC.psAt (NC.buildPlayback moves) r).cum
      = (NC.psAt (NC.buildPlayback moves) ((NC.buildPlayback moves).length - 1)).cum) :
    (NC.psAt (NC.buildPlayback moves) r).b
      = (NC.psAt (NC.buildPlayback moves) ((NC.buildPlayback moves).length - 1)).b := by
  have hkey : ∀ d, r + d < (NC.buildPlayback moves).length →
      (NC.psAt (NC.buildPlayback moves) (r + d)).b
        = (NC.psAt (NC.buildPlayback moves) r).b := by
    intro d
    induction d with
    | zero => intro _; rfl
    | succ d ihd =>
      intro hd
      have hb := ihd (by omega)
      obtain ⟨hba, hcumStep, _⟩ := psAt_step moves (r + d) (by omega)
      have hcum1 : (NC.psAt (NC.buildPlayback moves) (r + d)).cum
          = (NC.psAt (NC.buildPlayback moves) r).cum := by
        have le1 := psAt_mono moves r (r + d) (by omega) (by omega)
        have le2 := psAt_mono moves (r + d)
          ((NC.buildPlayback moves).length - 1) (by omega) (by omega)
        rw [← hcum] at le2
        exact le_antisymm le2 le1
      have hcum2 : (NC.psAt (NC.buildPlayback moves) (r + d + 1)).cum
          = (NC.psAt (NC.buildPlayback moves) r).cum := by
        have le1 := psAt_mono moves r (r + d + 1) (by omega) (by omega)
        have le2 := psAt_mono moves (r + d + 1)
          ((NC.buildPlayback moves).length - 1) (by omega) (by omega)
        rw [← hcum] at le2
        exact le_antisymm le2 le1
      have hlen0 : (NC.psAt (NC.buildPlayback moves) (r + d + 1)).len = 0 := by
        rw [hcum1] at hcumStep
        rw [hcum2] at hcumStep
        linarith
      have hab := (psAt_mem_facts moves (r + d + 1) (by omega)).2.1 hlen0
      show (NC.psAt (NC.buildPlayback moves) (r + d + 1)).b = _
      rw [← hab, ← hba, hb]
  have h := hkey ((NC.buildPlayback moves).length - 1 - r) (by omega)
  rw [show r + ((NC.buildPlayback moves).length - 1 - r)
      = (NC.buildPlayback moves).length - 1 by omega] at h
  exact h.symm

/-- Evaluation shape of `pointAtT` on a nonempty playback list, with the
binary-search result, the target and the previous cumulative length
abstracted. -/
lemma pointAtT_at_index (segs : List NC.PlaySeg) (t : ℝ) (hne : segs ≠ [])
    (r : Nat) (TGT prev : ℝ)
    (htgt : t * (if (segs.getLastD default).cum = 0 then 1
        else (segs.getLastD default).cum) = TGT)
    (hr : NC.bsearchLoop segs TGT segs.length 0 (segs.length - 1) = r)
    (hprev : (if r = 0 then (0 : ℝ) else (NC.psAt segs (r - 1)).cum) = prev) :
    NC.pointAtT segs t = some
      ⟨(NC.psAt segs r).a.x + ((NC.psAt segs r).b.x - (NC.psAt segs r).a.x)
          * (if (NC.psAt segs r).len = 0 then 0 else (TGT - prev) / (NC.psAt segs r).len),
       (NC.psAt segs r).a.y + ((NC.psAt segs r).b.y - (NC.psAt segs r).a.y)
          * (if (NC.psAt segs r).len = 0 then 0 else (TGT - prev) / (NC.psAt segs r).len),
       (NC.psAt segs r).mode⟩ := by
  simp only [NC.pointAtT, if_neg hne, htgt, hr, hprev]

/-- `pointAtT … 0` returns the start point of the first playback
segment (the binary search lands on index `0` because all cumulative
lengths are nonnegative and the target is `0`). -/
lemma pointAtT_zero (moves : List NC.Move) (hne : NC.buildPlayback moves ≠ []) :
    NC.pointAtT (NC.buildPlayback moves) 0
      = some ⟨(NC.psAt (NC.buildPlayback moves) 0).a.x,
              (NC.psAt (NC.buildPlayback moves) 0).a.y,
              (NC.psAt (NC.buildPlayback moves) 0).mode⟩ := by
  have hlen : 0 < (NC.buildPlayback moves).length := List.length_pos.mpr hne
  have hr : NC.bsearchLoop (NC.buildPlayback moves) 0
      (NC.buildPlayback moves).length 0 ((NC.buildPlayback moves).length - 1) = 0 := by
    have hs := bsearch_spec (NC.buildPlayback moves) 0 (psAt_mono moves)
      (NC.buildPlayback moves).length 0 ((NC.buildPlayback moves).length - 1)
      (by omega) (by omega) (by omega) (fun k hk => absurd hk (Nat.not_lt_zero k))
    by_contra hne0
    have h0 := hs.2.2.1 0 (by omega)
    have := psAt_cum_nonneg moves 0
    linarith
  have heval := pointAtT_at_index (NC.buildPlayback moves) 0 hne 0 0 0
    (zero_mul _) hr (if_pos rfl)
  rw [heval]
  by_cases hL : (NC.psAt (NC.buildPlayback moves) 0).len = 0
  · simp [hL]
  · simp [hL]

/-- `pointAtT … 1` returns the endpoint of the last playback segment:
the search lands on the first index whose cumulative length reaches the
total, interpolation gives `u = 1` there (or `u = 0` on a zero-length
segment whose endpoints coincide), and all later segments are
zero-length repeats of the same point. -/
lemma pointAtT_one (moves : List NC.Move) (hne : NC.buildPlayback moves ≠ []) :
    ∃ m, NC.pointAtT (NC.buildPlayback moves) 1
      = some ⟨((NC.buildPlayback moves).getLastD default).b.x,
              ((NC.buildPlayback moves).getLastD default).b.y, m⟩ := by
  have hlen : 0 < (NC.buildPlayback moves).length := List.length_pos.mpr hne
  by_cases hz : ((NC.buildPlayback moves).getLastD default).cum = 0
  · -- all-zero total: total is 1, the search runs to the last index,
    -- whose length is zero, so the position is its (equal) endpoints.
    have hzn : (NC.psAt (NC.buildPlayback moves)
        ((NC.buildPlayback moves).length - 1)).cum = 0 := by
      rw [← psAt_last]
      exact hz
    have hs := bsearch_spec (NC.buildPlayback moves) 1 (psAt_mono moves)
      (NC.buildPlayback moves).length 0 ((NC.buildPlayback moves).length - 1)
      (by omega) (by omega) (by omega) (fun k hk => absurd hk (Nat.not_lt_zero k))
    obtain ⟨hr0, hrhi, hbelow, hattop⟩ := hs
    have hre : NC.bsearchLoop (NC.buildPlayback moves) 1
        (NC.buildPlayback moves).length 0 ((NC.buildPlayback moves).length - 1)
        = (NC.buildPlayback moves).length - 1 := by
      by_contra hneq
      have h1 := hattop hneq
      have h2 := psAt_mono moves _ ((NC.buildPlayback moves).length - 1)
        hrhi (by omega)
      rw [hzn] at h2
      linarith
    have htgt : (1 : ℝ) * (if ((NC.buildPlayback moves).getLastD default).cum = 0 then 1
        else ((NC.buildPlayback moves).getLastD default).cum) = 1 := by
      rw [if_pos hz, one_mul]
    have hlen0 : (NC.psAt (NC.buildPlayback moves)
        ((NC.buildPlayback moves).length - 1)).len = 0 := by
      by_cases h1 : (NC.buildPlayback moves).length - 1 = 0
      · have := psAt_zero_cum moves hne
        rw [← h1] at this
        rw [this] at hzn
        linarith
      · obtain ⟨_, hcumStep, hlnn⟩ := psAt_step moves
          ((NC.buildPlayback moves).length - 1 - 1) (by omega)
        rw [show (NC.buildPlayback moves).length - 1 - 1 + 1
            = (NC.buildPlayback moves).length - 1 by omega] at hcumStep hlnn
        have hnn := psAt_cum_nonneg moves ((NC.buildPlayback moves).length - 1 - 1)
        rw [hzn] at hcumStep
        linarith
    have hab := (psAt_mem_facts moves ((NC.buildPlayback moves).length - 1)
      (by omega)).2.1 hlen0
    have heval := pointAtT_at_index (NC.buildPlayback moves) 1 hne
      ((NC.buildPlayback moves).length - 1) 1
      (if (NC.buildPlayback moves).length - 1 = 0 then (0 : ℝ)
        else (NC.psAt (NC.buildPlayback moves)
          ((NC.buildPlayback moves).length - 1 - 1)).cum)
      htgt hre rfl
    refine ⟨(NC.psAt (NC.buildPlayback moves)
      ((NC.buildPlayback moves).length - 1)).mode, ?_⟩
    rw [heval, psAt_last]
    rw [if_pos hlen0, ← hab]
    norm_num
  · -- nonzero total: the target is the final cumulative length.
    have hT := psAt_cum_nonneg moves ((NC.buildPlayback moves).length - 1)
    have hzn : (NC.psAt (NC.buildPlayback moves)
        ((NC.buildPlayback moves).length - 1)).cum
        = ((NC.buildPlayback moves).getLastD default).cum := by
      rw [← psAt_last]
    have hTpos : 0 < ((NC.buildPlayback moves).getLastD default).cum := by
      rw [← hzn]
      rcases lt_or_eq_of_le hT with h | h
      · exact h
      · rw [← hzn] at hz
        exact absurd h.symm hz
    have htgt : (1 : ℝ) * (if ((NC.buildPlayback moves).getLastD default).cum = 0 then 1
        else ((NC.buildPlayback moves).getLastD default).cum)
        = ((NC.buildPlayback moves).getLastD default).cum := by
      rw [if_neg hz, one_mul]
    have hs := bsearch_spec (NC.buildPlayback moves)
      ((NC.buildPlayback moves).getLastD default).cum (psAt_mono moves)
      (NC.buildPlayback moves).length 0 ((NC.buildPlayback moves).length - 1)
      (by omega) (by omega) (by omega) (fun k hk => absurd hk (Nat.not_lt_zero k))
    obtain ⟨hr0, hrhi, hbelow, hattop⟩ := hs
    have hcumr : (NC.psAt (NC.buildPlayback moves)
        (NC.bsearchLoop (NC.buildPlayback moves)
          ((NC.buildPlayback moves).getLastD default).cum
          (NC.buildPlayback moves).length 0 ((NC.buildPlayback moves).length - 1))).cum
        = ((NC.buildPlayback moves).getLastD default).cum := by
      by_cases hneq : NC.bsearchLoop (NC.buildPlayback moves)
          ((NC.buildPlayback moves).getLastD default).cum
          (NC.buildPlayback moves).length 0 ((NC.buildPlayback moves).length - 1)
          = (NC.buildPlayback moves).length - 1
      · rw [hneq, hzn]
      · have h1 := hattop hneq
        have h2 := psAt_mono moves _ ((NC.buildPlayback moves).length - 1)
          hrhi (by omega)
        rw [hzn] at h2
        exact le_antisymm h2 h1
    have hprevlen : (NC.psAt (NC.buildPlayback moves)
        (NC.bsearchLoop (NC.buildPlayback moves)
          ((NC.buildPlayback moves).getLastD default).cum
          (NC.buildPlayback moves).length 0 ((NC.buildPlayback moves).length - 1))).cum
        - (if NC.bsearchLoop (NC.buildPlayback moves)
            ((NC.buildPlayback moves).getLastD default).cum
            (NC.buildPlayback moves).length 0 ((NC.buildPlayback moves).length - 1) = 0
          then (0 : ℝ)
          else (NC.psAt (NC.buildPlayback moves)
            (NC.bsearchLoop (NC.buildPlayback moves)
              ((NC.buildPlayback moves).getLastD default).cum
              (NC.buildPlayback moves).length 0
              ((NC.buildPlayback moves).length - 1) - 1)).cum)
        = (NC.psAt (NC.buildPlayback moves)
          (NC.bsearchLoop (NC.buildPlayback moves)
            ((NC.buildPlayback moves).getLastD default).cum
            (NC.buildPlayback moves).length 0
            ((NC.buildPlayback moves).length - 1))).len := by
      by_cases h0 : NC.bsearchLoop (NC.buildPlayback moves)
          ((NC.buildPlayback moves).getLastD default).cum
          (NC.buildPlayback moves).length 0 ((NC.buildPlayback moves).length - 1) = 0
      · rw [if_pos h0, h0]
        have := psAt_zero_cum moves hne
        linarith
      · rw [if_neg h0]
        obtain ⟨_, hcumStep, _⟩ := psAt_step moves
          (NC.bsearchLoop (NC.buildPlayback moves)
            ((NC.buildPlayback moves).getLastD default).cum
            (NC.buildPlayback moves).length 0 ((NC.buildPlayback moves).length - 1) - 1)
          (by omega)
        rw [show NC.bsearchLoop (NC.buildPlayback moves)
            ((NC.buildPlayback moves).getLastD default).cum
            (NC.buildPlayback moves).length 0 ((NC.buildPlayback moves).length - 1) - 1 + 1
            = NC.bsearchLoop (NC.buildPlayback moves)
              ((NC.buildPlayback moves).getLastD default).cum
              (NC.buildPlayback moves).length 0
              ((NC.buildPlayback moves).length - 1) by omega] at hcumStep
        linarith
    have hbp := b_propagate moves
      (NC.bsearchLoop (NC.buildPlayback moves)
        ((NC.buildPlayback moves).getLastD default).cum
        (NC.buildPlayback moves).length 0 ((NC.buildPlayback moves).length - 1))
      (by omega) (by rw [hcumr, hzn])
    have heval := pointAtT_at_index (NC.buildPlayback moves) 1 hne
      (NC.bsearchLoop (NC.buildPlayback moves)
        ((NC.buildPlayback moves).getLastD default).cum
        (NC.buildPlayback moves).length 0 ((NC.buildPlayback moves).length - 1))
      ((NC.buildPlayback moves).getLastD default).cum
      (if NC.bsearchLoop (NC.buildPlayback moves)
          ((NC.buildPlayback moves).getLastD default).cum
          (NC.buildPlayback moves).length 0 ((NC.buildPlayback moves).length - 1) = 0
        then (0 : ℝ)
        else (NC.psAt (NC.buildPlayback moves)
          (NC.bsearchLoop (NC.buildPlayback moves)
            ((NC.buildPlayback moves).getLastD default).cum
            (NC.buildPlayback moves).length 0
            ((NC.buildPlayback moves).length - 1) - 1)).cum)
      htgt rfl rfl
    refine ⟨(NC.psAt (NC.buildPlayback moves)
      (NC.bsearchLoop (NC.buildPlayback moves)
        ((NC.buildPlayback moves).getLastD default).cum
        (NC.buildPlayback moves).length 0
        ((NC.buildPlayback moves).length - 1))).mode, ?_⟩
    rw [heval]
    by_cases hL : (NC.psAt (NC.buildPlayback moves)
        (NC.bsearchLoop (NC.buildPlayback moves)
          ((NC.buildPlayback moves).getLastD default).cum
          (NC.buildPlayback moves).length 0 ((NC.buildPlayback moves).length - 1))).len = 0
    · have hab := (psAt_mem_facts moves _ (by omega)).2.1 hL
      rw [if_pos hL]
      simp only [mul_zero, add_zero]
      rw [hab, hbp, psAt_last]
    · have hu : (((NC.buildPlayback moves).getLastD default).cum
          - (if NC.bsearchLoop (NC.buildPlayback moves)
              ((NC.buildPlayback moves).getLastD default).cum
              (NC.buildPlayback moves).length 0 ((NC.buildPlayback moves).length - 1) = 0
            then (0 : ℝ)
            else (NC.psAt (NC.buildPlayback moves)
              (NC.bsearchLoop (NC.buildPlayback moves)
                ((NC.buildPlayback moves).getLastD default).cum
                (NC.buildPlayback moves).length 0
                ((NC.buildPlayback moves).length - 1) - 1)).cum))
          / (NC.psAt (NC.buildPlayback moves)
            (NC.bsearchLoop (NC.buildPlayback moves)
              ((NC.buildPlayback moves).getLastD default).cum
              (NC.buildPlayback moves).length 0
              ((NC.buildPlayback moves).length - 1))).len = 1 := by
        have h2 : ((NC.buildPlayback moves).getLastD default).cum
            - (if NC.bsearchLoop (NC.buildPlayback moves)
                ((NC.buildPlayback moves).getLastD default).cum
                (NC.buildPlayback moves).length 0 ((NC.buildPlayback moves).length - 1) = 0
              then (0 : ℝ)
              else (NC.psAt (NC.buildPlayback moves)
                (NC.bsearchLoop (NC.buildPlayback moves)
                  ((NC.buildPlayback moves).getLastD default).cum
                  (NC.buildPlayback moves).length 0
                  ((NC.buildPlayback moves).length - 1) - 1)).cum)
            = (NC.psAt (NC.buildPlayback moves)
              (NC.bsearchLoop (NC.buildPlayback moves)
                ((NC.buildPlayback moves).getLastD default).cum
                (NC.buildPlayback moves).length 0
                ((NC.buildPlayback moves).length - 1))).len := by
          linarith [hcumr, hprevlen]
        rw [h2]
        exact div_self hL
      rw [if_neg hL, hu]
      have e : ∀ a b : ℝ, a + (b - a) * 1 = b := by
        intro a b
        ring
      rw [e, e, hbp, psAt_last]

/-- C5: playback model correctness.  The playback list has non-decreasing
cumulative lengths; on a nonempty playback, position-at-fraction `0`
returns the first segment's start point and position-at-fraction `1` the
last segment's endpoint; an empty move list yields no position (`none`);
and whenever the segment selected by the cumulative-length lookup has
zero length, the interpolation uses `u = 0`, returning that segment's
start point. -/
theorem C5_playback_model (moves : List NC.Move) :
    List.Chain' (fun s t => s.cum ≤ t.cum) (NC.buildPlayback moves) ∧
    (∀ t : ℝ, NC.pointAtT (NC.buildPlayback []) t = none) ∧
    (NC.buildPlayback moves ≠ [] →
      NC.pointAtT (NC.buildPlayback moves) 0
        = some ⟨(NC.psAt (NC.buildPlayback moves) 0).a.x,
                (NC.psAt (NC.buildPlayback moves) 0).a.y,
                (NC.psAt (NC.buildPlayback moves) 0).mode⟩) ∧
    (NC.buildPlayback moves ≠ [] →
      ∃ m, NC.pointAtT (NC.buildPlayback moves) 1
        = some ⟨((NC.buildPlayback moves).getLastD default).b.x,
                ((NC.buildPlayback moves).getLastD default).b.y, m⟩) ∧
    (∀ (segs : List NC.PlaySeg) (t : ℝ), segs ≠ [] → ∀ (TGT prev : ℝ) (r : Nat),
      t * (if (segs.getLastD default).cum = 0 then 1 else (segs.getLastD default).cum)
        = TGT →
      NC.bsearchLoop segs TGT segs.length 0 (segs.length - 1) = r →
      (if r = 0 then (0 : ℝ) else (NC.psAt segs (r - 1)).cum) = prev →
      (NC.psAt segs r).len = 0 →
      NC.pointAtT segs t = some
        ⟨(NC.psAt segs r).a.x, (NC.psAt segs r).a.y, (NC.psAt segs r).mode⟩) := by
  refine ⟨?_, ?_, pointAtT_zero moves, pointAtT_one moves, ?_⟩
  · exact List.Chain'.imp (fun a b hab => by rw [hab.2.1]; linarith [hab.2.2])
      (playback_facts moves).1
  · intro t
    have h : NC.buildPlayback [] = [] := rfl
    rw [h]
    simp [NC.pointAtT]
  · intro segs t hne TGT prev r htgt hr hprev hlen0
    rw [pointAtT_at_index segs t hne r TGT prev htgt hr hprev, if_pos hlen0]
    norm_num

/-- C5 witness: the single cut move to `(1,0)`: the playback list is
nonempty, position-at `0` is the first start and position-at `1` the
last endpoint. -/
theorem C5_playback_model_witness :
    NC.buildPlayback [NC.Move.cutLine 1 0] ≠ [] ∧
    NC.pointAtT (NC.buildPlayback [NC.Move.cutLine 1 0]) 0
      = some ⟨(NC.psAt (NC.buildPlayback [NC.Move.cutLine 1 0]) 0).a.x,
              (NC.psAt (NC.buildPlayback [NC.Move.cutLine 1 0]) 0).a.y,
              (NC.psAt (NC.buildPlayback [NC.Move.cutLine 1 0]) 0).mode⟩ ∧
    (∃ m, NC.pointAtT (NC.buildPlayback [NC.Move.cutLine 1 0]) 1
      = some ⟨((NC.buildPlayback [NC.Move.cutLine 1 0]).getLastD default).b.x,
              ((NC.buildPlayback [NC.Move.cutLine 1 0]).getLastD default).b.y, m⟩) := by
  have hne : NC.buildPlayback [NC.Move.cutLine 1 0] ≠ [] := by
    simp [NC.buildPlayback, NC.playLoop]
  have h := C5_playback_model [NC.Move.cutLine 1 0]
  exact ⟨hne, h.2.2.1 hne, h.2.2.2.1 hne⟩

end C5Playback

section C9Malformed

/-- C9 (corrected, for the guarded extractor of `part_001`): an entity
whose required point fields fail to normalize (`xyOf` yields nothing)
contributes zero segments — a LINE with a bad endpoint, a polyline or a
spline all of whose vertices are bad — and extraction is compositional:
each entity contributes its own segment list independently, so one
malformed entity never affects the others.  (The exact extractor of
`part_000` does NOT satisfy this; see the counterexample.) -/
theorem C9_malformed_entity (s e : E1.JVal) (verts : List E1.JVal) (closed : Bool)
    (fps cps : List E1.JVal) (pre post : List E1.Ent)
    (hline : E1.xyOf s = none ∨ E1.xyOf e = none)
    (hverts : ∀ v ∈ verts, E1.xyOf v = none)
    (hfps : ∀ v ∈ fps, E1.xyOf v = none)
    (hcps : ∀ v ∈ cps, E1.xyOf v = none) :
    E1.extractEnt (E1.Ent.line s e) = [] ∧
    E1.extractEnt (E1.Ent.poly verts closed) = [] ∧
    E1.extractEnt (E1.Ent.spline fps cps) = [] ∧
    ∀ ent : E1.Ent, E1.extractSegments (pre ++ ent :: post)
      = E1.extractSegments pre ++ E1.extractEnt ent ++ E1.extractSegments post := by
  refine ⟨?_, ?_, ?_, ?_⟩
  · rcases hline with h | h
    · cases he : E1.xyOf e <;> simp [E1.extractEnt, h, he]
    · cases hs : E1.xyOf s <;> simp [E1.extractEnt, h, hs]
  · have hv : verts.filterMap E1.xyOf = [] := List.filterMap_eq_nil.mpr hverts
    simp [E1.extractEnt, hv]
  · have hf : fps.filterMap E1.xyOf = [] := List.filterMap_eq_nil.mpr hfps
    have hc : cps.filterMap E1.xyOf = [] := List.filterMap_eq_nil.mpr hcps
    by_cases h : fps = []
    · simp [E1.extractEnt, h, hc]
    · simp [E1.extractEnt, h, hf]
  · intro ent
    simp [E1.extractSegments, List.flatMap_append, List.flatMap_cons]

/-- C9 witness: `null` endpoints and vertices: the LINE and the one-`null`
polyline both contribute zero segments. -/
theorem C9_malformed_entity_witness :
    E1.xyOf E1.JVal.null = none ∧
    E1.extractEnt (E1.Ent.line E1.JVal.null E1.JVal.null) = [] ∧
    E1.extractEnt (E1.Ent.poly [E1.JVal.null] true) = [] ∧
    E1.extractEnt (E1.Ent.spline [] [E1.JVal.null]) = [] := by
  have h := C9_malformed_entity E1.JVal.null E1.JVal.null [E1.JVal.null] true
    [] [E1.JVal.null] [] [] (Or.inl rfl)
    (by intro v hv; rw [List.mem_singleton] at hv; subst hv; rfl)
    (by intro v hv; cases hv)
    (by intro v hv; rw [List.mem_singleton] at hv; subst hv; rfl)
  exact ⟨rfl, h.1, h.2.1, h.2.2.1⟩

/-- C9 counterexample: the exact extractor of `part_000` copies LINE
endpoint fields without any finiteness guard, so a LINE whose start `x`
is missing/non-finite still contributes one (garbage) segment rather
than zero, refuting the claim for that code path. -/
theorem C9_malformed_entity_cex :
    E0.extractSegments [E0.Ent.line none (some 0) (some 1) (some 1)]
      = [E0.SegJ.line ⟨none, some 0⟩ ⟨some 1, some 1⟩] ∧
    (E0.extractSegments [E0.Ent.line none (some 0) (some 1) (some 1)]).length ≠ 0 := by
  have h : E0.extractSegments [E0.Ent.line none (some 0) (some 1) (some 1)]
      = [E0.SegJ.line ⟨none, some 0⟩ ⟨some 1, some 1⟩] := by
    simp [E0.extractSegments, E0.extractEnt]
  refine ⟨h, ?_⟩
  rw [h]
  simp

end C9Malformed
